import Mathlib

/-!
# Verification of the hdl.cpp core

A shallow embedding of the hdl.cpp hardware description library
(`hdl_bitstring.hpp`, `hdl.hpp`, `hdl_flatten.hpp`, `hdl_proof.hpp`,
`hdl_analysis.hpp`) together with proofs about the embedded definitions.

`BitString` (a fixed-width little-endian packed bit vector) is embedded as a
little-endian `List Bool` whose length is the width; each operation is
translated bit-for-bit from its C++ definition (word-level loops such as
`add_carry` are rendered as the bit-level carry recursion they implement,
numeric loops such as `mul_u`'s shift-and-add as the number they compute).
-/

namespace HdlSpec

/-- Embeds `hdl::BitString`: little-endian list of bits, width = length. -/
abbrev BitStr := List Bool

namespace BitStr

/-- Numeric (unsigned) value of a bit string, LSB first. -/
def toNat : BitStr → Nat
  | [] => 0
  | b :: bs => (cond b 1 0) + 2 * toNat bs

/-- The `w`-bit encoding of `n % 2^w` (used for arithmetic results). -/
def ofNat : Nat → Nat → BitStr
  | 0, _ => []
  | w + 1, n => (n % 2 == 1) :: ofNat w (n / 2)

/-- `BitString::operator==`: a width mismatch yields `false` (no error);
equal-width operands compare their significant bits. -/
def beq (a b : BitStr) : Bool :=
  if a.length ≠ b.length then false else a == b

/-- `BitString::operator!=`, defined as the negation of `operator==`. -/
def bne (a b : BitStr) : Bool := !(beq a b)

/-- `BitString::operator&` (bitwise and, equal widths). -/
def band (a b : BitStr) : BitStr := List.zipWith and a b

/-- `BitString::operator|`. -/
def bor (a b : BitStr) : BitStr := List.zipWith or a b

/-- `BitString::operator^`. -/
def bxor (a b : BitStr) : BitStr := List.zipWith xor a b

/-- `BitString::operator~`. -/
def bnot (a : BitStr) : BitStr := a.map (!·)

/-- `BitString::add_carry<initial_carry, invert=false>`: ripple-carry addition
(the C++ word-level carry loop, rendered bit by bit). -/
def addc : BitStr → BitStr → Bool → BitStr
  | a :: as, b :: bs, c =>
      (xor a (xor b c)) :: addc as bs ((c && a || c && b) || a && b)
  | _, _, _ => []

/-- `BitString::operator+` = `add_carry<false, false>`. -/
def add (a b : BitStr) : BitStr := addc a b false

/-- `BitString::operator-` = `add_carry<true, true>` (two's complement). -/
def sub (a b : BitStr) : BitStr := addc a (bnot b) true

/-- `BitString::operator<<` with a scalar shift (width preserved). -/
def shlN (a : BitStr) (n : Nat) : BitStr :=
  (List.replicate n false ++ a).take a.length

/-- `BitString::shr_u` with a scalar shift (zero fill). -/
def shrUN (a : BitStr) (n : Nat) : BitStr :=
  a.drop n ++ List.replicate (a.length - (a.drop n).length) false

/-- The sign bit `at(width - 1)`; `at` throws for width 0, all theorems that
involve the sign keep widths positive. -/
def sign (a : BitStr) : Bool := a.getLastD false

/-- `BitString::shr_s` with a scalar shift: `shr_u` then `fill_upper` with the
sign bit. -/
def shrSN (a : BitStr) (n : Nat) : BitStr :=
  a.drop n ++ List.replicate (a.length - (a.drop n).length) (sign a)

/-- `BitString::zero_extend` (callers establish `a.length ≤ w`). -/
def zeroExtend (w : Nat) (a : BitStr) : BitStr :=
  a ++ List.replicate (w - a.length) false

/-- `BitString::truncate` (callers establish `w ≤ a.length`). -/
def truncate (w : Nat) (a : BitStr) : BitStr := a.take w

/-- `BitString::concat`: `self` supplies the high bits, `other` the low bits,
so in LSB-first form the result is `other ++ self`. -/
def concatB (a b : BitStr) : BitStr := b ++ a

/-- `BitString::slice_width`: bits `[offset, offset+width)`; out of bounds
throws, modelled as `none`. -/
def sliceW (a : BitStr) (offset width : Nat) : Option BitStr :=
  if offset + width ≤ a.length then some ((a.drop offset).take width) else none

/-- `BitString::mul_u`: the shift-and-add loop accumulates
`Σ_{i, a[i]} (zero_extend b << i)` in `w_a + w_b` bits, which is the plain
product `toNat a * toNat b` (it fits without overflow). -/
def mulU (a b : BitStr) : BitStr := ofNat (a.length + b.length) (toNat a * toNat b)

/-- `BitString::operator*`: `mul_u` truncated back to the common width. -/
def mul (a b : BitStr) : BitStr := ofNat a.length (toNat a * toNat b)

/-- `BitString::as_uint64`: the lowest 64 bits, zero extended. -/
def asUint64 (a : BitStr) : Nat := toNat (a.take 64)

/-- `BitString::lt_u`: the word-lexicographic (high to low) comparison of
equal-width operands is exactly the numeric unsigned comparison. -/
def ltU (a b : BitStr) : Bool := decide (toNat a < toNat b)

/-- `BitString::le_u` = `lt_u(other) || (*this) == other`. -/
def leU (a b : BitStr) : Bool := ltU a b || beq a b

/-- `BitString::lt_s`: equal signs compare unsigned, else negative < positive. -/
def ltS (a b : BitStr) : Bool :=
  if sign a = sign b then ltU a b else sign a && !(sign b)

/-- `BitString::le_s` = `lt_s(other) || (*this) == other`. -/
def leS (a b : BitStr) : Bool := ltS a b || beq a b

/-- `BitString::min_u`. -/
def minU (a b : BitStr) : BitStr := if ltU a b then a else b

/-- `BitString::max_u`. -/
def maxU (a b : BitStr) : BitStr := if ltU a b then b else a

/-- `BitString::is_zero`. -/
def isZero (a : BitStr) : Bool := a.all (!·)

/-- `BitString::is_all_ones`. -/
def isAllOnes (a : BitStr) : Bool := a.all id

/-- `BitString::one`. -/
def oneB (w : Nat) : BitStr := ofNat w 1

/-- `BitString::from_bool`. -/
def fromBool (b : Bool) : BitStr := [b]

/-- `BitString::upper`: ones from bit `from_bit` upward, zeros below. -/
def upperB (w fromBit : Nat) : BitStr :=
  List.replicate (min fromBit w) false ++ List.replicate (w - fromBit) true

/-- `BitString::select` on a width-1 condition (`at(0)`). -/
def selectB (c t e : BitStr) : BitStr := if c.headD false then t else e

/-- Checked `operator&`: `ensure_same_width` throws on a width mismatch. -/
def bandChecked (a b : BitStr) : Option BitStr :=
  if a.length = b.length then some (band a b) else none

/-- Checked `operator|`. -/
def borChecked (a b : BitStr) : Option BitStr :=
  if a.length = b.length then some (bor a b) else none

/-- Checked `operator^`. -/
def bxorChecked (a b : BitStr) : Option BitStr :=
  if a.length = b.length then some (bxor a b) else none

/-- Checked `operator+`. -/
def addChecked (a b : BitStr) : Option BitStr :=
  if a.length = b.length then some (add a b) else none

/-- Checked `operator-`. -/
def subChecked (a b : BitStr) : Option BitStr :=
  if a.length = b.length then some (sub a b) else none

/-- Checked `operator*`. -/
def mulChecked (a b : BitStr) : Option BitStr :=
  if a.length = b.length then some (mul a b) else none

/-- Checked `lt_u`. -/
def ltUChecked (a b : BitStr) : Option Bool :=
  if a.length = b.length then some (ltU a b) else none

/-- Checked `lt_s`. -/
def ltSChecked (a b : BitStr) : Option Bool :=
  if a.length = b.length then some (ltS a b) else none

/-- Checked `le_u`. -/
def leUChecked (a b : BitStr) : Option Bool :=
  if a.length = b.length then some (leU a b) else none

/-- Checked `le_s`. -/
def leSChecked (a b : BitStr) : Option Bool :=
  if a.length = b.length then some (leS a b) else none

theorem toNat_lt (a : BitStr) : toNat a < 2 ^ a.length := by
  induction a with
  | nil => simp [toNat]
  | cons b bs ih =>
      simp only [toNat, List.length_cons, pow_succ]
      cases b <;> simp <;> omega

theorem toNat_append (a b : BitStr) :
    toNat (a ++ b) = toNat a + 2 ^ a.length * toNat b := by
  induction a with
  | nil => simp [toNat]
  | cons x xs ih =>
      simp only [List.cons_append, toNat, List.length_cons, pow_succ, List.append_eq]
      rw [ih]
      ring

theorem toNat_replicate_false (n : Nat) : toNat (List.replicate n false) = 0 := by
  induction n with
  | zero => rfl
  | succ n ih => simp [List.replicate_succ, toNat, ih]

theorem mod_mul_two_aux (c a m : Nat) (hc : c < 2) (hm : 0 < m) :
    (c + 2 * a) % (m * 2) = c + 2 * (a % m) := by
  have h : c + 2 * a = (c + 2 * (a % m)) + (m * 2) * (a / m) := by
    conv_lhs => rw [← Nat.div_add_mod a m]
    ring
  rw [h, Nat.add_mul_mod_self_left]
  exact Nat.mod_eq_of_lt (by have := Nat.mod_lt a hm; omega)

theorem div_mul_two_aux (c a m : Nat) (hc : c < 2) :
    (c + 2 * a) / (m * 2) = a / m := by
  rw [mul_comm m 2, ← Nat.div_div_eq_div_mul]
  congr 1
  omega

theorem toNat_ofNat (w n : Nat) : toNat (ofNat w n) = n % 2 ^ w := by
  induction w generalizing n with
  | zero => simp [ofNat, toNat, Nat.mod_one]
  | succ w ih =>
      simp only [ofNat, toNat, ih, pow_succ]
      have hb : (cond (n % 2 == 1) 1 0 : Nat) = n % 2 := by
        rcases Nat.mod_two_eq_zero_or_one n with h | h <;> simp [h]
      rw [hb, show (2 : Nat) ^ w * 2 = 2 ^ w * 2 from rfl]
      have h2 : n % 2 < 2 := Nat.mod_lt n (by omega)
      calc n % 2 + 2 * (n / 2 % 2 ^ w)
          = (n % 2 + 2 * (n / 2)) % (2 ^ w * 2) := by
            rw [mod_mul_two_aux _ _ _ h2 (Nat.pos_pow_of_pos w (by omega))]
        _ = n % (2 ^ w * 2) := by
            have := Nat.div_add_mod n 2; congr 1; omega

theorem length_ofNat (w n : Nat) : (ofNat w n).length = w := by
  induction w generalizing n with
  | zero => rfl
  | succ w ih => simp [ofNat, ih]

theorem ofNat_toNat (a : BitStr) : ofNat a.length (toNat a) = a := by
  induction a with
  | nil => rfl
  | cons b bs ih =>
      simp only [List.length_cons, ofNat, toNat]
      have h1 : (((cond b 1 0 : Nat) + 2 * toNat bs) % 2 == 1) = b := by
        cases b <;> simp <;> omega
      have h2 : ((cond b 1 0 : Nat) + 2 * toNat bs) / 2 = toNat bs := by
        cases b <;> simp [Nat.add_mul_div_left] <;> omega
      rw [h1, h2, ih]

theorem toNat_inj {a b : BitStr} (hl : a.length = b.length)
    (h : toNat a = toNat b) : a = b := by
  have := ofNat_toNat a
  rw [h, hl, ofNat_toNat] at this
  exact this.symm

theorem toNat_take (a : BitStr) (n : Nat) :
    toNat (a.take n) = toNat a % 2 ^ n := by
  induction a generalizing n with
  | nil => simp [toNat]
  | cons b bs ih =>
      cases n with
      | zero => simp [toNat, Nat.mod_one]
      | succ n =>
          simp only [List.take_succ_cons, toNat, ih, pow_succ]
          have hb : (cond b 1 0 : Nat) < 2 := by cases b <;> simp
          rw [mod_mul_two_aux _ _ _ hb (Nat.pos_pow_of_pos n (by omega))]

theorem toNat_drop (a : BitStr) (n : Nat) :
    toNat (a.drop n) = toNat a / 2 ^ n := by
  induction a generalizing n with
  | nil => simp [toNat]
  | cons b bs ih =>
      cases n with
      | zero => simp
      | succ n =>
          simp only [List.drop_succ_cons, toNat, ih, pow_succ]
          have hb : (cond b 1 0 : Nat) < 2 := by cases b <;> simp
          rw [div_mul_two_aux _ _ _ hb]

theorem length_addc (a b : BitStr) (c : Bool) (h : a.length = b.length) :
    (addc a b c).length = a.length := by
  induction a generalizing b c with
  | nil => cases b <;> simp [addc]
  | cons x xs ih =>
      cases b with
      | nil => simp at h
      | cons y ys =>
          simp only [addc, List.length_cons]
          rw [ih ys _ (by simpa using h)]

theorem toNat_addc (a b : BitStr) (c : Bool) (h : a.length = b.length) :
    toNat (addc a b c) =
      (toNat a + toNat b + cond c 1 0) % 2 ^ a.length := by
  induction a generalizing b c with
  | nil =>
      cases b with
      | nil => cases c <;> simp [addc, toNat, Nat.mod_one]
      | cons y ys => simp at h
  | cons x xs ih =>
      cases b with
      | nil => simp at h
      | cons y ys =>
          have hlen : xs.length = ys.length := by simpa using h
          simp only [addc, toNat, List.length_cons, pow_succ]
          rw [ih ys _ hlen]
          have hkey :
              (cond (xor x (xor y c)) 1 0 : Nat) +
                2 * cond ((c && x || c && y) || x && y) 1 0 =
              cond x 1 0 + cond y 1 0 + cond c 1 0 := by
            cases x <;> cases y <;> cases c <;> rfl
          have hs : (cond (xor x (xor y c)) 1 0 : Nat) < 2 := by
            cases x <;> cases y <;> cases c <;> simp
          calc (cond (xor x (xor y c)) 1 0 : Nat) +
              2 * ((toNat xs + toNat ys + cond ((c && x || c && y) || x && y) 1 0) % 2 ^ xs.length)
              = ((cond (xor x (xor y c)) 1 0 : Nat) +
                2 * (toNat xs + toNat ys + cond ((c && x || c && y) || x && y) 1 0)) %
                  (2 ^ xs.length * 2) := by
                rw [mod_mul_two_aux _ _ _ hs (Nat.pos_pow_of_pos xs.length (by omega))]
            _ = (cond x 1 0 + 2 * toNat xs + (cond y 1 0 + 2 * toNat ys) + cond c 1 0) %
                  (2 ^ xs.length * 2) := by
                congr 1; omega

theorem length_add (a b : BitStr) (h : a.length = b.length) :
    (add a b).length = a.length := length_addc a b false h

theorem length_bnot (a : BitStr) : (bnot a).length = a.length := by
  simp [bnot]

theorem toNat_bnot (a : BitStr) :
    toNat (bnot a) = 2 ^ a.length - 1 - toNat a := by
  induction a with
  | nil => simp [bnot, toNat]
  | cons x xs ih =>
      simp only [bnot, List.map_cons, toNat, List.length_cons, pow_succ] at *
      have h1 := toNat_lt xs
      cases x <;> simp at * <;> omega

theorem toNat_add (a b : BitStr) (h : a.length = b.length) :
    toNat (add a b) = (toNat a + toNat b) % 2 ^ a.length := by
  unfold add
  rw [toNat_addc a b false h]
  rfl

theorem length_sub (a b : BitStr) (h : a.length = b.length) :
    (sub a b).length = a.length := by
  unfold sub
  exact length_addc _ _ _ (by rw [length_bnot]; exact h)

theorem toNat_sub (a b : BitStr) (h : a.length = b.length) :
    toNat (sub a b) = (toNat a + (2 ^ a.length - toNat b) ) % 2 ^ a.length := by
  unfold sub
  rw [toNat_addc a (bnot b) true (by rw [length_bnot]; exact h), toNat_bnot, h]
  have hb := toNat_lt b
  congr 1
  simp only [cond_true]
  omega

/-- C10 auxiliary: all the width-checked operators on one spot. -/
theorem checked_ops_none (a b : BitStr) (h : a.length ≠ b.length) :
    bandChecked a b = none ∧ borChecked a b = none ∧ bxorChecked a b = none ∧
    addChecked a b = none ∧ subChecked a b = none ∧ mulChecked a b = none ∧
    ltUChecked a b = none ∧ ltSChecked a b = none ∧
    leUChecked a b = none ∧ leSChecked a b = none := by
  refine ⟨?_, ?_, ?_, ?_, ?_, ?_, ?_, ?_, ?_, ?_⟩ <;>
    simp [bandChecked, borChecked, bxorChecked, addChecked, subChecked,
      mulChecked, ltUChecked, ltSChecked, leUChecked, leSChecked, h]

end BitStr

/-- C10: `BitString::operator==` on operands of different widths returns
`false` (and `operator!=` returns `true`) without raising any error, while
`&`, `|`, `^`, `+`, `-`, `*`, `lt_u`, `lt_s`, `le_u`, `le_s` all raise a
width-mismatch error (modelled as `none`) on such operands. -/
theorem bitstring_eq_width_mismatch (a b : BitStr) (h : a.length ≠ b.length) :
    BitStr.beq a b = false ∧ BitStr.bne a b = true ∧
    BitStr.bandChecked a b = none ∧ BitStr.borChecked a b = none ∧
    BitStr.bxorChecked a b = none ∧ BitStr.addChecked a b = none ∧
    BitStr.subChecked a b = none ∧ BitStr.mulChecked a b = none ∧
    BitStr.ltUChecked a b = none ∧ BitStr.ltSChecked a b = none ∧
    BitStr.leUChecked a b = none ∧ BitStr.leSChecked a b = none := by
  have hc := BitStr.checked_ops_none a b h
  have heq : BitStr.beq a b = false := by simp [BitStr.beq, h]
  exact ⟨heq, by simp [BitStr.bne, heq], hc.1, hc.2.1, hc.2.2.1, hc.2.2.2.1,
    hc.2.2.2.2.1, hc.2.2.2.2.2.1, hc.2.2.2.2.2.2.1, hc.2.2.2.2.2.2.2.1,
    hc.2.2.2.2.2.2.2.2.1, hc.2.2.2.2.2.2.2.2.2⟩

/-- Witness for C10 at widths 1 and 2. -/
theorem bitstring_eq_width_mismatch_witness :
    BitStr.beq [true] [true, false] = false ∧
    BitStr.bne [true] [true, false] = true ∧
    BitStr.bandChecked [true] [true, false] = none ∧
    BitStr.borChecked [true] [true, false] = none ∧
    BitStr.bxorChecked [true] [true, false] = none ∧
    BitStr.addChecked [true] [true, false] = none ∧
    BitStr.subChecked [true] [true, false] = none ∧
    BitStr.mulChecked [true] [true, false] = none ∧
    BitStr.ltUChecked [true] [true, false] = none ∧
    BitStr.ltSChecked [true] [true, false] = none ∧
    BitStr.leUChecked [true] [true, false] = none ∧
    BitStr.leSChecked [true] [true, false] = none :=
  bitstring_eq_width_mismatch [true] [true, false] (by decide)

namespace BitStr

/-- `BitString::operator<<` with a BitString amount (decoded via `as_uint64`). -/
def shlBS (a b : BitStr) : BitStr := shlN a (asUint64 b)

/-- `BitString::shr_u` with a BitString amount. -/
def shrUBS (a b : BitStr) : BitStr := shrUN a (asUint64 b)

/-- `BitString::shr_s` with a BitString amount. -/
def shrSBS (a b : BitStr) : BitStr := shrSN a (asUint64 b)

theorem isAllOnes_replicate (n : Nat) : isAllOnes (List.replicate n true) = true := by
  simp [isAllOnes]

theorem isAllOnes_iff (a : BitStr) :
    isAllOnes a = true ↔ a = List.replicate a.length true := by
  constructor
  · intro h
    apply List.ext_getElem (by simp)
    intro i h1 h2
    simp only [List.getElem_replicate]
    exact List.all_eq_true.mp h _ (a.getElem_mem h1)
  · intro h
    conv_lhs => rw [h]
    exact isAllOnes_replicate _

theorem band_rep_right (a : BitStr) : band a (List.replicate a.length true) = a := by
  induction a with
  | nil => rfl
  | cons x xs ih => simp [band, List.replicate_succ, Bool.and_true] at *; exact ih

theorem bnot_replicate_false (n : Nat) :
    bnot (List.replicate n false) = List.replicate n true := by
  simp [bnot]

theorem bor_rep_left (b : BitStr) (n : Nat) :
    bor (List.replicate n true) b = List.replicate (min n b.length) true := by
  induction b generalizing n with
  | nil => simp [bor]
  | cons x xs ih =>
      cases n with
      | zero => simp [bor]
      | succ n =>
          simp only [bor, List.replicate_succ, List.zipWith_cons_cons, Bool.true_or]
          have h := ih n
          simp only [bor] at h
          rw [h]
          simp [List.length_cons, Nat.succ_min_succ, List.replicate_succ]

end BitStr

/-- Embeds `hdl::PartialBitString`: a `(known, value)` pair of equal widths
(the C++ constructor rejects unequal widths; theorems carry the invariant as
a hypothesis where it matters). -/
structure PBitStr where
  known : BitStr
  value : BitStr
  deriving Repr, DecidableEq

namespace PBitStr

/-- `PartialBitString::width()` (`_value.width()`). -/
def width (p : PBitStr) : Nat := p.value.length

/-- The converting constructor `PartialBitString(const BitString&)`:
`known = ~BitString(w)` (all ones). -/
def ofBitStr (v : BitStr) : PBitStr :=
  ⟨BitStr.bnot (List.replicate v.length false), v⟩

/-- The width constructor `PartialBitString(size_t)`: fully unknown zero. -/
def unknownP (w : Nat) : PBitStr :=
  ⟨List.replicate w false, List.replicate w false⟩

/-- `PartialBitString::is_fully_known` (`_known.is_all_ones()`). -/
def isFullyKnown (p : PBitStr) : Bool := BitStr.isAllOnes p.known

/-- `PartialBitString::operator&`. -/
def pand (a b : PBitStr) : PBitStr :=
  ⟨BitStr.bor (BitStr.bor (BitStr.band a.known b.known)
      (BitStr.band (BitStr.bnot a.value) a.known))
      (BitStr.band (BitStr.bnot b.value) b.known),
    BitStr.band a.value b.value⟩

/-- `PartialBitString::operator|`. -/
def por (a b : PBitStr) : PBitStr :=
  ⟨BitStr.bor (BitStr.bor (BitStr.band a.known b.known)
      (BitStr.band a.value a.known))
      (BitStr.band b.value b.known),
    BitStr.bor a.value b.value⟩

/-- `PartialBitString::operator^`. -/
def pxor (a b : PBitStr) : PBitStr :=
  ⟨BitStr.band a.known b.known, BitStr.bxor a.value b.value⟩

/-- `PartialBitString::operator~`. -/
def pnot (a : PBitStr) : PBitStr := ⟨a.known, BitStr.bnot a.value⟩

/-- `PartialBitString::operator+` (fully-known operands add exactly, any
unknown bit yields a fully unknown result). -/
def padd (a b : PBitStr) : PBitStr :=
  if isFullyKnown a ∧ isFullyKnown b then ofBitStr (BitStr.add a.value b.value)
  else unknownP a.width

/-- `PartialBitString::operator-`. -/
def psub (a b : PBitStr) : PBitStr :=
  if isFullyKnown a ∧ isFullyKnown b then ofBitStr (BitStr.sub a.value b.value)
  else unknownP a.width

/-- `PartialBitString::mul_u`. -/
def pmulU (a b : PBitStr) : PBitStr :=
  if isFullyKnown a ∧ isFullyKnown b then ofBitStr (BitStr.mulU a.value b.value)
  else unknownP (a.width + b.width)

/-- `PartialBitString::Bool`: {False, True, Unknown}, as `Option Bool`. -/
abbrev PBool := Option Bool

/-- `PartialBitString::eq`. -/
def peq (a b : PBitStr) : PBool :=
  if isFullyKnown a ∧ isFullyKnown b then some (BitStr.beq a.value b.value)
  else none

/-- `PartialBitString::lt_u`. -/
def pltU (a b : PBitStr) : PBool :=
  if isFullyKnown a ∧ isFullyKnown b then some (BitStr.ltU a.value b.value)
  else none

/-- `PartialBitString::lt_s`. -/
def pltS (a b : PBitStr) : PBool :=
  if isFullyKnown a ∧ isFullyKnown b then some (BitStr.ltS a.value b.value)
  else none

/-- `PartialBitString::le_u`. -/
def pleU (a b : PBitStr) : PBool :=
  if isFullyKnown a ∧ isFullyKnown b then some (BitStr.leU a.value b.value)
  else none

/-- `PartialBitString::le_s`. -/
def pleS (a b : PBitStr) : PBool :=
  if isFullyKnown a ∧ isFullyKnown b then some (BitStr.leS a.value b.value)
  else none

/-- `PartialBitString::concat`. -/
def pconcat (a b : PBitStr) : PBitStr :=
  ⟨BitStr.concatB a.known b.known, BitStr.concatB a.value b.value⟩

/-- `PartialBitString::slice_width(size_t, size_t)` (out of bounds throws). -/
def psliceW (p : PBitStr) (offset w : Nat) : Option PBitStr := do
  let k ← BitStr.sliceW p.known offset w
  let v ← BitStr.sliceW p.value offset w
  pure ⟨k, v⟩

/-- `PartialBitString::slice_width(const PartialBitString&, size_t)`. -/
def psliceWP (p : PBitStr) (offset : PBitStr) (w : Nat) : Option PBitStr :=
  if isFullyKnown offset then psliceW p (BitStr.asUint64 offset.value) w
  else some (unknownP w)

/-- `PartialBitString::operator<<` with a scalar amount: shifted-in low bits
become known zeros. -/
def pshlN (p : PBitStr) (n : Nat) : PBitStr :=
  ⟨BitStr.bor (BitStr.shlN p.known n)
      (if n > 0 then
        BitStr.zeroExtend p.width (BitStr.bnot (List.replicate (min n p.width) false))
      else List.replicate p.width false),
    BitStr.shlN p.value n⟩

/-- `PartialBitString::shr_u` with a scalar amount: shifted-in high bits
become known zeros. -/
def pshrUN (p : PBitStr) (n : Nat) : PBitStr :=
  ⟨BitStr.bor (BitStr.shrUN p.known n)
      (BitStr.upperB p.width (if n ≥ p.width then 0 else p.width - n)),
    BitStr.shrUN p.value n⟩

/-- `PartialBitString::shr_s` with a scalar amount: the shifted-in copies of
the sign bit are known only if the sign bit itself is known. -/
def pshrSN (p : PBitStr) (n : Nat) : PBitStr :=
  ⟨BitStr.bor (BitStr.shrUN p.known n)
      (if BitStr.sign p.known then
        BitStr.upperB p.width (if n ≥ p.width then 0 else p.width - n)
      else List.replicate p.width false),
    BitStr.shrSN p.value n⟩

/-- `PartialBitString::operator<<` with a PartialBitString amount. -/
def pshl (p q : PBitStr) : PBitStr :=
  if isFullyKnown q then pshlN p (BitStr.asUint64 q.value) else unknownP p.width

/-- `PartialBitString::shr_u` with a PartialBitString amount. -/
def pshrU (p q : PBitStr) : PBitStr :=
  if isFullyKnown q then pshrUN p (BitStr.asUint64 q.value) else unknownP p.width

/-- `PartialBitString::shr_s` with a PartialBitString amount. -/
def pshrS (p q : PBitStr) : PBitStr :=
  if isFullyKnown q then pshrSN p (BitStr.asUint64 q.value) else unknownP p.width

/-- `PartialBitString::merge`: known where both are known and agree. -/
def pmerge (a b : PBitStr) : PBitStr :=
  ⟨BitStr.band (BitStr.band a.known b.known)
      (BitStr.bnot (BitStr.bxor a.value b.value)),
    a.value⟩

/-- `PartialBitString::select` (condition of width 1; the C++ width check is
carried as a hypothesis of theorems about it). -/
def pselect (c t e : PBitStr) : PBitStr :=
  if isFullyKnown c then (if c.value.headD false then t else e)
  else pmerge t e

end PBitStr

namespace BitStr

theorem zipWith_rep (f : Bool → Bool → Bool) (n : Nat) (x y : Bool) :
    List.zipWith f (List.replicate n x) (List.replicate n y) =
      List.replicate n (f x y) := by
  induction n with
  | zero => rfl
  | succ n ih => simp [List.replicate_succ, ih]

theorem length_band (a b : BitStr) : (band a b).length = min a.length b.length := by
  simp [band]

theorem length_bor (a b : BitStr) : (bor a b).length = min a.length b.length := by
  simp [bor]

theorem length_bxor (a b : BitStr) : (bxor a b).length = min a.length b.length := by
  simp [bxor]

theorem length_shlN (a : BitStr) (n : Nat) : (shlN a n).length = a.length := by
  simp [shlN]

theorem length_shrUN (a : BitStr) (n : Nat) : (shrUN a n).length = a.length := by
  simp [shrUN]

theorem length_shrSN (a : BitStr) (n : Nat) : (shrSN a n).length = a.length := by
  simp [shrSN]

theorem sign_replicate_true (n : Nat) (h : 0 < n) :
    sign (List.replicate n true) = true := by
  cases n with
  | zero => omega
  | succ n =>
      rw [sign, List.replicate_succ']
      simp

end BitStr

namespace PBitStr

/-- Width invariant of a `PartialBitString` (`known.width() == value.width()`,
enforced by the C++ constructor). -/
def Inv (p : PBitStr) : Prop := p.known.length = p.value.length

theorem known_of_fully (p : PBitStr) (hi : Inv p) (hf : isFullyKnown p = true) :
    p.known = List.replicate p.width true := by
  have := (BitStr.isAllOnes_iff p.known).mp hf
  rwa [hi] at this

theorem ofBitStr_def (v : BitStr) :
    ofBitStr v = ⟨List.replicate v.length true, v⟩ := by
  simp [ofBitStr, BitStr.bnot_replicate_false]

theorem band_rep_rep (n : Nat) :
    BitStr.band (List.replicate n true) (List.replicate n true) =
      List.replicate n true := by
  unfold BitStr.band
  rw [BitStr.zipWith_rep]
  simp

theorem pand_fully (a b : PBitStr) (ha : Inv a) (hb : Inv b)
    (hfa : isFullyKnown a = true) (hfb : isFullyKnown b = true)
    (hw : a.width = b.width) :
    pand a b = ofBitStr (BitStr.band a.value b.value) := by
  obtain ⟨ka, va⟩ := a
  obtain ⟨kb, vb⟩ := b
  have hka := known_of_fully _ ha hfa
  have hkb := known_of_fully _ hb hfb
  simp only [width] at hka hkb hw ⊢
  subst hka hkb
  rw [ofBitStr_def]
  simp only [pand, PBitStr.mk.injEq]
  constructor
  · rw [hw, band_rep_rep]
    have h1 : BitStr.band (BitStr.bnot va) (List.replicate vb.length true) =
        BitStr.bnot va := by
      rw [← hw, ← BitStr.length_bnot va]
      exact BitStr.band_rep_right _
    have h2 : BitStr.band (BitStr.bnot vb) (List.replicate vb.length true) =
        BitStr.bnot vb := by
      conv_lhs => rw [← BitStr.length_bnot vb]
      exact BitStr.band_rep_right _
    rw [h1, h2, BitStr.bor_rep_left, BitStr.length_bnot, hw, min_self,
      BitStr.bor_rep_left, BitStr.length_bnot, min_self,
      BitStr.length_band, hw, min_self]
  · trivial

theorem por_fully (a b : PBitStr) (ha : Inv a) (hb : Inv b)
    (hfa : isFullyKnown a = true) (hfb : isFullyKnown b = true)
    (hw : a.width = b.width) :
    por a b = ofBitStr (BitStr.bor a.value b.value) := by
  obtain ⟨ka, va⟩ := a
  obtain ⟨kb, vb⟩ := b
  have hka := known_of_fully _ ha hfa
  have hkb := known_of_fully _ hb hfb
  simp only [width] at hka hkb hw ⊢
  subst hka hkb
  rw [ofBitStr_def]
  simp only [por, PBitStr.mk.injEq]
  constructor
  · rw [hw, band_rep_rep]
    have h1 : BitStr.band va (List.replicate vb.length true) = va := by
      rw [← hw]
      exact BitStr.band_rep_right _
    have h2 : BitStr.band vb (List.replicate vb.length true) = vb :=
      BitStr.band_rep_right _
    rw [h1, h2, BitStr.bor_rep_left, hw, min_self, BitStr.bor_rep_left,
      min_self, BitStr.length_bor, hw, min_self]
  · trivial

theorem pxor_fully (a b : PBitStr) (ha : Inv a) (hb : Inv b)
    (hfa : isFullyKnown a = true) (hfb : isFullyKnown b = true)
    (hw : a.width = b.width) :
    pxor a b = ofBitStr (BitStr.bxor a.value b.value) := by
  obtain ⟨ka, va⟩ := a
  obtain ⟨kb, vb⟩ := b
  have hka := known_of_fully _ ha hfa
  have hkb := known_of_fully _ hb hfb
  simp only [width] at hka hkb hw ⊢
  subst hka hkb
  rw [ofBitStr_def]
  simp only [pxor, PBitStr.mk.injEq]
  constructor
  · rw [hw, band_rep_rep, BitStr.length_bxor, hw, min_self]
  · trivial

theorem pnot_fully (a : PBitStr) (ha : Inv a) (hfa : isFullyKnown a = true) :
    pnot a = ofBitStr (BitStr.bnot a.value) := by
  obtain ⟨ka, va⟩ := a
  have hka := known_of_fully _ ha hfa
  simp only [width] at hka
  subst hka
  rw [ofBitStr_def]
  simp [pnot, BitStr.length_bnot]

theorem padd_fully (a b : PBitStr)
    (hfa : isFullyKnown a = true) (hfb : isFullyKnown b = true) :
    padd a b = ofBitStr (BitStr.add a.value b.value) := by
  simp [padd, hfa, hfb]

theorem psub_fully (a b : PBitStr)
    (hfa : isFullyKnown a = true) (hfb : isFullyKnown b = true) :
    psub a b = ofBitStr (BitStr.sub a.value b.value) := by
  simp [psub, hfa, hfb]

theorem pmulU_fully (a b : PBitStr)
    (hfa : isFullyKnown a = true) (hfb : isFullyKnown b = true) :
    pmulU a b = ofBitStr (BitStr.mulU a.value b.value) := by
  simp [pmulU, hfa, hfb]

theorem pcmp_fully (a b : PBitStr)
    (hfa : isFullyKnown a = true) (hfb : isFullyKnown b = true) :
    peq a b = some (BitStr.beq a.value b.value) ∧
    pltU a b = some (BitStr.ltU a.value b.value) ∧
    pltS a b = some (BitStr.ltS a.value b.value) ∧
    pleU a b = some (BitStr.leU a.value b.value) ∧
    pleS a b = some (BitStr.leS a.value b.value) := by
  refine ⟨?_, ?_, ?_, ?_, ?_⟩ <;> simp [peq, pltU, pltS, pleU, pleS, hfa, hfb]

theorem pconcat_fully (a b : PBitStr) (ha : Inv a) (hb : Inv b)
    (hfa : isFullyKnown a = true) (hfb : isFullyKnown b = true) :
    pconcat a b = ofBitStr (BitStr.concatB a.value b.value) := by
  obtain ⟨ka, va⟩ := a
  obtain ⟨kb, vb⟩ := b
  have hka := known_of_fully _ ha hfa
  have hkb := known_of_fully _ hb hfb
  simp only [width] at hka hkb
  subst hka hkb
  rw [ofBitStr_def]
  simp only [pconcat, BitStr.concatB, PBitStr.mk.injEq]
  constructor
  · rw [List.length_append, ← List.replicate_add]
  · trivial

theorem length_sliceW (a : BitStr) (off w : Nat) (s : BitStr)
    (h : BitStr.sliceW a off w = some s) : s.length = w := by
  unfold BitStr.sliceW at h
  split at h
  · cases h
    simp
    omega
  · cases h

theorem psliceW_fully (a : PBitStr) (ha : Inv a) (hfa : isFullyKnown a = true)
    (off w : Nat) :
    psliceW a off w = (BitStr.sliceW a.value off w).map ofBitStr := by
  obtain ⟨ka, va⟩ := a
  have hka := known_of_fully _ ha hfa
  simp only [width] at hka
  subst hka
  by_cases h : off + w ≤ va.length
  · have hmin : min w (va.length - off) = w := by omega
    have hs : BitStr.sliceW va off w = some (List.take w (List.drop off va)) := by
      simp [BitStr.sliceW, h]
    have hlen : (List.take w (List.drop off va)).length = w := by
      simp
      omega
    have hsk : BitStr.sliceW (List.replicate va.length true) off w =
        some (List.replicate w true) := by
      simp [BitStr.sliceW, h, List.drop_replicate, List.take_replicate, hmin]
    simp [psliceW, hsk, hs, ofBitStr, BitStr.bnot_replicate_false, hlen]
  · have hs : BitStr.sliceW va off w = none := by
      simp [BitStr.sliceW, h]
    have hsk : BitStr.sliceW (List.replicate va.length true) off w = none := by
      simp [BitStr.sliceW, h]
    simp [psliceW, hsk, hs]

theorem psliceWP_fully (a q : PBitStr) (ha : Inv a) (hfa : isFullyKnown a = true)
    (hfq : isFullyKnown q = true) (w : Nat) :
    psliceWP a q w =
      (BitStr.sliceW a.value (BitStr.asUint64 q.value) w).map ofBitStr := by
  rw [psliceWP, if_pos hfq]
  exact psliceW_fully a ha hfa _ w

theorem shlN_rep_true (w n : Nat) :
    BitStr.shlN (List.replicate w true) n =
      List.replicate (min w n) false ++ List.replicate (w - n) true := by
  rw [BitStr.shlN, List.length_replicate, List.take_append_eq_append_take,
    List.take_replicate, List.length_replicate, List.take_replicate]
  congr 2
  omega

theorem shrUN_rep_true (w n : Nat) :
    BitStr.shrUN (List.replicate w true) n =
      List.replicate (w - n) true ++ List.replicate (w - (w - n)) false := by
  rw [BitStr.shrUN, List.drop_replicate, List.length_replicate,
    List.length_replicate]

theorem bor_shr_mask (w n : Nat) :
    BitStr.bor (BitStr.shrUN (List.replicate w true) n)
      (BitStr.upperB w (if n ≥ w then 0 else w - n)) =
      List.replicate w true := by
  have hif : (if n ≥ w then 0 else w - n) = w - n := by split <;> omega
  rw [hif, shrUN_rep_true, BitStr.upperB,
    show min (w - n) w = w - n from by omega]
  unfold BitStr.bor
  rw [List.zipWith_append _ _ _ _ _ (by simp), BitStr.zipWith_rep,
    BitStr.zipWith_rep]
  simp only [Bool.true_or, Bool.false_or]
  rw [← List.replicate_add]
  congr 1
  omega

theorem pshlN_fully (a : PBitStr) (ha : Inv a) (hfa : isFullyKnown a = true)
    (n : Nat) :
    pshlN a n = ofBitStr (BitStr.shlN a.value n) := by
  obtain ⟨ka, va⟩ := a
  have hka := known_of_fully _ ha hfa
  simp only [width] at hka
  subst hka
  rw [ofBitStr_def]
  simp only [pshlN, PBitStr.mk.injEq, width]
  refine ⟨?_, trivial⟩
  rw [BitStr.length_shlN]
  by_cases hn : n > 0
  · rw [if_pos hn, shlN_rep_true, BitStr.bnot_replicate_false,
      BitStr.zeroExtend, List.length_replicate,
      show min va.length n = min n va.length from min_comm _ _,
      show va.length - min n va.length = va.length - n from by omega]
    unfold BitStr.bor
    rw [List.zipWith_append _ _ _ _ _ (by simp), BitStr.zipWith_rep,
      BitStr.zipWith_rep]
    simp only [Bool.false_or, Bool.true_or]
    rw [← List.replicate_add]
    congr 1
    omega
  · have hn0 : n = 0 := by omega
    subst hn0
    rw [if_neg (by omega)]
    have e1 : BitStr.shlN (List.replicate va.length true) 0 =
        List.replicate va.length true := by
      simp [BitStr.shlN]
    rw [e1]
    unfold BitStr.bor
    rw [BitStr.zipWith_rep]
    simp

theorem pshrUN_fully (a : PBitStr) (ha : Inv a) (hfa : isFullyKnown a = true)
    (n : Nat) :
    pshrUN a n = ofBitStr (BitStr.shrUN a.value n) := by
  obtain ⟨ka, va⟩ := a
  have hka := known_of_fully _ ha hfa
  simp only [width] at hka
  subst hka
  rw [ofBitStr_def]
  simp only [pshrUN, PBitStr.mk.injEq, width]
  refine ⟨?_, trivial⟩
  rw [BitStr.length_shrUN]
  exact bor_shr_mask va.length n

theorem pshrSN_fully (a : PBitStr) (ha : Inv a) (hfa : isFullyKnown a = true)
    (n : Nat) :
    pshrSN a n = ofBitStr (BitStr.shrSN a.value n) := by
  obtain ⟨ka, va⟩ := a
  have hka := known_of_fully _ ha hfa
  simp only [width] at hka
  subst hka
  rw [ofBitStr_def]
  simp only [pshrSN, PBitStr.mk.injEq, width]
  refine ⟨?_, trivial⟩
  rw [BitStr.length_shrSN]
  rcases Nat.eq_zero_or_pos va.length with hw | hw
  · have hva : va = [] := List.eq_nil_of_length_eq_zero hw
    subst hva
    simp [BitStr.shrUN, BitStr.bor, BitStr.sign]
  · rw [BitStr.sign_replicate_true _ hw, if_pos rfl]
    exact bor_shr_mask va.length n

theorem pshl_fully (a q : PBitStr) (hfq : isFullyKnown q = true) :
    pshl a q = pshlN a (BitStr.asUint64 q.value) := by
  simp [pshl, hfq]

theorem pshrU_fully (a q : PBitStr) (hfq : isFullyKnown q = true) :
    pshrU a q = pshrUN a (BitStr.asUint64 q.value) := by
  simp [pshrU, hfq]

theorem pshrS_fully (a q : PBitStr) (hfq : isFullyKnown q = true) :
    pshrS a q = pshrSN a (BitStr.asUint64 q.value) := by
  simp [pshrS, hfq]

theorem pselect_fully (c t e : PBitStr) (hfc : isFullyKnown c = true) :
    pselect c t e = (if c.value.headD false then t else e) ∧
    (pselect c t e).value = BitStr.selectB c.value t.value e.value := by
  constructor
  · simp [pselect, hfc]
  · simp only [pselect, hfc, if_pos, BitStr.selectB]
    split <;> simp_all

/-- C8: PartialBitString refines BitString.  On operands that are fully known
(known mask all ones, with the known/value width invariant), every partial
operation is fully determined and its value is the corresponding BitString
operation: the bitwise ops, add, sub, mul_u, the comparisons, concat,
slice_width (both flavours), the three shifts (scalar and decoded amounts)
and select. -/
theorem partial_refines_bitstring :
    (∀ a b : PBitStr, Inv a → Inv b → isFullyKnown a = true →
      isFullyKnown b = true → a.width = b.width →
      pand a b = ofBitStr (BitStr.band a.value b.value) ∧
      por a b = ofBitStr (BitStr.bor a.value b.value) ∧
      pxor a b = ofBitStr (BitStr.bxor a.value b.value)) ∧
    (∀ a : PBitStr, Inv a → isFullyKnown a = true →
      pnot a = ofBitStr (BitStr.bnot a.value)) ∧
    (∀ a b : PBitStr, isFullyKnown a = true → isFullyKnown b = true →
      padd a b = ofBitStr (BitStr.add a.value b.value) ∧
      psub a b = ofBitStr (BitStr.sub a.value b.value) ∧
      pmulU a b = ofBitStr (BitStr.mulU a.value b.value) ∧
      peq a b = some (BitStr.beq a.value b.value) ∧
      pltU a b = some (BitStr.ltU a.value b.value) ∧
      pltS a b = some (BitStr.ltS a.value b.value) ∧
      pleU a b = some (BitStr.leU a.value b.value) ∧
      pleS a b = some (BitStr.leS a.value b.value)) ∧
    (∀ a b : PBitStr, Inv a → Inv b → isFullyKnown a = true →
      isFullyKnown b = true →
      pconcat a b = ofBitStr (BitStr.concatB a.value b.value)) ∧
    (∀ (a : PBitStr) (off w : Nat), Inv a → isFullyKnown a = true →
      psliceW a off w = (BitStr.sliceW a.value off w).map ofBitStr) ∧
    (∀ (a q : PBitStr) (w : Nat), Inv a → isFullyKnown a = true →
      isFullyKnown q = true →
      psliceWP a q w =
        (BitStr.sliceW a.value (BitStr.asUint64 q.value) w).map ofBitStr) ∧
    (∀ (a : PBitStr) (n : Nat), Inv a → isFullyKnown a = true →
      pshlN a n = ofBitStr (BitStr.shlN a.value n) ∧
      pshrUN a n = ofBitStr (BitStr.shrUN a.value n) ∧
      pshrSN a n = ofBitStr (BitStr.shrSN a.value n)) ∧
    (∀ a q : PBitStr, Inv a → isFullyKnown a = true → isFullyKnown q = true →
      pshl a q = ofBitStr (BitStr.shlBS a.value q.value) ∧
      pshrU a q = ofBitStr (BitStr.shrUBS a.value q.value) ∧
      pshrS a q = ofBitStr (BitStr.shrSBS a.value q.value)) ∧
    (∀ c t e : PBitStr, isFullyKnown c = true →
      pselect c t e = (if c.value.headD false then t else e) ∧
      (pselect c t e).value = BitStr.selectB c.value t.value e.value) := by
  refine ⟨?_, pnot_fully, ?_, pconcat_fully, ?_, ?_, ?_, ?_, pselect_fully⟩
  · intro a b ha hb hfa hfb hw
    exact ⟨pand_fully a b ha hb hfa hfb hw, por_fully a b ha hb hfa hfb hw,
      pxor_fully a b ha hb hfa hfb hw⟩
  · intro a b hfa hfb
    have hc := pcmp_fully a b hfa hfb
    exact ⟨padd_fully a b hfa hfb, psub_fully a b hfa hfb,
      pmulU_fully a b hfa hfb, hc.1, hc.2.1, hc.2.2.1, hc.2.2.2.1, hc.2.2.2.2⟩
  · intro a off w ha hfa
    exact psliceW_fully a ha hfa off w
  · intro a q w ha hfa hfq
    exact psliceWP_fully a q ha hfa hfq w
  · intro a n ha hfa
    exact ⟨pshlN_fully a ha hfa n, pshrUN_fully a ha hfa n,
      pshrSN_fully a ha hfa n⟩
  · intro a q ha hfa hfq
    refine ⟨?_, ?_, ?_⟩
    · rw [pshl_fully a q hfq]
      exact pshlN_fully a ha hfa _
    · rw [pshrU_fully a q hfq]
      exact pshrUN_fully a ha hfa _
    · rw [pshrS_fully a q hfq]
      exact pshrSN_fully a ha hfa _

/-- Witness for C8 at width 2 fully-known operands. -/
theorem partial_refines_bitstring_witness :
    pand ⟨[true, true], [true, false]⟩ ⟨[true, true], [false, true]⟩ =
      ofBitStr (BitStr.band [true, false] [false, true]) ∧
    padd ⟨[true, true], [true, false]⟩ ⟨[true, true], [false, true]⟩ =
      ofBitStr (BitStr.add [true, false] [false, true]) ∧
    pltU ⟨[true, true], [true, false]⟩ ⟨[true, true], [false, true]⟩ =
      some (BitStr.ltU [true, false] [false, true]) ∧
    pshrSN ⟨[true, true], [true, false]⟩ 1 =
      ofBitStr (BitStr.shrSN [true, false] 1) ∧
    (pselect ⟨[true], [true]⟩ ⟨[true, true], [true, false]⟩
        ⟨[true, true], [false, true]⟩).value =
      BitStr.selectB [true] [true, false] [false, true] :=
  ⟨((partial_refines_bitstring.1 ⟨[true, true], [true, false]⟩
      ⟨[true, true], [false, true]⟩ rfl rfl (by decide) (by decide) rfl).1),
   ((partial_refines_bitstring.2.2.1 ⟨[true, true], [true, false]⟩
      ⟨[true, true], [false, true]⟩ (by decide) (by decide)).1),
   ((partial_refines_bitstring.2.2.1 ⟨[true, true], [true, false]⟩
      ⟨[true, true], [false, true]⟩ (by decide) (by decide)).2.2.2.2.1),
   ((partial_refines_bitstring.2.2.2.2.2.2.1 ⟨[true, true], [true, false]⟩ 1
      rfl (by decide)).2.2),
   ((partial_refines_bitstring.2.2.2.2.2.2.2.2 ⟨[true], [true]⟩
      ⟨[true, true], [true, false]⟩ ⟨[true, true], [false, true]⟩
      (by decide)).2)⟩

end PBitStr

/-!
## Interval (`hdl_analysis.hpp`)

`analysis::Interval` is a wrap-aware closed interval `[min, max]` over
`Z/2^n`, embedded with its `min`/`max` BitStrings.
-/

/-- Embeds `analysis::Interval` (the raw field pair; the normalizing
constructor is `mkInterval`). -/
structure IntervalB where
  min : BitStr
  max : BitStr
  deriving Repr, DecidableEq

namespace IntervalB

/-- `Interval::width()` (`min.width()`). -/
def width (i : IntervalB) : Nat := i.min.length

/-- `Interval::dist`: distance from `low` up to `high` on the ring,
`high + ~0 - low + 1` when wrapping, `high - low` otherwise. -/
def dist (low high : BitStr) : BitStr :=
  if BitStr.ltU high low then
    BitStr.add (BitStr.sub (BitStr.add high
      (BitStr.bnot (List.replicate low.length false))) low)
      (BitStr.oneB low.length)
  else BitStr.sub high low

/-- The two-argument `Interval` constructor with `normalize_inplace`:
`[a, a-1]` is canonicalized to the full interval `[0, 2^n-1]`. -/
def mkInterval (mn mx : BitStr) : IntervalB :=
  if BitStr.beq (BitStr.add mx (BitStr.oneB mx.length)) mn then
    ⟨List.replicate mn.length false,
      BitStr.bnot (List.replicate mn.length false)⟩
  else ⟨mn, mx⟩

/-- `Interval::from_size_minus_one`. -/
def fromSizeMinusOne (mn sizeMinusOne : BitStr) : IntervalB :=
  mkInterval mn (BitStr.add mn sizeMinusOne)

/-- `Interval::has_unsigned_wrap` (`max.lt_u(min)`). -/
def hasUnsignedWrap (i : IntervalB) : Bool := BitStr.ltU i.max i.min

/-- `Interval::size_minus_one`. -/
def sizeMinusOne (i : IntervalB) : BitStr := dist i.min i.max

/-- `Interval::contains` (wrap-aware membership). -/
def contains (i : IntervalB) (v : BitStr) : Bool :=
  if hasUnsignedWrap i then BitStr.leU i.min v || BitStr.leU v i.max
  else BitStr.leU i.min v && BitStr.leU v i.max

/-- `Interval::flatten`: re-anchor at `zero` inside a wider ring. -/
def flatten (i : IntervalB) (zero : BitStr) (w : Nat) : IntervalB :=
  fromSizeMinusOne (BitStr.zeroExtend w (dist zero i.min))
    (BitStr.zeroExtend w (dist i.min i.max))

/-- `Interval::truncate`: inverse of `flatten`; falls back to the full
interval when the size does not fit the narrow ring (the C++
`slice_width(to_width, width() - to_width)` is in bounds for every caller;
it is the suffix of the bits above `to_width`). -/
def truncateI (i : IntervalB) (zero : BitStr) (toW : Nat) : IntervalB :=
  if BitStr.isZero (((sizeMinusOne i).drop toW).take (width i - toW)) then
    mkInterval (BitStr.add (BitStr.truncate toW i.min) zero)
      (BitStr.add (BitStr.truncate toW i.max) zero)
  else
    mkInterval (List.replicate toW false)
      (BitStr.bnot (List.replicate toW false))

/-- `Interval::operator+`: lift both operands into the `(n+4)`-bit flattened
domain anchored at `min`, add the end points, truncate back. -/
def addI (a b : IntervalB) : IntervalB :=
  let fa := a.flatten a.min (a.width + 4)
  let fb := b.flatten a.min (a.width + 4)
  (mkInterval (BitStr.add fa.min fb.min)
    (BitStr.add fa.max fb.max)).truncateI (BitStr.add a.min a.min) a.width

end IntervalB

namespace BitStr

theorem length_oneB (w : Nat) : (oneB w).length = w := length_ofNat w 1

theorem toNat_oneB (w : Nat) : toNat (oneB w) = 1 % 2 ^ w := toNat_ofNat w 1

theorem length_zeroExtend (w : Nat) (a : BitStr) (h : a.length ≤ w) :
    (zeroExtend w a).length = w := by
  simp [zeroExtend]
  omega

theorem toNat_zeroExtend (w : Nat) (a : BitStr) :
    toNat (zeroExtend w a) = toNat a := by
  simp [zeroExtend, toNat_append, toNat_replicate_false]

theorem length_truncate (w : Nat) (a : BitStr) (h : w ≤ a.length) :
    (truncate w a).length = w := by
  simp [truncate]
  omega

theorem toNat_truncate (w : Nat) (a : BitStr) :
    toNat (truncate w a) = toNat a % 2 ^ w := toNat_take a w

theorem beq_iff (u v : BitStr) (hl : u.length = v.length) :
    beq u v = true ↔ toNat u = toNat v := by
  have hb : beq u v = (u == v) := by simp [beq, hl]
  rw [hb, beq_iff_eq]
  constructor
  · intro h
    rw [h]
  · intro h
    exact toNat_inj hl h

theorem ltU_iff (u v : BitStr) : ltU u v = true ↔ toNat u < toNat v := by
  simp [ltU]

theorem leU_iff (u v : BitStr) (hl : u.length = v.length) :
    leU u v = true ↔ toNat u ≤ toNat v := by
  simp only [leU, Bool.or_eq_true, ltU_iff, beq_iff u v hl]
  omega

theorem isZero_iff (a : BitStr) : isZero a = true ↔ toNat a = 0 := by
  induction a with
  | nil => simp [isZero, toNat]
  | cons x xs ih =>
      cases x
      · have h1 : isZero (false :: xs) = isZero xs := by simp [isZero]
        rw [h1, ih]
        simp [toNat]
      · simp [isZero, toNat]

theorem mod_dist_eq (x m M : Nat) (hx : x < M) (hm : m < M) :
    (x + (M - m)) % M = if m ≤ x then x - m else x + (M - m) := by
  split
  · rename_i h
    rw [show x + (M - m) = (x - m) + M by omega, Nat.add_mod_right]
    exact Nat.mod_eq_of_lt (by omega)
  · exact Nat.mod_eq_of_lt (by omega)

end BitStr

namespace IntervalB

theorem mod_add3 (a b c M : Nat) :
    (a % M + b + c % M) % M = (a + b + c) % M :=
  ((Nat.mod_modEq a M).add_right b).add (Nat.mod_modEq c M)

theorem length_dist (l h : BitStr) (hl : l.length = h.length) :
    (dist l h).length = l.length := by
  unfold dist
  split
  · have h1 : (BitStr.add h (BitStr.bnot (List.replicate l.length false))).length
        = h.length :=
      BitStr.length_add _ _ (by simp [BitStr.bnot]; omega)
    have h2 : ((BitStr.add h
        (BitStr.bnot (List.replicate l.length false))).sub l).length
        = h.length := by
      rw [BitStr.length_sub _ _ (by rw [h1, hl]), h1]
    have h3 : (((BitStr.add h
        (BitStr.bnot (List.replicate l.length false))).sub l).add
        (BitStr.oneB l.length)).length = h.length := by
      rw [BitStr.length_add _ _ (by rw [h2, BitStr.length_oneB]; omega), h2]
    rw [h3, hl]
  · exact (BitStr.length_sub h l hl.symm).trans hl.symm

theorem toNat_dist (l h : BitStr) (hl : l.length = h.length) :
    BitStr.toNat (dist l h) =
      (BitStr.toNat h + (2 ^ l.length - BitStr.toNat l)) % 2 ^ l.length := by
  have hL := BitStr.toNat_lt l
  have hH := BitStr.toNat_lt h
  rw [← hl] at hH
  have hpos : 0 < 2 ^ l.length := Nat.pos_pow_of_pos _ (by omega)
  unfold dist
  split
  · have h1 : (BitStr.add h (BitStr.bnot (List.replicate l.length false))).length
        = h.length :=
      BitStr.length_add _ _ (by simp [BitStr.bnot]; omega)
    have e1 : BitStr.toNat
        (BitStr.add h (BitStr.bnot (List.replicate l.length false)))
        = (BitStr.toNat h + (2 ^ l.length - 1)) % 2 ^ l.length := by
      rw [BitStr.toNat_add _ _ (by simp [BitStr.bnot]; omega), BitStr.toNat_bnot,
        BitStr.toNat_replicate_false, List.length_replicate, Nat.sub_zero, hl]
    have h2 : ((BitStr.add h
        (BitStr.bnot (List.replicate l.length false))).sub l).length
        = l.length := by
      rw [BitStr.length_sub _ _ (by rw [h1, hl]), h1, hl]
    have e2 : BitStr.toNat ((BitStr.add h
        (BitStr.bnot (List.replicate l.length false))).sub l)
        = ((BitStr.toNat h + (2 ^ l.length - 1)) % 2 ^ l.length
            + (2 ^ l.length - BitStr.toNat l)) % 2 ^ l.length := by
      rw [BitStr.toNat_sub _ _ (by rw [h1, hl]), e1, h1, hl]
    rw [BitStr.toNat_add _ _ (by rw [h2, BitStr.length_oneB]), e2, h2,
      BitStr.toNat_oneB, Nat.mod_add_mod, mod_add3,
      show BitStr.toNat h + (2 ^ l.length - 1) + (2 ^ l.length - BitStr.toNat l)
          + 1 = BitStr.toNat h + (2 ^ l.length - BitStr.toNat l) + 2 ^ l.length
        from by omega, Nat.add_mod_right]
  · rw [BitStr.toNat_sub h l hl.symm, ← hl]

theorem mkInterval_spec (mn mx : BitStr) (hl : mn.length = mx.length) :
    mkInterval mn mx =
      if (BitStr.toNat mx + 1 % 2 ^ mx.length) % 2 ^ mx.length
          = BitStr.toNat mn then
        ⟨List.replicate mn.length false,
          BitStr.bnot (List.replicate mn.length false)⟩
      else ⟨mn, mx⟩ := by
  unfold mkInterval
  have hadd : (BitStr.add mx (BitStr.oneB mx.length)).length = mx.length := by
    rw [BitStr.length_add _ _ (BitStr.length_oneB _).symm]
  have := BitStr.beq_iff (BitStr.add mx (BitStr.oneB mx.length)) mn
    (by rw [hadd, hl])
  rw [BitStr.toNat_add _ _ (BitStr.length_oneB _).symm, BitStr.toNat_oneB]
    at this
  by_cases h : (BitStr.toNat mx + 1 % 2 ^ mx.length) % 2 ^ mx.length
      = BitStr.toNat mn
  · rw [if_pos (this.mpr h), if_pos h]
  · rw [if_neg (fun hb => h (this.mp hb)), if_neg h]

theorem mkInterval_full (n : Nat) :
    mkInterval (List.replicate n false)
      (BitStr.bnot (List.replicate n false)) =
      ⟨List.replicate n false, BitStr.bnot (List.replicate n false)⟩ := by
  unfold mkInterval
  split <;> simp

theorem contains_full (n : Nat) (v : BitStr) (hv : v.length = n) :
    contains ⟨List.replicate n false, BitStr.bnot (List.replicate n false)⟩ v
      = true := by
  have h0 : BitStr.toNat (List.replicate n false) = 0 :=
    BitStr.toNat_replicate_false n
  have h1 : BitStr.toNat (BitStr.bnot (List.replicate n false)) = 2 ^ n - 1 := by
    rw [BitStr.toNat_bnot, BitStr.toNat_replicate_false, List.length_replicate]
    omega
  have hlen : (BitStr.bnot (List.replicate n false)).length = n := by
    simp [BitStr.bnot]
  have hvlt := BitStr.toNat_lt v
  rw [hv] at hvlt
  simp only [contains, hasUnsignedWrap]
  rw [if_neg (by simp [BitStr.ltU, h0, h1])]
  have hle1 : BitStr.leU (List.replicate n false) v = true := by
    rw [BitStr.leU_iff _ _ (by simp [hv]), h0]
    omega
  have hle2 : BitStr.leU v (BitStr.bnot (List.replicate n false)) = true := by
    rw [BitStr.leU_iff _ _ (by simp [BitStr.bnot, hv]), h1]
    omega
  simp [hle1, hle2]

theorem contains_iff (i : IntervalB) (v : BitStr) (n : Nat)
    (h1 : i.min.length = n) (h2 : i.max.length = n) (hv : v.length = n) :
    contains i v = true ↔
      (BitStr.toNat v + (2 ^ n - BitStr.toNat i.min)) % 2 ^ n ≤
        (BitStr.toNat i.max + (2 ^ n - BitStr.toNat i.min)) % 2 ^ n := by
  have hMn := BitStr.toNat_lt i.min
  have hMx := BitStr.toNat_lt i.max
  have hV := BitStr.toNat_lt v
  rw [h1] at hMn
  rw [h2] at hMx
  rw [hv] at hV
  rw [BitStr.mod_dist_eq _ _ _ hV hMn, BitStr.mod_dist_eq _ _ _ hMx hMn]
  simp only [contains, hasUnsignedWrap]
  by_cases hw : BitStr.ltU i.max i.min = true
  · rw [if_pos hw]
    rw [BitStr.ltU_iff] at hw
    simp only [Bool.or_eq_true, BitStr.leU_iff i.min v (h1.trans hv.symm),
      BitStr.leU_iff v i.max (hv.trans h2.symm)]
    split <;> split <;> omega
  · rw [if_neg hw]
    rw [BitStr.ltU_iff] at hw
    simp only [Bool.and_eq_true, BitStr.leU_iff i.min v (h1.trans hv.symm),
      BitStr.leU_iff v i.max (hv.trans h2.symm)]
    split <;> split <;> omega

theorem mod_add_middle (a b c M : Nat) :
    (a + b % M + c) % M = (a + b + c) % M :=
  ((Nat.ModEq.refl a).add (Nat.mod_modEq b M)).add_right c

theorem dsub_add (B t M : Nat) (hB : B < M) :
    ((B + t) % M + (M - B)) % M = t % M := by
  rw [Nat.mod_add_mod, show B + t + (M - B) = t + M from by omega,
    Nat.add_mod_right]

theorem add_dsub (X A M : Nat) (hX : X < M) (hA : A < M) :
    (A + (X + (M - A)) % M) % M = X := by
  rw [Nat.add_mod_mod, show A + (X + (M - A)) = X + M from by omega,
    Nat.add_mod_right, Nat.mod_eq_of_lt hX]

theorem flatten_spec (i : IntervalB) (zero : BitStr) (n : Nat)
    (h1 : i.min.length = n) (h2 : i.max.length = n) (hz : zero.length = n) :
    (i.flatten zero (n + 4)).min.length = n + 4 ∧
    (i.flatten zero (n + 4)).max.length = n + 4 ∧
    BitStr.toNat (i.flatten zero (n + 4)).min
      = (BitStr.toNat i.min + (2 ^ n - BitStr.toNat zero)) % 2 ^ n ∧
    BitStr.toNat (i.flatten zero (n + 4)).max
      = (BitStr.toNat i.min + (2 ^ n - BitStr.toNat zero)) % 2 ^ n
        + (BitStr.toNat i.max + (2 ^ n - BitStr.toNat i.min)) % 2 ^ n := by
  have hP : 2 ^ (n + 4) = 2 ^ n * 16 := by
    rw [pow_add]
    norm_num
  have h2n : 0 < 2 ^ n := Nat.pos_pow_of_pos _ (by omega)
  have hld1 : (dist zero i.min).length = n := by
    rw [length_dist zero i.min (by omega), hz]
  have hld2 : (dist i.min i.max).length = n := by
    rw [length_dist i.min i.max (by omega), h1]
  have htd1 : BitStr.toNat (dist zero i.min)
      = (BitStr.toNat i.min + (2 ^ n - BitStr.toNat zero)) % 2 ^ n := by
    rw [toNat_dist zero i.min (by omega), hz]
  have htd2 : BitStr.toNat (dist i.min i.max)
      = (BitStr.toNat i.max + (2 ^ n - BitStr.toNat i.min)) % 2 ^ n := by
    rw [toNat_dist i.min i.max (by omega), h1]
  have hz1l : (BitStr.zeroExtend (n + 4) (dist zero i.min)).length = n + 4 :=
    BitStr.length_zeroExtend _ _ (by omega)
  have hz2l : (BitStr.zeroExtend (n + 4) (dist i.min i.max)).length = n + 4 :=
    BitStr.length_zeroExtend _ _ (by omega)
  have hz1t : BitStr.toNat (BitStr.zeroExtend (n + 4) (dist zero i.min))
      = (BitStr.toNat i.min + (2 ^ n - BitStr.toNat zero)) % 2 ^ n := by
    rw [BitStr.toNat_zeroExtend, htd1]
  have hz2t : BitStr.toNat (BitStr.zeroExtend (n + 4) (dist i.min i.max))
      = (BitStr.toNat i.max + (2 ^ n - BitStr.toNat i.min)) % 2 ^ n := by
    rw [BitStr.toNat_zeroExtend, htd2]
  have hb1 : (BitStr.toNat i.min + (2 ^ n - BitStr.toNat zero)) % 2 ^ n < 2 ^ n :=
    Nat.mod_lt _ h2n
  have hb2 : (BitStr.toNat i.max + (2 ^ n - BitStr.toNat i.min)) % 2 ^ n < 2 ^ n :=
    Nat.mod_lt _ h2n
  have haddl : (BitStr.add (BitStr.zeroExtend (n + 4) (dist zero i.min))
      (BitStr.zeroExtend (n + 4) (dist i.min i.max))).length = n + 4 := by
    rw [BitStr.length_add _ _ (by omega), hz1l]
  have haddt : BitStr.toNat (BitStr.add
      (BitStr.zeroExtend (n + 4) (dist zero i.min))
      (BitStr.zeroExtend (n + 4) (dist i.min i.max)))
      = (BitStr.toNat i.min + (2 ^ n - BitStr.toNat zero)) % 2 ^ n
        + (BitStr.toNat i.max + (2 ^ n - BitStr.toNat i.min)) % 2 ^ n := by
    rw [BitStr.toNat_add _ _ (by omega), hz1l, hz1t, hz2t]
    exact Nat.mod_eq_of_lt (by omega)
  have hone : (1 : Nat) % 2 ^ (n + 4) = 1 := Nat.mod_eq_of_lt (by omega)
  have hmodid : ((BitStr.toNat i.min + (2 ^ n - BitStr.toNat zero)) % 2 ^ n
        + (BitStr.toNat i.max + (2 ^ n - BitStr.toNat i.min)) % 2 ^ n + 1)
        % 2 ^ (n + 4)
      = (BitStr.toNat i.min + (2 ^ n - BitStr.toNat zero)) % 2 ^ n
        + (BitStr.toNat i.max + (2 ^ n - BitStr.toNat i.min)) % 2 ^ n + 1 :=
    Nat.mod_eq_of_lt (by omega)
  unfold flatten fromSizeMinusOne
  rw [mkInterval_spec _ _ (by omega)]
  rw [if_neg (by rw [haddl, haddt, hz1t, hone, hmodid]; omega)]
  exact ⟨hz1l, haddl, hz1t, haddt⟩

theorem truncateI_sound (u v zp xy : BitStr) (n t s : Nat)
    (hul : u.length = n + 4) (hvl : v.length = n + 4)
    (hzl : zp.length = n) (hxyl : xy.length = n)
    (hs : BitStr.toNat v = BitStr.toNat u + s)
    (hvlt : BitStr.toNat v < 2 ^ (n + 4))
    (ht : t ≤ s)
    (hmem : BitStr.toNat xy
      = (BitStr.toNat u % 2 ^ n + BitStr.toNat zp + t) % 2 ^ n) :
    contains (truncateI ⟨u, v⟩ zp n) xy = true := by
  have hP : 2 ^ (n + 4) = 2 ^ n * 16 := by
    rw [pow_add]
    norm_num
  have h2n : 0 < 2 ^ n := Nat.pos_pow_of_pos _ (by omega)
  have hD := BitStr.toNat_lt u
  rw [hul] at hD
  have hslt : s < 2 ^ (n + 4) := by omega
  -- the size of the wide interval
  have hsmol : (dist u v).length = n + 4 := by
    rw [length_dist u v (by omega), hul]
  have hsmot : BitStr.toNat (dist u v) = s := by
    rw [toNat_dist u v (by omega), hul, hs,
      show BitStr.toNat u + s + (2 ^ (n + 4) - BitStr.toNat u)
        = s + 2 ^ (n + 4) from by omega,
      Nat.add_mod_right]
    exact Nat.mod_eq_of_lt hslt
  -- the overflow test: bits of the size above position n
  have hcondt : BitStr.toNat (((dist u v).drop n).take ((⟨u, v⟩ : IntervalB).width - n))
      = s / 2 ^ n % 2 ^ ((⟨u, v⟩ : IntervalB).width - n) := by
    rw [BitStr.toNat_take, BitStr.toNat_drop, hsmot]
  simp only [truncateI, sizeMinusOne, width] at hcondt ⊢
  simp only [hul] at hcondt ⊢
  by_cases hfit : s < 2 ^ n
  · -- the size fits: truncate exactly
    have hzero : BitStr.isZero (((dist u v).drop n).take (n + 4 - n)) = true := by
      rw [BitStr.isZero_iff, hcondt, Nat.div_eq_of_lt hfit]
      simp
    rw [if_pos hzero]
    have htrul : (BitStr.truncate n u).length = n :=
      BitStr.length_truncate _ _ (by omega)
    have htrvl : (BitStr.truncate n v).length = n :=
      BitStr.length_truncate _ _ (by omega)
    have hmnl : (BitStr.add (BitStr.truncate n u) zp).length = n := by
      rw [BitStr.length_add _ _ (by omega), htrul]
    have hmxl : (BitStr.add (BitStr.truncate n v) zp).length = n := by
      rw [BitStr.length_add _ _ (by omega), htrvl]
    have hmnt : BitStr.toNat (BitStr.add (BitStr.truncate n u) zp)
        = (BitStr.toNat u % 2 ^ n + BitStr.toNat zp) % 2 ^ n := by
      rw [BitStr.toNat_add _ _ (by omega), htrul, BitStr.toNat_truncate]
    have hmxt : BitStr.toNat (BitStr.add (BitStr.truncate n v) zp)
        = ((BitStr.toNat u % 2 ^ n + BitStr.toNat zp) % 2 ^ n + s) % 2 ^ n := by
      rw [BitStr.toNat_add _ _ (by omega), htrvl, BitStr.toNat_truncate, hs,
        Nat.mod_add_mod]
      conv_rhs => rw [Nat.mod_add_mod, Nat.add_assoc, Nat.mod_add_mod]
      congr 1
      ring
    rw [mkInterval_spec _ _ (by omega)]
    split
    · -- normalized to the full interval
      rename_i hfull
      have : (BitStr.add (BitStr.truncate n u) zp).length = n := hmnl
      rw [this]
      exact contains_full n xy hxyl
    · rw [contains_iff _ xy n hmnl hmxl hxyl]
      have hB0 : (BitStr.toNat u % 2 ^ n + BitStr.toNat zp) % 2 ^ n < 2 ^ n :=
        Nat.mod_lt _ h2n
      have hstep : ((BitStr.toNat u % 2 ^ n + BitStr.toNat zp) % 2 ^ n + t)
          % 2 ^ n
          = (BitStr.toNat u % 2 ^ n + BitStr.toNat zp + t) % 2 ^ n :=
        Nat.mod_add_mod (BitStr.toNat u % 2 ^ n + BitStr.toNat zp) (2 ^ n) t
      have hdv : (BitStr.toNat xy
          + (2 ^ n - BitStr.toNat (BitStr.add (BitStr.truncate n u) zp)))
          % 2 ^ n = t := by
        rw [hmem, hmnt, ← hstep, dsub_add _ _ _ hB0]
        exact Nat.mod_eq_of_lt (by omega)
      have hdm : (BitStr.toNat (BitStr.add (BitStr.truncate n v) zp)
          + (2 ^ n - BitStr.toNat (BitStr.add (BitStr.truncate n u) zp)))
          % 2 ^ n = s := by
        rw [hmxt, hmnt, dsub_add _ _ _ hB0]
        exact Nat.mod_eq_of_lt hfit
      rw [hdv, hdm]
      exact ht
  · -- the size does not fit: fall back to the full interval
    have hnz : BitStr.isZero (((dist u v).drop n).take (n + 4 - n)) = false := by
      rw [show n + 4 - n = 4 from by omega] at hcondt
      have hdiv : s / 2 ^ n % 2 ^ 4 = s / 2 ^ n := by
        apply Nat.mod_eq_of_lt
        have : s / 2 ^ n < 16 := by
          apply Nat.div_lt_of_lt_mul
          omega
        omega
      have hpos : 0 < s / 2 ^ n := Nat.div_pos (by omega) h2n
      cases hiz : BitStr.isZero (((dist u v).drop n).take (n + 4 - n))
      · rfl
      · rw [BitStr.isZero_iff] at hiz
        rw [show n + 4 - n = 4 from by omega] at hiz
        omega
    rw [if_neg (by rw [hnz]; exact Bool.false_ne_true)]
    rw [mkInterval_full]
    exact contains_full n xy hxyl

/-- C6: interval addition is sound.  For intervals `a`, `b` of width `n` and
bit strings `x ∈ a`, `y ∈ b` (wrap-aware membership), the modular
sum `x + y` is contained in `a + b` (computed by flattening both intervals
into an `(n+4)`-bit domain anchored at `a.min`, adding end points and
truncating back). -/
theorem interval_add_sound (a b : IntervalB) (x y : BitStr) (n : Nat)
    (ha1 : a.min.length = n) (ha2 : a.max.length = n)
    (hb1 : b.min.length = n) (hb2 : b.max.length = n)
    (hx : x.length = n) (hy : y.length = n)
    (hax : a.contains x = true) (hby : b.contains y = true) :
    (a.addI b).contains (BitStr.add x y) = true := by
  have hP : 2 ^ (n + 4) = 2 ^ n * 16 := by
    rw [pow_add]
    norm_num
  have h2n : 0 < 2 ^ n := Nat.pos_pow_of_pos _ (by omega)
  have hAm := BitStr.toNat_lt a.min
  have hAM := BitStr.toNat_lt a.max
  have hBm := BitStr.toNat_lt b.min
  have hBM := BitStr.toNat_lt b.max
  have hX := BitStr.toNat_lt x
  have hY := BitStr.toNat_lt y
  rw [ha1] at hAm
  rw [ha2] at hAM
  rw [hb1] at hBm
  rw [hb2] at hBM
  rw [hx] at hX
  rw [hy] at hY
  -- membership distances
  rw [contains_iff a x n ha1 ha2 hx] at hax
  rw [contains_iff b y n hb1 hb2 hy] at hby
  -- flatten both operands
  obtain ⟨fal1, fal2, fat1, fat2⟩ := flatten_spec a a.min n ha1 ha2 ha1
  obtain ⟨fbl1, fbl2, fbt1, fbt2⟩ := flatten_spec b a.min n hb1 hb2 ha1
  have hfa0 : (BitStr.toNat a.min + (2 ^ n - BitStr.toNat a.min)) % 2 ^ n
      = 0 := by
    rw [show BitStr.toNat a.min + (2 ^ n - BitStr.toNat a.min) = 2 ^ n from
      by omega, Nat.mod_self]
  rw [hfa0] at fat1 fat2
  simp only [addI, width, ha1]
  -- the middle (n+4)-bit interval
  have hmid := mkInterval_spec
    (BitStr.add (a.flatten a.min (n + 4)).min (b.flatten a.min (n + 4)).min)
    (BitStr.add (a.flatten a.min (n + 4)).max (b.flatten a.min (n + 4)).max)
    (by rw [BitStr.length_add _ _ (by omega), BitStr.length_add _ _ (by omega),
      fal1, fal2])
  have hmnl : (BitStr.add (a.flatten a.min (n + 4)).min
      (b.flatten a.min (n + 4)).min).length = n + 4 := by
    rw [BitStr.length_add _ _ (by omega), fal1]
  have hmxl : (BitStr.add (a.flatten a.min (n + 4)).max
      (b.flatten a.min (n + 4)).max).length = n + 4 := by
    rw [BitStr.length_add _ _ (by omega), fal2]
  have hdb : (BitStr.toNat b.min + (2 ^ n - BitStr.toNat a.min)) % 2 ^ n
      < 2 ^ n := Nat.mod_lt _ h2n
  have hsa : (BitStr.toNat a.max + (2 ^ n - BitStr.toNat a.min)) % 2 ^ n
      < 2 ^ n := Nat.mod_lt _ h2n
  have hsb : (BitStr.toNat b.max + (2 ^ n - BitStr.toNat b.min)) % 2 ^ n
      < 2 ^ n := Nat.mod_lt _ h2n
  have hfminl : (a.flatten a.min (n + 4)).min.length
      = (b.flatten a.min (n + 4)).min.length := by omega
  have hfmaxl : (a.flatten a.min (n + 4)).max.length
      = (b.flatten a.min (n + 4)).max.length := by omega
  have hmnt : BitStr.toNat (BitStr.add (a.flatten a.min (n + 4)).min
      (b.flatten a.min (n + 4)).min)
      = (BitStr.toNat b.min + (2 ^ n - BitStr.toNat a.min)) % 2 ^ n := by
    rw [BitStr.toNat_add _ _ hfminl, fal1, fat1, fbt1, Nat.zero_add]
    exact Nat.mod_eq_of_lt (by omega)
  have hmxt : BitStr.toNat (BitStr.add (a.flatten a.min (n + 4)).max
      (b.flatten a.min (n + 4)).max)
      = (BitStr.toNat a.max + (2 ^ n - BitStr.toNat a.min)) % 2 ^ n
        + ((BitStr.toNat b.min + (2 ^ n - BitStr.toNat a.min)) % 2 ^ n
          + (BitStr.toNat b.max + (2 ^ n - BitStr.toNat b.min)) % 2 ^ n) := by
    rw [BitStr.toNat_add _ _ hfmaxl, fal2, fat2, fbt2, Nat.zero_add]
    exact Nat.mod_eq_of_lt (by omega)
  have hone : (1 : Nat) % 2 ^ (n + 4) = 1 := Nat.mod_eq_of_lt (by omega)
  have hmodid2 : ((BitStr.toNat a.max + (2 ^ n - BitStr.toNat a.min)) % 2 ^ n
        + ((BitStr.toNat b.min + (2 ^ n - BitStr.toNat a.min)) % 2 ^ n
          + (BitStr.toNat b.max + (2 ^ n - BitStr.toNat b.min)) % 2 ^ n) + 1)
        % 2 ^ (n + 4)
      = (BitStr.toNat a.max + (2 ^ n - BitStr.toNat a.min)) % 2 ^ n
        + ((BitStr.toNat b.min + (2 ^ n - BitStr.toNat a.min)) % 2 ^ n
          + (BitStr.toNat b.max + (2 ^ n - BitStr.toNat b.min)) % 2 ^ n) + 1 :=
    Nat.mod_eq_of_lt (by omega)
  rw [hmid, if_neg (by rw [hmxl, hmxt, hmnt, hone, hmodid2]; omega)]
  -- hand the truncation step to truncateI_sound
  have hzl : (BitStr.add a.min a.min).length = n := by
    rw [BitStr.length_add a.min a.min rfl, ha1]
  have hxyl : (BitStr.add x y).length = n := by
    rw [BitStr.length_add x y (by omega), hx]
  apply truncateI_sound _ _ _ _ n
    ((BitStr.toNat x + (2 ^ n - BitStr.toNat a.min)) % 2 ^ n
      + (BitStr.toNat y + (2 ^ n - BitStr.toNat b.min)) % 2 ^ n)
    ((BitStr.toNat a.max + (2 ^ n - BitStr.toNat a.min)) % 2 ^ n
      + (BitStr.toNat b.max + (2 ^ n - BitStr.toNat b.min)) % 2 ^ n)
    hmnl hmxl hzl hxyl
  · rw [hmxt, hmnt]
    omega
  · rw [hmxt]
    omega
  · omega
  · -- the membership distance of x + y
    have hXi := add_dsub (BitStr.toNat x) (BitStr.toNat a.min) (2 ^ n) hX hAm
    have hYj := add_dsub (BitStr.toNat y) (BitStr.toNat b.min) (2 ^ n) hY hBm
    have hBd := add_dsub (BitStr.toNat b.min) (BitStr.toNat a.min) (2 ^ n)
      hBm hAm
    rw [BitStr.toNat_add x y (by omega), hx, hmnt,
      Nat.mod_eq_of_lt hdb,
      BitStr.toNat_add a.min a.min rfl, ha1]
    calc (BitStr.toNat x + BitStr.toNat y) % 2 ^ n
        = ((BitStr.toNat a.min
              + (BitStr.toNat x + (2 ^ n - BitStr.toNat a.min)) % 2 ^ n) % 2 ^ n
            + (BitStr.toNat b.min
              + (BitStr.toNat y + (2 ^ n - BitStr.toNat b.min)) % 2 ^ n) % 2 ^ n)
            % 2 ^ n := by rw [hXi, hYj]
      _ = (BitStr.toNat a.min
              + (BitStr.toNat x + (2 ^ n - BitStr.toNat a.min)) % 2 ^ n
            + (BitStr.toNat b.min
              + (BitStr.toNat y + (2 ^ n - BitStr.toNat b.min)) % 2 ^ n))
            % 2 ^ n := by rw [← Nat.add_mod]
      _ = (BitStr.toNat a.min
              + ((BitStr.toNat x + (2 ^ n - BitStr.toNat a.min)) % 2 ^ n
                + (BitStr.toNat y + (2 ^ n - BitStr.toNat b.min)) % 2 ^ n)
              + BitStr.toNat b.min) % 2 ^ n := by
            congr 1
            ring
      _ = (BitStr.toNat a.min
              + ((BitStr.toNat x + (2 ^ n - BitStr.toNat a.min)) % 2 ^ n
                + (BitStr.toNat y + (2 ^ n - BitStr.toNat b.min)) % 2 ^ n)
              + (BitStr.toNat a.min
                + (BitStr.toNat b.min + (2 ^ n - BitStr.toNat a.min)) % 2 ^ n)
                % 2 ^ n) % 2 ^ n := by rw [hBd]
      _ = (BitStr.toNat a.min
              + ((BitStr.toNat x + (2 ^ n - BitStr.toNat a.min)) % 2 ^ n
                + (BitStr.toNat y + (2 ^ n - BitStr.toNat b.min)) % 2 ^ n)
              + (BitStr.toNat a.min
                + (BitStr.toNat b.min + (2 ^ n - BitStr.toNat a.min)) % 2 ^ n))
            % 2 ^ n := by
            rw [Nat.add_mod_mod]
      _ = ((BitStr.toNat b.min + (2 ^ n - BitStr.toNat a.min)) % 2 ^ n
              + (BitStr.toNat a.min + BitStr.toNat a.min) % 2 ^ n
              + ((BitStr.toNat x + (2 ^ n - BitStr.toNat a.min)) % 2 ^ n
                + (BitStr.toNat y + (2 ^ n - BitStr.toNat b.min)) % 2 ^ n))
            % 2 ^ n := by
            rw [show BitStr.toNat a.min
                + ((BitStr.toNat x + (2 ^ n - BitStr.toNat a.min)) % 2 ^ n
                  + (BitStr.toNat y + (2 ^ n - BitStr.toNat b.min)) % 2 ^ n)
                + (BitStr.toNat a.min
                  + (BitStr.toNat b.min + (2 ^ n - BitStr.toNat a.min)) % 2 ^ n)
              = (BitStr.toNat b.min + (2 ^ n - BitStr.toNat a.min)) % 2 ^ n
                + (BitStr.toNat a.min + BitStr.toNat a.min)
                + ((BitStr.toNat x + (2 ^ n - BitStr.toNat a.min)) % 2 ^ n
                  + (BitStr.toNat y + (2 ^ n - BitStr.toNat b.min)) % 2 ^ n)
              from by ring]
            rw [mod_add_middle]

/-- Witness for C6 at width 2: `[1,2] + {1} = [2,3]` contains `2 + 1`. -/
theorem interval_add_sound_witness :
    (IntervalB.addI ⟨[true, false], [false, true]⟩
      ⟨[true, false], [true, false]⟩).contains
        (BitStr.add [false, true] [true, false]) = true :=
  interval_add_sound ⟨[true, false], [false, true]⟩
    ⟨[true, false], [true, false]⟩ [false, true] [true, false] 2
    rfl rfl rfl rfl rfl rfl (by decide) (by decide)

end IntervalB

/-!
## The IR value graph (`hdl.hpp`)

`Value` nodes are embedded as trees.  Hash-consing makes structurally equal
`Op`/`Constant` nodes pointer-identical in the C++ arena, so pointer
equality there is structural equality here; `Input`/`Reg`/`Memory::Read`
leaves and `Unknown` nodes are identified by a numeric id (distinct C++
objects get distinct ids).
-/

/-- `Op::Kind`. -/
inductive Kind where
  | And | Or | Xor | Not
  | Add | Sub | Mul
  | Eq | LtU | LtS | LeU | LeS
  | Concat | Slice
  | Shl | ShrU | ShrS
  | Select
  deriving Repr, DecidableEq

/-- `Op::is_commutative`. -/
def Kind.isCommutative : Kind → Bool
  | .And | .Or | .Xor | .Add | .Eq => true
  | _ => false

/-- A `Value` node: `leaf` covers the `Input`/`Reg`/`Memory::Read` leaves a
flattening pre-defines, `constE` is `Constant`, `unknownE` is `Unknown`,
`opE` is `Op`. -/
inductive Expr where
  | leaf (id : Nat) (w : Nat)
  | constE (value : BitStr)
  | unknownE (id : Nat) (w : Nat)
  | opE (kind : Kind) (args : List Expr)
  deriving Repr

namespace Expr

/-- `Value::width`: stored at construction from `Op::infer_width`; recomputed
structurally here (0 for shapes `infer_width` would reject). -/
def width : Expr → Nat
  | .leaf _ w => w
  | .constE v => v.length
  | .unknownE _ w => w
  | .opE k args =>
    match k, args with
    | .Not, [a] => a.width
    | .And, [a, _] => a.width
    | .Or, [a, _] => a.width
    | .Xor, [a, _] => a.width
    | .Add, [a, _] => a.width
    | .Sub, [a, _] => a.width
    | .Mul, [a, b] => a.width + b.width
    | .Eq, [_, _] => 1
    | .LtU, [_, _] => 1
    | .LtS, [_, _] => 1
    | .LeU, [_, _] => 1
    | .LeS, [_, _] => 1
    | .Concat, [a, b] => a.width + b.width
    | .Slice, [_, _, .constE v] => BitStr.asUint64 v
    | .Shl, [a, _] => a.width
    | .ShrU, [a, _] => a.width
    | .ShrS, [a, _] => a.width
    | .Select, [_, t, _] => t.width
    | _, _ => 0

/-- Node size, the termination measure for `buildOp`. -/
def sizeE : Expr → Nat
  | .leaf _ _ => 1
  | .constE _ => 1
  | .unknownE _ _ => 1
  | .opE _ args => 1 + sizeL args
  where
    sizeL : List Expr → Nat
      | [] => 0
      | e :: es => sizeE e + sizeL es

end Expr

/-- `Op::infer_width` with its error paths (`none` = the thrown `Error`:
wrong arity, width mismatch, non-constant `Slice` width). -/
def inferWidthE (k : Kind) (args : List Expr) : Option Nat :=
  match k, args with
  | .Not, [a] => some a.width
  | .And, [a, b] | .Or, [a, b] | .Xor, [a, b] | .Add, [a, b] | .Sub, [a, b] =>
      if a.width = b.width then some a.width else none
  | .Mul, [a, b] => some (a.width + b.width)
  | .Eq, [a, b] | .LtU, [a, b] | .LtS, [a, b] | .LeU, [a, b] | .LeS, [a, b] =>
      if a.width = b.width then some 1 else none
  | .Concat, [a, b] => some (a.width + b.width)
  | .Slice, [_, _, .constE v] => some (BitStr.asUint64 v)
  | .Slice, [_, _, _] => none
  | .Shl, [a, _] | .ShrU, [a, _] | .ShrS, [a, _] => some a.width
  | .Select, [_, t, e] => if t.width = e.width then some t.width else none
  | _, _ => none

/-- `BitString::from_uint<uint64_t>` (64-bit, wrapping). -/
def fromUint64 (n : Nat) : BitStr := BitStr.ofNat 64 n

/-- `Op::eval`: the pure evaluation of one operator on argument values
(`none` = a thrown error: width mismatch inside a BitString operator, slice
out of bounds, or bit access on a width-0 operand). -/
def opEval (k : Kind) (vs : List BitStr) : Option BitStr :=
  match k, vs with
  | .And, [a, b] => BitStr.bandChecked a b
  | .Or, [a, b] => BitStr.borChecked a b
  | .Xor, [a, b] => BitStr.bxorChecked a b
  | .Not, [a] => some (BitStr.bnot a)
  | .Add, [a, b] => BitStr.addChecked a b
  | .Sub, [a, b] => BitStr.subChecked a b
  | .Mul, [a, b] => some (BitStr.mulU a b)
  | .Eq, [a, b] => some [BitStr.beq a b]
  | .LtU, [a, b] => (BitStr.ltUChecked a b).map BitStr.fromBool
  | .LtS, [a, b] => (BitStr.ltSChecked a b).map BitStr.fromBool
  | .LeU, [a, b] => (BitStr.leUChecked a b).map BitStr.fromBool
  | .LeS, [a, b] => (BitStr.leSChecked a b).map BitStr.fromBool
  | .Concat, [a, b] => some (BitStr.concatB a b)
  | .Slice, [a, o, w] => BitStr.sliceW a (BitStr.asUint64 o) (BitStr.asUint64 w)
  | .Shl, [a, b] => some (BitStr.shlN a (BitStr.asUint64 b))
  | .ShrU, [a, b] => some (BitStr.shrUN a (BitStr.asUint64 b))
  | .ShrS, [a, b] =>
      if a.length = 0 then none else some (BitStr.shrSN a (BitStr.asUint64 b))
  | .Select, [c, t, e] =>
      if c.length = 0 then none else some (if c.headD false then t else e)
  | _, _ => none

mutual

/-- `sim::Simulation::eval` on the combinational fragment: `Unknown` fails,
`Select` evaluates only the taken branch, every other operator evaluates all
arguments strictly and applies `Op::eval`; a result of the wrong width (the
simulator's final check) fails. -/
def evalE (env : Nat → BitStr) : Expr → Option BitStr
  | .leaf i _ => some (env i)
  | .constE v => some v
  | .unknownE _ _ => none
  | .opE .Select [c, t, e] => do
      let cv ← evalE env c
      if cv.length = 0 then none
      else
        let r ← if cv.headD false then evalE env t else evalE env e
        if r.length = (Expr.opE .Select [c, t, e]).width then some r else none
  | .opE k args => do
      let vs ← evalL env args
      let r ← opEval k vs
      if r.length = (Expr.opE k args).width then some r else none

/-- Evaluate an argument list (strict). -/
def evalL (env : Nat → BitStr) : List Expr → Option (List BitStr)
  | [] => some []
  | e :: es => do
      let v ← evalE env e
      let vs ← evalL env es
      pure (v :: vs)

end

/-!
### A fixed total order on nodes

`Module::op` canonicalizes commutative arguments by raw pointer order; any
fixed total order on nodes is a faithful model (the design notes recommend a
stable node-id order).  `cmpE` is such an order.
-/

/-- Comparison of naturals as an `Ordering`. -/
def cmpNat (a b : Nat) : Ordering :=
  if a < b then .lt else if b < a then .gt else .eq

theorem cmpNat_eq_iff (a b : Nat) : cmpNat a b = .eq ↔ a = b := by
  unfold cmpNat
  split
  · rename_i h
    constructor
    · intro hc
      cases hc
    · omega
  · split
    · rename_i h
      constructor
      · intro hc
        cases hc
      · omega
    · constructor
      · intro _
        omega
      · intro _
        rfl

theorem cmpNat_swap (a b : Nat) : cmpNat b a = (cmpNat a b).swap := by
  unfold cmpNat
  rcases Nat.lt_trichotomy a b with h | h | h <;>
    simp [h, Nat.lt_asymm, Ordering.swap] <;> omega

/-- Comparison of bits. -/
def cmpBool (a b : Bool) : Ordering :=
  cmpNat (cond a 1 0) (cond b 1 0)

/-- Lexicographic comparison of bit strings. -/
def cmpBools : BitStr → BitStr → Ordering
  | [], [] => .eq
  | [], _ :: _ => .lt
  | _ :: _, [] => .gt
  | x :: xs, y :: ys => (cmpBool x y).then (cmpBools xs ys)

/-- Numbering of operator kinds (their declaration order). -/
def kindIdx : Kind → Nat
  | .And => 0 | .Or => 1 | .Xor => 2 | .Not => 3
  | .Add => 4 | .Sub => 5 | .Mul => 6
  | .Eq => 7 | .LtU => 8 | .LtS => 9 | .LeU => 10 | .LeS => 11
  | .Concat => 12 | .Slice => 13
  | .Shl => 14 | .ShrU => 15 | .ShrS => 16
  | .Select => 17

mutual

/-- A total structural order on `Expr` (models the arena pointer order). -/
def cmpE : Expr → Expr → Ordering
  | .leaf i w, .leaf j w2 => (cmpNat i j).then (cmpNat w w2)
  | .leaf _ _, .constE _ => .lt
  | .leaf _ _, .unknownE _ _ => .lt
  | .leaf _ _, .opE _ _ => .lt
  | .constE _, .leaf _ _ => .gt
  | .constE v, .constE w => cmpBools v w
  | .constE _, .unknownE _ _ => .lt
  | .constE _, .opE _ _ => .lt
  | .unknownE _ _, .leaf _ _ => .gt
  | .unknownE _ _, .constE _ => .gt
  | .unknownE i w, .unknownE j w2 => (cmpNat i j).then (cmpNat w w2)
  | .unknownE _ _, .opE _ _ => .lt
  | .opE _ _, .leaf _ _ => .gt
  | .opE _ _, .constE _ => .gt
  | .opE _ _, .unknownE _ _ => .gt
  | .opE k a, .opE k2 a2 => (cmpNat (kindIdx k) (kindIdx k2)).then (cmpL a a2)

/-- Lexicographic comparison of argument lists. -/
def cmpL : List Expr → List Expr → Ordering
  | [], [] => .eq
  | [], _ :: _ => .lt
  | _ :: _, [] => .gt
  | x :: xs, y :: ys => (cmpE x y).then (cmpL xs ys)

end

/-- Structural (pointer, under hash-consing) equality of nodes. -/
def exprEq (a b : Expr) : Bool := cmpE a b == .eq

/-- `Expr` is `constE` (`dynamic_cast<Constant*>` non-null). -/
def isConstE : Expr → Bool
  | .constE _ => true
  | _ => false

theorem then_eq_eq (x y : Ordering) : x.then y = .eq ↔ x = .eq ∧ y = .eq := by
  cases x <;> simp [Ordering.then]

theorem then_swap (x y : Ordering) : (x.then y).swap = x.swap.then y.swap := by
  cases x <;> cases y <;> rfl

theorem cmpBool_eq_iff (a b : Bool) : cmpBool a b = .eq ↔ a = b := by
  cases a <;> cases b <;> decide

theorem cmpBool_swap (a b : Bool) : cmpBool b a = (cmpBool a b).swap := by
  cases a <;> cases b <;> decide

theorem cmpBools_eq_iff : (a b : BitStr) → (cmpBools a b = .eq ↔ a = b)
  | [], [] => ⟨(fun _ => rfl), (fun _ => rfl)⟩
  | [], _ :: _ => ⟨(fun h => nomatch h), (fun h => nomatch h)⟩
  | _ :: _, [] => ⟨(fun h => nomatch h), (fun h => nomatch h)⟩
  | x :: xs, y :: ys => by
      show (cmpBool x y).then (cmpBools xs ys) = .eq ↔ _
      rw [then_eq_eq, cmpBool_eq_iff, cmpBools_eq_iff xs ys, List.cons.injEq]

theorem cmpBools_swap : (a b : BitStr) → cmpBools b a = (cmpBools a b).swap
  | [], [] => rfl
  | [], _ :: _ => rfl
  | _ :: _, [] => rfl
  | x :: xs, y :: ys => by
      show (cmpBool y x).then (cmpBools ys xs)
        = ((cmpBool x y).then (cmpBools xs ys)).swap
      rw [then_swap, cmpBool_swap, cmpBools_swap xs ys]

theorem kindIdx_inj (k k2 : Kind) : kindIdx k = kindIdx k2 ↔ k = k2 := by
  cases k <;> cases k2 <;> decide

mutual

theorem cmpE_eq_iff : (a b : Expr) → (cmpE a b = .eq ↔ a = b)
  | .leaf i w, .leaf j w2 => by
      show (cmpNat i j).then (cmpNat w w2) = .eq ↔ _
      rw [then_eq_eq, cmpNat_eq_iff, cmpNat_eq_iff, Expr.leaf.injEq]
  | .leaf _ _, .constE _ => ⟨(fun h => nomatch h), (fun h => nomatch h)⟩
  | .leaf _ _, .unknownE _ _ => ⟨(fun h => nomatch h), (fun h => nomatch h)⟩
  | .leaf _ _, .opE _ _ => ⟨(fun h => nomatch h), (fun h => nomatch h)⟩
  | .constE _, .leaf _ _ => ⟨(fun h => nomatch h), (fun h => nomatch h)⟩
  | .constE v, .constE w => by
      show cmpBools v w = .eq ↔ _
      rw [cmpBools_eq_iff v w, Expr.constE.injEq]
  | .constE _, .unknownE _ _ => ⟨(fun h => nomatch h), (fun h => nomatch h)⟩
  | .constE _, .opE _ _ => ⟨(fun h => nomatch h), (fun h => nomatch h)⟩
  | .unknownE _ _, .leaf _ _ => ⟨(fun h => nomatch h), (fun h => nomatch h)⟩
  | .unknownE _ _, .constE _ => ⟨(fun h => nomatch h), (fun h => nomatch h)⟩
  | .unknownE i w, .unknownE j w2 => by
      show (cmpNat i j).then (cmpNat w w2) = .eq ↔ _
      rw [then_eq_eq, cmpNat_eq_iff, cmpNat_eq_iff, Expr.unknownE.injEq]
  | .unknownE _ _, .opE _ _ => ⟨(fun h => nomatch h), (fun h => nomatch h)⟩
  | .opE _ _, .leaf _ _ => ⟨(fun h => nomatch h), (fun h => nomatch h)⟩
  | .opE _ _, .constE _ => ⟨(fun h => nomatch h), (fun h => nomatch h)⟩
  | .opE _ _, .unknownE _ _ => ⟨(fun h => nomatch h), (fun h => nomatch h)⟩
  | .opE k a1, .opE k2 a2 => by
      show (cmpNat (kindIdx k) (kindIdx k2)).then (cmpL a1 a2) = .eq ↔ _
      rw [then_eq_eq, cmpNat_eq_iff, kindIdx_inj, cmpL_eq_iff a1 a2,
        Expr.opE.injEq]

theorem cmpL_eq_iff : (a b : List Expr) → (cmpL a b = .eq ↔ a = b)
  | [], [] => ⟨(fun _ => rfl), (fun _ => rfl)⟩
  | [], _ :: _ => ⟨(fun h => nomatch h), (fun h => nomatch h)⟩
  | _ :: _, [] => ⟨(fun h => nomatch h), (fun h => nomatch h)⟩
  | x :: xs, y :: ys => by
      show (cmpE x y).then (cmpL xs ys) = .eq ↔ _
      rw [then_eq_eq, cmpE_eq_iff x y, cmpL_eq_iff xs ys, List.cons.injEq]

end

mutual

theorem cmpE_swap : (a b : Expr) → cmpE b a = (cmpE a b).swap
  | .leaf i w, .leaf j w2 => by
      show (cmpNat j i).then (cmpNat w2 w)
        = ((cmpNat i j).then (cmpNat w w2)).swap
      rw [then_swap, cmpNat_swap i j, cmpNat_swap w w2]
  | .leaf _ _, .constE _ => rfl
  | .leaf _ _, .unknownE _ _ => rfl
  | .leaf _ _, .opE _ _ => rfl
  | .constE _, .leaf _ _ => rfl
  | .constE v, .constE w => by
      show cmpBools w v = (cmpBools v w).swap
      rw [cmpBools_swap v w]
  | .constE _, .unknownE _ _ => rfl
  | .constE _, .opE _ _ => rfl
  | .unknownE _ _, .leaf _ _ => rfl
  | .unknownE _ _, .constE _ => rfl
  | .unknownE i w, .unknownE j w2 => by
      show (cmpNat j i).then (cmpNat w2 w)
        = ((cmpNat i j).then (cmpNat w w2)).swap
      rw [then_swap, cmpNat_swap i j, cmpNat_swap w w2]
  | .unknownE _ _, .opE _ _ => rfl
  | .opE _ _, .leaf _ _ => rfl
  | .opE _ _, .constE _ => rfl
  | .opE _ _, .unknownE _ _ => rfl
  | .opE k a1, .opE k2 a2 => by
      show (cmpNat (kindIdx k2) (kindIdx k)).then (cmpL a2 a1)
        = ((cmpNat (kindIdx k) (kindIdx k2)).then (cmpL a1 a2)).swap
      rw [then_swap, cmpNat_swap (kindIdx k) (kindIdx k2), cmpL_swap a1 a2]

theorem cmpL_swap : (a b : List Expr) → cmpL b a = (cmpL a b).swap
  | [], [] => rfl
  | [], _ :: _ => rfl
  | _ :: _, [] => rfl
  | x :: xs, y :: ys => by
      show (cmpE y x).then (cmpL ys xs) = ((cmpE x y).then (cmpL xs ys)).swap
      rw [then_swap, cmpE_swap x y, cmpL_swap xs ys]

end

theorem exprEq_iff (a b : Expr) : exprEq a b = true ↔ a = b := by
  unfold exprEq
  constructor
  · intro hb
    apply (cmpE_eq_iff a b).mp
    cases hcmp : cmpE a b <;> rw [hcmp] at hb <;> first | exact absurd hb (by decide) | rfl
  · intro h
    subst h
    rw [(cmpE_eq_iff a a).mpr rfl]
    rfl

/-- Result of `Module::op`: a returned node, a thrown error, or undefined
behaviour (a null-pointer dereference). -/
inductive OpResult where
  | ok (e : Expr)
  | err
  | crash
  deriving Repr

/-- The commutative-argument canonicalization at the head of `Module::op`:
when both arguments are constants or both are not, the lower-ordered one
goes left, otherwise the constant goes left. -/
def canonArgs (k : Kind) (args : List Expr) : List Expr :=
  if k.isCommutative then
    match args with
    | [a, b] =>
        if isConstE a = isConstE b then
          if cmpE a b = .gt then [b, a] else [a, b]
        else if isConstE b then [b, a]
        else [a, b]
    | _ => args
  else args

/-- The `value` of a `Constant` node (callers guarantee the cast). -/
def constValD : Expr → BitStr
  | .constE v => v
  | _ => []

/-- The body of `Module::op` after canonicalization: width inference,
constant folding, then the peephole table, falling back to the hash-consed
`Op` node.  `fuel` bounds the depth of the re-simplifying recursive
`this->op(...)` calls of the rewrites; every recursive call strictly
decreases the total argument size, so `sizeL args` fuel never runs out and
the fuel-exhaustion branch is unreachable (and even there, the fallback
below is only ever used through `opG`, which restores the raw node). -/
def buildStep (rec : Kind → List Expr → OpResult) (k : Kind)
    (args : List Expr) : OpResult :=
    match inferWidthE k args with
    | none => .err
    | some _ =>
      if args.all isConstE then
        match opEval k (args.map constValD) with
        | some v => .ok (.constE v)
        | none => .err
      else
        match k, args with
        | .And, [a, b] =>
            if exprEq a b then .ok a
            else match a with
              | .constE c =>
                  if BitStr.isZero c then .ok (.constE c)
                  else if BitStr.isAllOnes c then .ok b
                  else .ok (.opE .And [a, b])
              | _ => .ok (.opE .And [a, b])
        | .Or, [a, b] =>
            if exprEq a b then .ok a
            else match a with
              | .constE c =>
                  if BitStr.isZero c then .ok b
                  else if BitStr.isAllOnes c then .ok (.constE c)
                  else .ok (.opE .Or [a, b])
              | _ => .ok (.opE .Or [a, b])
        | .Xor, [a, b] =>
            if exprEq a b then .ok (.constE (List.replicate a.width false))
            else match a with
              | .constE c =>
                  if BitStr.isZero c then .ok b
                  else if BitStr.isAllOnes c then rec .Not [b]
                  else .ok (.opE .Xor [a, b])
              | _ => .ok (.opE .Xor [a, b])
        | .Not, [a] =>
            match a with
            | .opE .Not [x] => .ok x
            | _ => .ok (.opE .Not [a])
        | .Add, [a, b] =>
            match a with
            | .constE c =>
                if BitStr.isZero c then .ok b else .ok (.opE .Add [a, b])
            | _ => .ok (.opE .Add [a, b])
        | .Sub, [a, b] =>
            if exprEq a b then .ok (.constE (List.replicate a.width false))
            else match b with
              | .constE c =>
                  if BitStr.isZero c then .ok a else .ok (.opE .Sub [a, b])
              | _ => .ok (.opE .Sub [a, b])
        | .Mul, [a, b] => .ok (.opE .Mul [a, b])
        | .Eq, [a, b] =>
            if exprEq a b then .ok (.constE [true])
            else if b.width = 1 then
              match a with
              | .constE c =>
                  if BitStr.isZero c then rec .Not [b] else .ok b
              | _ => .ok (.opE .Eq [a, b])
            else .ok (.opE .Eq [a, b])
        | .LtU, [a, b] =>
            if exprEq a b then .ok (.constE [false])
            else match b with
              | .constE c =>
                  if BitStr.isZero c then .ok (.constE [false])
                  else .ok (.opE .LtU [a, b])
              | _ => .ok (.opE .LtU [a, b])
        | .LtS, [a, b] =>
            if exprEq a b then .ok (.constE [false])
            else .ok (.opE .LtS [a, b])
        | .LeU, [a, b] =>
            if exprEq a b then .ok (.constE [true])
            else match a with
              | .constE c =>
                  if BitStr.isZero c then .ok (.constE [true])
                  else .ok (.opE .LeU [a, b])
              | _ => .ok (.opE .LeU [a, b])
        | .LeS, [a, b] =>
            if exprEq a b then .ok (.constE [true])
            else .ok (.opE .LeS [a, b])
        | .Concat, [hi, lo] =>
            match hi, lo with
            | .opE .Slice [hs, hOff, hW], .opE .Slice [ls, lOff, lW] =>
                if exprEq hs ls then
                  match lW, hW with
                  | .constE lwv, .constE hwv =>
                      match lOff, hOff with
                      | .constE lov, .constE hov =>
                          if (BitStr.asUint64 lov + BitStr.asUint64 lwv)
                              % 2 ^ 64 = BitStr.asUint64 hov then
                            rec .Slice [ls, lOff,
                              .constE (fromUint64
                                (BitStr.asUint64 hwv + BitStr.asUint64 lwv))]
                          else .ok (.opE .Concat [hi, lo])
                      | _, _ => .ok (.opE .Concat [hi, lo])
                  | _, _ => .crash
                else .ok (.opE .Concat [hi, lo])
            | _, _ => .ok (.opE .Concat [hi, lo])
        | .Slice, [v, o, wE] =>
            match wE with
            | .constE wv =>
                if (match o with
                    | .constE ov =>
                        BitStr.isZero ov && BitStr.asUint64 wv == v.width
                    | _ => false) then .ok v
                else match v with
                  | .opE .Concat [chi, clo] =>
                      match o with
                      | .constE ov =>
                          if (BitStr.asUint64 ov + BitStr.asUint64 wv)
                              % 2 ^ 64 ≤ clo.width then
                            rec .Slice [clo, o, wE]
                          else if BitStr.asUint64 ov ≥ clo.width then
                            rec .Slice [chi,
                              .constE (fromUint64
                                (BitStr.asUint64 ov - clo.width)), wE]
                          else .ok (.opE .Slice [v, o, wE])
                      | _ => .ok (.opE .Slice [v, o, wE])
                  | .opE .Slice [s, iOff, iW] =>
                      match iOff with
                      | .constE iov =>
                          match o with
                          | .constE ov =>
                              rec .Slice [s,
                                .constE (fromUint64
                                  (BitStr.asUint64 ov + BitStr.asUint64 iov)),
                                wE]
                          | _ => .crash
                      | _ => .ok (.opE .Slice [v, o, wE])
                  | _ => .ok (.opE .Slice [v, o, wE])
            | _ => .err
        | .Shl, [a, b] =>
            match a with
            | .constE c =>
                if BitStr.isZero c then .ok a
                else match b with
                  | .constE cb =>
                      if BitStr.isZero cb then .ok a
                      else .ok (.opE .Shl [a, b])
                  | _ => .ok (.opE .Shl [a, b])
            | _ =>
                match b with
                | .constE cb =>
                    if BitStr.isZero cb then .ok a else .ok (.opE .Shl [a, b])
                | _ => .ok (.opE .Shl [a, b])
        | .ShrU, [a, b] =>
            match a with
            | .constE c =>
                if BitStr.isZero c then .ok a
                else match b with
                  | .constE cb =>
                      if BitStr.isZero cb then .ok a
                      else .ok (.opE .ShrU [a, b])
                  | _ => .ok (.opE .ShrU [a, b])
            | _ =>
                match b with
                | .constE cb =>
                    if BitStr.isZero cb then .ok a else .ok (.opE .ShrU [a, b])
                | _ => .ok (.opE .ShrU [a, b])
        | .ShrS, [a, b] =>
            match a with
            | .constE c =>
                if BitStr.isZero c then .ok a
                else if BitStr.isAllOnes c then .ok a
                else match b with
                  | .constE cb =>
                      if BitStr.isZero cb then .ok a
                      else .ok (.opE .ShrS [a, b])
                  | _ => .ok (.opE .ShrS [a, b])
            | _ =>
                match b with
                | .constE cb =>
                    if BitStr.isZero cb then .ok a else .ok (.opE .ShrS [a, b])
                | _ => .ok (.opE .ShrS [a, b])
        | .Select, [c, t, e] =>
            if exprEq t e then .ok t
            else match c with
              | .constE cv =>
                  if cv.length = 0 then .err
                  else if cv.headD false then .ok t else .ok e
              | _ => .ok (.opE .Select [c, t, e])
        | k2, args2 => .ok (.opE k2 args2)

/-- The fuelled rewriting recursion: `fuel` bounds the depth of the
re-simplifying recursive `this->op(...)` calls of `buildStep`; every
recursive call strictly decreases the total argument size, so `sizeL args`
fuel never runs out and the fuel-exhaustion branch is unreachable (and even
there, the fallback is only ever used through `opG`, which restores the raw
node). -/
def buildOpF : Nat → Kind → List Expr → OpResult
  | 0, _, _ => .err
  | fuel + 1, k, args => buildStep (buildOpF fuel) k args

/-- `Module::op`: canonicalize, then simplify/construct. -/
def modOp (k : Kind) (args : List Expr) : OpResult :=
  buildOpF (Expr.sizeE.sizeL (canonArgs k args)) k (canonArgs k args)

/-- Total wrapper of `Module::op` used when modelling callers (the
flattener) that only ever build well-typed nodes, on which `modOp` cannot
throw: on the `err`/`crash` paths (never taken by those callers) it returns
the raw node. -/
def opG (k : Kind) (args : List Expr) : Expr :=
  match modOp k args with
  | .ok e => e
  | _ => .opE k args

theorem canonArgs_comm (k : Kind) (a b : Expr) (hk : k.isCommutative = true) :
    canonArgs k [a, b] = canonArgs k [b, a] := by
  have hswap := cmpE_swap a b
  unfold canonArgs
  rw [hk]
  by_cases hc : isConstE a = isConstE b
  · cases hcmp : cmpE a b
    · rw [hcmp] at hswap
      simp [hc, hcmp, hswap, Ordering.swap]
    · have hab : a = b := (cmpE_eq_iff a b).mp hcmp
      subst hab
      rfl
    · rw [hcmp] at hswap
      simp [hc, hcmp, hswap, Ordering.swap]
  · cases ha : isConstE a <;> cases hb : isConstE b
    · exact absurd (ha.trans hb.symm) hc
    · simp [ha, hb]
    · simp [ha, hb]
    · exact absurd (ha.trans hb.symm) hc

/-- C7: commutative canonicalization.  For every commutative operator kind
`k` and any two values `a`, `b` of equal width, `Module::op(k, [a, b])` and
`Module::op(k, [b, a])` return the same node: the argument pair is
normalized before hash-consing (constants left, otherwise the lower node in
the canonical order left), so both calls run on the identical argument
list. -/
theorem op_commutative_canonical (k : Kind) (a b : Expr)
    (hk : k.isCommutative = true) (hw : a.width = b.width) :
    modOp k [a, b] = modOp k [b, a] := by
  unfold modOp
  rw [canonArgs_comm k a b hk]

/-- The commutative-canonicalization theorem at a concrete instance:
`And` over a 1-bit leaf and the 1-bit constant `1`. -/
theorem op_commutative_canonical_witness :
    Kind.isCommutative .And = true
      ∧ (Expr.leaf 0 1).width = (Expr.constE [true]).width
      ∧ modOp .And [Expr.leaf 0 1, Expr.constE [true]]
          = modOp .And [Expr.constE [true], Expr.leaf 0 1] :=
  ⟨by decide, by decide,
    op_commutative_canonical .And (Expr.leaf 0 1) (Expr.constE [true])
      (by decide) (by decide)⟩

/-- C5: Slice construction with a symbolic (non-constant) offset crashes
when the sliced value is itself a Slice with a constant offset.  The
Slice-of-Slice peephole in `Module::op` casts the outer offset to
`Constant*` and dereferences the result (`constant_offset->value`) without
a null check as soon as the inner offset is constant; with a non-constant
outer offset the cast is null and the dereference is undefined behaviour,
modelled as `OpResult.crash`.  Here the inner node is
`Slice(leaf₀ (width 4), const 1, const 2)` and the outer call is
`op(Slice, [inner, leaf₁ (width 1), const 1])`: a well-typed construction
(the width argument is a Constant, so `infer_width` succeeds with width 1)
that the claim says must succeed, yet the code crashes. -/
theorem slice_symbolic_offset_crash :
    modOp .Slice
      [Expr.opE .Slice
        [Expr.leaf 0 4, Expr.constE [true], Expr.constE [false, true]],
       Expr.leaf 1 1, Expr.constE [true]]
      = .crash := by
  rfl

/-- C9: `Simulation::eval` evaluates only the taken branch of a `Select`.
If the condition evaluates to a non-empty value whose bit 0 is set, the
`Select` returns the true branch's value even when the other branch is an
`Unknown` node (which `eval` can never evaluate); evaluating the `Unknown`
node itself fails; and a `Select` whose taken branch is the `Unknown` node
(the unknown is actually demanded) fails. -/
theorem select_short_circuit_unknown (env : Nat → BitStr)
    (c t e : Expr) (i w : Nat) (cv tv : BitStr)
    (hc : evalE env c = some cv) (hlen : cv.length ≠ 0)
    (htaken : cv.headD false = true)
    (ht : evalE env t = some tv) (hw : tv.length = t.width) :
    evalE env (.opE .Select [c, t, .unknownE i w]) = some tv
      ∧ evalE env (.unknownE i w) = none
      ∧ evalE env (.opE .Select [c, .unknownE i w, e]) = none := by
  cases cv with
  | nil => exact absurd rfl hlen
  | cons b bs =>
    have hb : b = true := by simpa using htaken
    subst hb
    refine ⟨?_, by simp [evalE], ?_⟩
    · simp [evalE, hc, ht, Expr.width, hw]
    · simp [evalE, hc]

/-- The Select short-circuit theorem at a concrete instance:
`Select(1, 0₁, unknown)` evaluates to `0₁` while the unknown branch alone
(or a `Select` taking it) fails. -/
theorem select_short_circuit_unknown_witness :
    (evalE (fun _ => []) (.constE [true]) = some [true]
        ∧ ([true] : BitStr).length ≠ 0
        ∧ ([true] : BitStr).headD false = true
        ∧ evalE (fun _ => []) (.constE [false]) = some [false]
        ∧ ([false] : BitStr).length = (Expr.constE [false]).width)
      ∧ (evalE (fun _ => [])
            (.opE .Select [.constE [true], .constE [false], .unknownE 0 1])
            = some [false]
          ∧ evalE (fun _ => []) (.unknownE 0 1) = none
          ∧ evalE (fun _ => [])
              (.opE .Select [.constE [true], .unknownE 0 1, .constE [false]])
              = none) := by
  refine ⟨⟨by simp [evalE], by decide, by decide, by simp [evalE], by decide⟩, ?_⟩
  exact select_short_circuit_unknown (fun _ => [])
    (.constE [true]) (.constE [false]) (.constE [false]) 0 1 [true] [false]
    (by simp [evalE]) (by decide) (by decide) (by simp [evalE]) (by decide)

/-!
### CNF formulas and `CnfBuilder`

`proof::Cnf` stores clauses of DIMACS-style literals (`int64_t`, variable
ids from 1, negative = negated) plus a variable counter.  The clause
store (`_literals` + `_clause_indices`) is modelled as a list of clauses.
-/

/-- A CNF literal: `Cnf::Literal.id`. -/
abbrev Lit := Int

/-- `proof::Cnf`: the clause store and the variable counter. -/
structure Cnf0 where
  clauses : List (List Lit)
  varCount : Nat
  deriving Repr, DecidableEq

/-- `Cnf::var`: allocate the next variable, returning its positive
literal. -/
def Cnf0.var (s : Cnf0) : Lit × Cnf0 :=
  ((Int.ofNat (s.varCount + 1)), { s with varCount := s.varCount + 1 })

/-- `Cnf::add_clause`. -/
def Cnf0.addClause (s : Cnf0) (cl : List Lit) : Cnf0 :=
  { s with clauses := s.clauses ++ [cl] }

/-- `Cnf::f_const`: a fresh variable constrained to the given bit. -/
def fConst (b : Bool) (s : Cnf0) : Lit × Cnf0 :=
  let (l, s) := s.var
  (l, s.addClause (if b then [l] else [-l]))

/-- `Cnf::f_and` (fresh output variable plus `r_and`). -/
def fAnd (a b : Lit) (s : Cnf0) : Lit × Cnf0 :=
  let (c, s) := s.var
  (c, ((s.addClause [-a, -b, c]).addClause [-c, a]).addClause [-c, b])

/-- `Cnf::f_or` (fresh output variable plus `r_or`). -/
def fOr (a b : Lit) (s : Cnf0) : Lit × Cnf0 :=
  let (c, s) := s.var
  (c, ((s.addClause [-a, c]).addClause [-b, c]).addClause [-c, a, b])

/-- `Cnf::f_xor` (fresh output variable plus `r_xor`). -/
def fXor (a b : Lit) (s : Cnf0) : Lit × Cnf0 :=
  let (c, s) := s.var
  (c, (((s.addClause [a, -b, c]).addClause [b, -a, c]).addClause
    [-b, -a, -c]).addClause [b, a, -c])

/-- `Cnf::f_eq` on literals (fresh output variable plus `r_eq`). -/
def fEq1 (a b : Lit) (s : Cnf0) : Lit × Cnf0 :=
  let (c, s) := s.var
  (c, (((s.addClause [a, b, c]).addClause [-a, -b, c]).addClause
    [a, -b, -c]).addClause [-a, b, -c])

/-- `Cnf::f_select` (fresh output variable plus `r_select`). -/
def fSelect (cond a b : Lit) (s : Cnf0) : Lit × Cnf0 :=
  let (c, s) := s.var
  (c, ((((s.addClause [-cond, -a, c]).addClause [cond, -b, c]).addClause
    [-c, a, -cond]).addClause [-c, cond, b]).addClause [-c, a, b])

/-- `Cnf::f_eq` on literal vectors: a conjunction chain over bitwise
equalities, seeded with `f_const(true)` (`none` = the width-mismatch
`Error`). -/
def fEqVGo : List (Lit × Lit) → Lit → Cnf0 → Lit × Cnf0
  | [], r, s => (r, s)
  | (a, b) :: rest, r, s =>
      let (e, s) := fEq1 a b s
      let (r2, s) := fAnd r e s
      fEqVGo rest r2 s

/-- `Cnf::f_eq` on vectors. -/
def fEqV (a b : List Lit) (s : Cnf0) : Option (Lit × Cnf0) :=
  if a.length = b.length then
    let (t, s) := fConst true s
    some (fEqVGo (a.zip b) t s)
  else none

/-- The body of `Cnf::f_lt_u`: the loop from the most significant bit
down, carrying the `result` and `active` literals. -/
def fLtUGo : List (Lit × Lit) → Lit → Lit → Cnf0 → Lit × Cnf0
  | [], _, result, s => (result, s)
  | (a, b) :: rest, active, result, s =>
      let (nab, s) := fAnd (-a) b s
      let (arm, s) := fAnd active nab s
      let (result2, s) := fOr result arm s
      let (anb, s) := fAnd a (-b) s
      let (active2, s) := fAnd active (-anb) s
      fLtUGo rest active2 result2 s

/-- `Cnf::f_lt_u` (`none` = the width-mismatch `Error`); the loop walks
the bit vectors from the most significant bit down. -/
def fLtU (a b : List Lit) (s : Cnf0) : Option (Lit × Cnf0) :=
  if a.length = b.length then
    let (active, s) := fConst true s
    let (result, s) := fConst false s
    some (fLtUGo (a.zip b).reverse active result s)
  else none

/-- The loop of `Cnf::f_add_carry` from bit 0 up. -/
def fAddCarryGo : List (Lit × Lit) → Lit → Cnf0 → List Lit × Cnf0
  | [], _, s => ([], s)
  | (a, b) :: rest, carry, s =>
      let (x1, s) := fXor a b s
      let (sumIt, s) := fXor carry x1 s
      let (c1, s) := fAnd carry b s
      let (c2, s) := fAnd a carry s
      let (o1, s) := fOr c1 c2 s
      let (c3, s) := fAnd a b s
      let (carry2, s) := fOr o1 c3 s
      let (rest2, s) := fAddCarryGo rest carry2 s
      (sumIt :: rest2, s)

/-- `Cnf::f_add`: ripple adder seeded with carry `f_const(false)`
(`none` = the width-mismatch `Error`). -/
def fAdd (a b : List Lit) (s : Cnf0) : Option (List Lit × Cnf0) :=
  if a.length = b.length then
    let (f, s) := fConst false s
    some (fAddCarryGo (a.zip b) f s)
  else none

/-- `Cnf::f_sub`: `f_add_carry(a, f_not(b), f_const(true))`; the vector
`f_not` just negates every literal without touching the store. -/
def fSub (a b : List Lit) (s : Cnf0) : Option (List Lit × Cnf0) :=
  if a.length = b.length then
    let (t, s) := fConst true s
    some (fAddCarryGo (a.zip (b.map (fun l => -l))) t s)
  else none

/-- `CnfBuilder`: the growing CNF and the node-to-literal-vector map
(keyed by node identity; an association list under the structural node
model). -/
structure Builder where
  cnf : Cnf0
  values : List (Expr × List Lit)
  deriving Repr

/-- Lookup in `CnfBuilder::_values`. -/
def lookupV : List (Expr × List Lit) → Expr → Option (List Lit)
  | [], _ => none
  | (k, v) :: rest, e => if exprEq k e then some v else lookupV rest e

/-- The literal vector of an already-built argument (`_values.at`). -/
def argLits (st : Builder) (e : Expr) : List Lit :=
  (lookupV st.values e).getD []

/-- `CnfBuilder::free`: a vector of fresh unconstrained variables for a
leaf. -/
def freshVars : Nat → Cnf0 → List Lit × Cnf0
  | 0, s => ([], s)
  | n + 1, s =>
      let (l, s) := s.var
      let (rest, s) := freshVars n s
      (l :: rest, s)

/-- `CnfBuilder::free` on the builder. -/
def freeB (v : Expr) (st : Builder) : Builder :=
  let (lits, cnf) := freshVars v.width st.cnf
  { cnf := cnf, values := (v, lits) :: st.values }

/-- The `elementwise` loop of `CnfBuilder::build` for a binary gadget:
`result[it] = f(arg0[it], arg1[it])` for `it < width`. -/
def elemBinGo (f : Lit → Lit → Cnf0 → Lit × Cnf0) (xs ys : List Lit)
    (it : Nat) : Nat → Cnf0 → List Lit × Cnf0
  | 0, s => ([], s)
  | n + 1, s =>
      let (l, s) := f (xs.getD it 0) (ys.getD it 0) s
      let (rest, s) := elemBinGo f xs ys (it + 1) n s
      (l :: rest, s)

/-- The constant case of `CnfBuilder::build`: one `f_const` per bit. -/
def fConstV : List Bool → Cnf0 → List Lit × Cnf0
  | [], s => ([], s)
  | b :: bs, s =>
      let (l, s) := fConst b s
      let (rest, s) := fConstV bs s
      (l :: rest, s)

/-- The per-operator dispatch of `CnfBuilder::build` after the arguments
have been built (`none` = a thrown error: `"Op not implemented"` for the
unsupported kinds, or a gadget width mismatch).  `f_not` is pure literal
negation; `Eq`/`LtU`/`LeU` assign `result[0]` of a default-initialized
(zero-literal) result vector of the node's width. -/
def buildKind (v : Expr) (k : Kind) (args : List Expr) (st : Builder) :
    Option Builder :=
  match k, args with
  | .And, [a, b] =>
      let (lits, cnf) :=
        elemBinGo fAnd (argLits st a) (argLits st b) 0 v.width st.cnf
      some { cnf := cnf, values := (v, lits) :: st.values }
  | .Or, [a, b] =>
      let (lits, cnf) :=
        elemBinGo fOr (argLits st a) (argLits st b) 0 v.width st.cnf
      some { cnf := cnf, values := (v, lits) :: st.values }
  | .Xor, [a, b] =>
      let (lits, cnf) :=
        elemBinGo fXor (argLits st a) (argLits st b) 0 v.width st.cnf
      some { cnf := cnf, values := (v, lits) :: st.values }
  | .Not, [a] =>
      let lits := (List.range v.width).map
        (fun it => -((argLits st a).getD it 0))
      some { cnf := st.cnf, values := (v, lits) :: st.values }
  | .Add, [a, b] => do
      let (lits, cnf) ← fAdd (argLits st a) (argLits st b) st.cnf
      some { cnf := cnf, values := (v, lits) :: st.values }
  | .Sub, [a, b] => do
      let (lits, cnf) ← fSub (argLits st a) (argLits st b) st.cnf
      some { cnf := cnf, values := (v, lits) :: st.values }
  | .Eq, [a, b] => do
      let (l, cnf) ← fEqV (argLits st a) (argLits st b) st.cnf
      some { cnf := cnf,
             values := (v, l :: List.replicate (v.width - 1) 0) :: st.values }
  | .LtU, [a, b] => do
      let (l, cnf) ← fLtU (argLits st a) (argLits st b) st.cnf
      some { cnf := cnf,
             values := (v, l :: List.replicate (v.width - 1) 0) :: st.values }
  | .LeU, [a, b] => do
      let (lt, cnf) ← fLtU (argLits st a) (argLits st b) st.cnf
      let (eq, cnf) ← fEqV (argLits st a) (argLits st b) cnf
      let (l, cnf) := fOr lt eq cnf
      some { cnf := cnf,
             values := (v, l :: List.replicate (v.width - 1) 0) :: st.values }
  | .Select, [c, a, b] =>
      let (lits, cnf) :=
        elemBinGo (fSelect ((argLits st c).getD 0 0))
          (argLits st a) (argLits st b) 0 v.width st.cnf
      some { cnf := cnf, values := (v, lits) :: st.values }
  | _, _ => none

/-- `CnfBuilder::build` (`none` = a thrown error): memoized nodes return
immediately, constants emit unit clauses per bit, `Op` nodes build their
arguments first and dispatch on the kind, and any other node (a leaf that
was not `free`d, or an `Unknown`) throws.  `fuel` bounds the recursion
depth; the node's size is always enough. -/
def buildF : Nat → Expr → Builder → Option Builder
  | 0, _, _ => none
  | fuel + 1, v, st =>
    match lookupV st.values v with
    | some _ => some st
    | none =>
      match v with
      | .constE val =>
          let (lits, cnf) := fConstV val st.cnf
          some { cnf := cnf, values := (v, lits) :: st.values }
      | .opE k args => do
          let st2 ← args.foldlM (fun s a => buildF fuel a s) st
          buildKind v k args st2
      | _ => none

/-- The empty `CnfBuilder`. -/
def emptyBuilder : Builder := ⟨⟨[], 0⟩, []⟩

theorem buildKind_unsupported (v : Expr) (k : Kind) (args : List Expr)
    (st : Builder)
    (hk : k = .Mul ∨ k = .LtS ∨ k = .LeS ∨ k = .Concat ∨ k = .Slice
      ∨ k = .Shl ∨ k = .ShrU ∨ k = .ShrS) :
    buildKind v k args st = none := by
  rcases hk with h | h | h | h | h | h | h | h <;> subst h <;>
    first
    | rfl
    | (rcases args with _ | ⟨a, _ | ⟨b, _ | ⟨c, rest⟩⟩⟩ <;> rfl)

/-- C4 (amended): `CnfBuilder::build` raises an error exactly for the
operator kinds it does not translate — `Mul`, `LtS`, `LeS`, `Concat`,
`Slice`, `Shl`, `ShrU`, `ShrS` (`"Op not implemented"`), at any operand
width — while the supported kinds are accepted at any width: besides the
1-bit gates, multi-bit `Sub`, `Eq`, `LtU`, `LeU` and `Select` over 2-bit
freed leaves all emit clauses successfully. -/
theorem build_op_not_implemented :
    (∀ (fuel : Nat) (k : Kind) (args : List Expr) (st : Builder),
        (k = .Mul ∨ k = .LtS ∨ k = .LeS ∨ k = .Concat ∨ k = .Slice
          ∨ k = .Shl ∨ k = .ShrU ∨ k = .ShrS) →
        lookupV st.values (.opE k args) = none →
        buildF (fuel + 1) (.opE k args) st = none)
      ∧ ((buildF 2 (.opE .Sub [Expr.leaf 0 2, Expr.leaf 1 2])
            (freeB (Expr.leaf 1 2) (freeB (Expr.leaf 0 2)
              emptyBuilder))).isSome = true
        ∧ (buildF 2 (.opE .Eq [Expr.leaf 0 2, Expr.leaf 1 2])
            (freeB (Expr.leaf 1 2) (freeB (Expr.leaf 0 2)
              emptyBuilder))).isSome = true
        ∧ (buildF 2 (.opE .LtU [Expr.leaf 0 2, Expr.leaf 1 2])
            (freeB (Expr.leaf 1 2) (freeB (Expr.leaf 0 2)
              emptyBuilder))).isSome = true
        ∧ (buildF 2 (.opE .LeU [Expr.leaf 0 2, Expr.leaf 1 2])
            (freeB (Expr.leaf 1 2) (freeB (Expr.leaf 0 2)
              emptyBuilder))).isSome = true
        ∧ (buildF 2 (.opE .Select
              [Expr.leaf 2 1, Expr.leaf 0 2, Expr.leaf 1 2])
            (freeB (Expr.leaf 2 1) (freeB (Expr.leaf 1 2)
              (freeB (Expr.leaf 0 2) emptyBuilder)))).isSome = true) := by
  constructor
  · intro fuel k args st hk hmem
    simp only [buildF, hmem]
    cases hfold : args.foldlM (fun s a => buildF fuel a s) st
    · simp [hfold]
    · simp [hfold, buildKind_unsupported _ _ _ _ hk]
  · exact ⟨by decide, by decide, by decide, by decide, by decide⟩

/-- C4 (counterexample to the claim as stated): an `Add` — a kind outside
`{And, Or, Xor, Not}` — over two multi-bit (2-bit) freed leaves is accepted
by `CnfBuilder::build` (it emits ripple-adder clauses) rather than raising
an error. -/
theorem build_multibit_add_accepted :
    (buildF 2 (.opE .Add [Expr.leaf 0 2, Expr.leaf 1 2])
        (freeB (Expr.leaf 1 2) (freeB (Expr.leaf 0 2)
          emptyBuilder))).isSome = true := by
  decide

/-!
### `Cnf::simplify`

The simplification state mirrors the C++ `Simplification` struct: per-var
occurrence sets (`std::set<size_t>`, modelled as ascending sorted lists),
remaining clause sizes, the assignment map, the inactive-clause set and the
unit-clause stack.
-/

/-- `Cnf::Literal::var()`: 0-based variable index of a literal id. -/
def var0 (l : Lit) : Nat := l.natAbs - 1

/-- `Simplification::Uses`: the clauses using a variable positively and
negatively. -/
structure Uses0 where
  positive : List Nat
  negative : List Nat
  deriving Repr, DecidableEq

/-- Insert into an ascending sorted set list. -/
def insSorted (n : Nat) : List Nat → List Nat
  | [] => [n]
  | m :: rest =>
      if n < m then n :: m :: rest
      else if n = m then m :: rest
      else m :: insSorted n rest

/-- The simplification state. -/
structure Simp0 where
  clausesC : List (List Lit)
  uses : List Uses0
  clauseSizes : List Nat
  assignments : List (Nat × Bool)
  inactive : List Nat
  unitClauses : List Nat
  isUnsat : Bool
  deriving Repr

/-- Assignment-map lookup (`std::map::find`). -/
def lookupA : List (Nat × Bool) → Nat → Option Bool
  | [], _ => none
  | (k, v) :: rest, i => if k = i then some v else lookupA rest i

/-- The occurrence sets of one variable. -/
def getU (us : List Uses0) (i : Nat) : Uses0 := us.getD i ⟨[], []⟩

/-- `Uses::operator[]`. -/
def polGet (u : Uses0) (pol : Bool) : List Nat :=
  if pol then u.positive else u.negative

/-- Replace one polarity's set. -/
def polSet (u : Uses0) (pol : Bool) (v : List Nat) : Uses0 :=
  if pol then { u with positive := v } else { u with negative := v }

/-- Apply `f` to `uses[i][pol]`. -/
def updateUses (s : Simp0) (i : Nat) (pol : Bool)
    (f : List Nat → List Nat) : Simp0 :=
  { s with uses := s.uses.set i (polSet (getU s.uses i) pol
      (f (polGet (getU s.uses i) pol))) }

/-- The literals of one original clause. -/
def clauseLits (s : Simp0) (cid : Nat) : List Lit := s.clausesC.getD cid []

/-- `Simplification::is_active`. -/
def isActiveS (s : Simp0) (cid : Nat) : Bool := !(s.inactive.contains cid)

/-- `Simplification::deactivate_clause`: mark inactive and erase the
clause from every occurrence set of its literals. -/
def deact (s : Simp0) (cid : Nat) : Simp0 :=
  let s2 := { s with inactive := cid :: s.inactive }
  (clauseLits s2 cid).foldl
    (fun t l => updateUses t (var0 l) (decide (l > 0)) (fun set => set.erase cid))
    s2

/-- The literal loop of the second half of `Simplification::assign` on one
clause of `var_uses[!value]`: decrement the size once per literal whose
variable matches, pushing a unit and flagging UNSAT (with an early return,
the `Bool`) as the size passes the thresholds. -/
def assignDecr (varId : Nat) (cid : Nat) :
    List Lit → Simp0 → Simp0 × Bool
  | [], s => (s, false)
  | l :: rest, s =>
      let s1 := if var0 l = varId
        then { s with clauseSizes :=
          s.clauseSizes.set cid (s.clauseSizes.getD cid 0 - 1) }
        else s
      if s1.clauseSizes.getD cid 0 = 1 then
        assignDecr varId cid rest
          { s1 with unitClauses := cid :: s1.unitClauses }
      else if s1.clauseSizes.getD cid 0 = 0 then
        ({ s1 with isUnsat := true }, true)
      else assignDecr varId cid rest s1

/-- The clause loop of the second half of `Simplification::assign`. -/
def assignDecrClauses (varId : Nat) : List Nat → Simp0 → Simp0
  | [], s => s
  | cid :: rest, s =>
      let r := assignDecr varId cid (clauseLits s cid) s
      if r.2 then r.1 else assignDecrClauses varId rest r.1

/-- `Simplification::assign`: record the assignment, deactivate every
clause of the STALE `var_uses` copy satisfied by it, then decrement the
sizes of the stale copy's opposite-polarity clauses. -/
def assignS (varId : Nat) (value : Bool) (s : Simp0) : Simp0 :=
  if s.isUnsat then s
  else match lookupA s.assignments varId with
  | some v => if v = value then s else { s with isUnsat := true }
  | none =>
      let s1 := { s with assignments := (varId, value) :: s.assignments }
      let varUses := getU s1.uses varId
      let s2 := (polGet varUses value).foldl deact s1
      assignDecrClauses varId (polGet varUses (!value)) s2

/-- The literal scan of `Simplification::unit_prop`: assign the first
unassigned literal of the popped clause, then break. -/
def unitScan (cid : Nat) : List Lit → Simp0 → Simp0
  | [], s => s
  | l :: rest, s =>
      if lookupA s.assignments (var0 l) = none then
        assignS (var0 l) (decide (l > 0)) s
      else unitScan cid rest s

/-- `Simplification::unit_prop`: pop the unit stack until it is empty or
UNSAT was flagged, skipping stale entries.  `fuel` bounds the loop; each
iteration pops one entry and at most `var_count` assignments each push at
most one entry per literal occurrence, so the fuel passed by `simplify0`
never runs out. -/
def unitProp : Nat → Simp0 → Simp0
  | 0, s => s
  | fuel + 1, s =>
      if s.unitClauses.length > 0 ∧ s.isUnsat = false then
        match s.unitClauses with
        | [] => s
        | cid :: rest =>
            let s1 := { s with unitClauses := rest }
            if isActiveS s1 cid = false ∨ s1.clauseSizes.getD cid 0 ≠ 1 then
              unitProp fuel s1
            else
              unitProp fuel (unitScan cid (clauseLits s1 cid) s1)
      else s

/-- `Simplification::assign_pure`: assign every unassigned pure variable,
scanning variable ids upward over the live occurrence sets. -/
def assignPureGo : Nat → Nat → Simp0 → Simp0
  | _, 0, s => s
  | i, n + 1, s =>
      let u := getU s.uses i
      let s2 :=
        if lookupA s.assignments i = none
            ∧ (u.positive.length = 0 ∨ u.negative.length = 0) then
          assignS i (decide (0 < u.positive.length)) s
        else s
      assignPureGo (i + 1) n s2

/-- `Simplification::assign_pure`. -/
def assignPure (s : Simp0) : Simp0 := assignPureGo 0 s.uses.length s

/-- The literal loop of `Simplification::to_cnf` on one active clause:
drop assigned variables, allocate a dense fresh variable on first sight,
and renumber.  Carries the renaming vector and the output variable
counter. -/
def renumClause (asg : List (Nat × Bool)) :
    List Lit → List Lit → Nat → List Lit × Nat × List Lit
  | [], vars, rvc => (vars, rvc, [])
  | l :: rest, vars, rvc =>
      let v := var0 l
      match lookupA asg v with
      | some _ => renumClause asg rest vars rvc
      | none =>
          let p : List Lit × Nat :=
            if vars.getD v 0 = 0 then (vars.set v (Int.ofNat (rvc + 1)), rvc + 1)
            else (vars, rvc)
          let base := p.1.getD v 0
          let lit := if l < 0 then -base else base
          let r := renumClause asg rest p.1 p.2
          (r.1, r.2.1, lit :: r.2.2)

/-- The clause loop of `Simplification::to_cnf`. -/
def toCnfGo (s : Simp0) : Nat → List (List Lit) → List Lit → Cnf0 → Cnf0
  | _, [], _, result => result
  | cid, cl :: rest, vars, result =>
      if s.inactive.contains cid then toCnfGo s (cid + 1) rest vars result
      else
        let r := renumClause s.assignments cl vars result.varCount
        toCnfGo s (cid + 1) rest r.1
          ⟨result.clauses ++ [r.2.2], r.2.1⟩

/-- `Simplification::to_cnf`: a single empty clause when UNSAT was
flagged, otherwise the active clauses with assigned variables dropped and
the rest densely renumbered in order of first occurrence. -/
def toCnfS (s : Simp0) : Cnf0 :=
  if s.isUnsat then ⟨[[]], 0⟩
  else toCnfGo s 0 s.clausesC (List.replicate (s.uses.length) 0) ⟨[], 0⟩

/-- The constructor loop of `Simplification`: occurrence sets, clause
sizes, the initial unit stack (pushed in ascending clause order) and the
empty-clause UNSAT flag. -/
def initGo : Nat → List (List Lit) → Simp0 → Simp0
  | _, [], s => s
  | cid, cl :: rest, s =>
      let s1 := cl.foldl
        (fun t l => updateUses t (var0 l) (decide (l > 0)) (insSorted cid)) s
      let s2 := { s1 with clauseSizes := s1.clauseSizes ++ [cl.length] }
      let s3 :=
        if cl.length = 1 then { s2 with unitClauses := cid :: s2.unitClauses }
        else if cl.length = 0 then { s2 with isUnsat := true }
        else s2
      initGo (cid + 1) rest s3

/-- The `Simplification` constructor. -/
def initSimp (c : Cnf0) : Simp0 :=
  initGo 0 c.clauses
    ⟨c.clauses, List.replicate c.varCount ⟨[], []⟩, [], [], [], [], false⟩

/-- `Cnf::simplify`: unit propagation, pure-literal elimination, then
dense renumbering.  The unit-propagation fuel is generous: every pop
consumes one stack entry, and entries are pushed only by the constructor
(at most one per clause) and by assignments (at most `var_count + 1`
successful assignments, each pushing at most one entry per literal
occurrence). -/
def simplify0 (c : Cnf0) : Cnf0 :=
  let s := initSimp c
  let s2 := unitProp
    ((c.varCount + 1) * ((c.clauses.map List.length).sum + 1)
      + c.clauses.length + 1) s
  toCnfS (assignPure s2)

/-- Truth of a literal under a total assignment (variables 0-based). -/
def litSat (asg : Nat → Bool) (l : Lit) : Bool :=
  if l > 0 then asg (var0 l) else !(asg (var0 l))

/-- Satisfaction of a CNF under a total assignment. -/
def cnfSat (asg : Nat → Bool) (c : Cnf0) : Bool :=
  c.clauses.all (fun cl => cl.any (litSat asg))

/-- C2: `Cnf::simplify` is NOT equisatisfiability-preserving.  The CNF
`{x1 ∨ ¬x1, x1}` over one variable is satisfied by `x1 = true`, yet
`simplify()` returns the single empty clause (the UNSAT marker), which no
assignment satisfies.  Unit propagation assigns `x1 = true`; `assign`
deactivates both clauses (both use `x1` positively) but then walks the
STALE `var_uses` copy's negative set, which still contains the first —
already deactivated and satisfied — clause, and decrements that clause's
size once per literal over `x1` of EITHER polarity: two decrements take
the size 2 → 0 and UNSAT is flagged spuriously. -/
theorem simplify_not_equisatisfiable :
    cnfSat (fun _ => true) ⟨[[1, -1], [1]], 1⟩ = true
      ∧ (simplify0 ⟨[[1, -1], [1]], 1⟩).clauses = [[]]
      ∧ (∀ asg : Nat → Bool, cnfSat asg (simplify0 ⟨[[1, -1], [1]], 1⟩) = false) := by
  refine ⟨by decide, by decide, fun asg => ?_⟩
  rfl

/-!
### `Module::gc`

Nodes live on a heap of abstract addresses (`Nat`); the module owns them
through its containers (`_regs`, `_memories`, `_unknowns`, the two
hash-cons caches, `_inputs`) and roots its outputs.  `trace` follows
`Op.args`, `Reg.clock`/`next`, `Memory` write fields and `Memory::Read`
memory/address edges; the reached set is computed as the iterated
successor closure of the output roots (the DFS of the code computes the
same set).
-/

/-- One `Memory::Write`: clock, address, enable, value edges. -/
structure MemWrite where
  clock : Nat
  address : Nat
  enable : Nat
  value : Nat
  deriving Repr, DecidableEq

/-- A heap node: `Input`, `Constant`, `Op`, `Reg`, `Unknown`,
`Memory::Read` or `Memory`. -/
inductive Node0 where
  | inputN (w : Nat)
  | constN (v : BitStr)
  | opN (k : Kind) (args : List Nat)
  | regN (clock next : Nat)
  | unknownN (w : Nat)
  | readN (mem addr : Nat)
  | memN (writes : List MemWrite)
  deriving Repr

/-- The edges `Module::trace` follows out of one node. -/
def succsN : Node0 → List Nat
  | .opN _ args => args
  | .regN c n => [c, n]
  | .readN mem addr => [mem, addr]
  | .memN ws => ws.flatMap (fun w => [w.clock, w.address, w.enable, w.value])
  | _ => []

/-- Heap lookup. -/
def lookupN : List (Nat × Node0) → Nat → Option Node0
  | [], _ => none
  | (k, v) :: rest, i => if k = i then some v else lookupN rest i

/-- A module as `Module::gc` sees it: the heap plus the owning containers
and the output roots (`Output.value` ids). -/
structure GModule where
  heap : List (Nat × Node0)
  regs : List Nat
  memories : List Nat
  unknowns : List Nat
  ops : List Nat
  constants : List Nat
  inputs : List Nat
  outputs : List Nat

/-- The successors of an address. -/
def succsG (m : GModule) (i : Nat) : List Nat :=
  match lookupN m.heap i with
  | some nd => succsN nd
  | none => []

/-- One closure step: keep the set and add every successor. -/
def stepG (m : GModule) (s : Finset Nat) : Finset Nat :=
  s ∪ s.biUnion (fun i => (succsG m i).toFinset)

/-- The n-fold closure step from the output roots. -/
def reachNG (m : GModule) : Nat → Finset Nat
  | 0 => m.outputs.toFinset
  | n + 1 => stepG m (reachNG m n)

/-- A finite universe containing the roots, every heap address and every
successor of a heap node. -/
def univG (m : GModule) : Finset Nat :=
  m.outputs.toFinset ∪ (m.heap.map Prod.fst).toFinset
    ∪ (m.heap.flatMap (fun p => succsN p.2)).toFinset

/-- The reached set of `Module::gc` (the closure stabilizes within
`(univG m).card` steps). -/
def reachedG (m : GModule) : Finset Nat := reachNG m (univG m).card

/-- Reachability from some output along the traced edges. -/
inductive ReachableG (m : GModule) : Nat → Prop where
  | root (i : Nat) (h : i ∈ m.outputs) : ReachableG m i
  | step (i j : Nat) (hi : ReachableG m i) (hj : j ∈ succsG m i) :
      ReachableG m j

/-- `Module::gc`: sweep the unreached nodes out of `_regs`, `_memories`,
`_unknowns` and the two hash-cons caches; `_inputs` and `_outputs` are
untouched. -/
def gcG (m : GModule) : GModule :=
  let r := reachedG m
  { m with
    regs := m.regs.filter (fun i => decide (i ∈ r)),
    memories := m.memories.filter (fun i => decide (i ∈ r)),
    unknowns := m.unknowns.filter (fun i => decide (i ∈ r)),
    ops := m.ops.filter (fun i => decide (i ∈ r)),
    constants := m.constants.filter (fun i => decide (i ∈ r)) }

theorem subset_stepG (m : GModule) (s : Finset Nat) : s ⊆ stepG m s :=
  Finset.subset_union_left

theorem reachNG_mono (m : GModule) {n k : Nat} (h : n ≤ k) :
    reachNG m n ⊆ reachNG m k := by
  induction k with
  | zero => rw [Nat.le_zero.mp h]
  | succ k ih =>
      rcases Nat.lt_or_ge n (k + 1) with h2 | h2
      · exact (ih (Nat.lt_succ_iff.mp h2)).trans (subset_stepG m _)
      · rw [Nat.le_antisymm h h2]

theorem reachNG_sound (m : GModule) :
    ∀ (n : Nat) (i : Nat), i ∈ reachNG m n → ReachableG m i := by
  intro n
  induction n with
  | zero => exact fun i hi => .root i (List.mem_toFinset.mp hi)
  | succ n ih =>
      intro i hi
      rcases Finset.mem_union.mp hi with h | h
      · exact ih i h
      · obtain ⟨j, hj, hij⟩ := Finset.mem_biUnion.mp h
        exact .step j i (ih j hj) (List.mem_toFinset.mp hij)

theorem mem_heap_of_lookup {h : List (Nat × Node0)} {i : Nat} {nd : Node0}
    (hl : lookupN h i = some nd) : (i, nd) ∈ h := by
  induction h with
  | nil => exact absurd hl (by simp [lookupN])
  | cons p rest ih =>
      rw [lookupN] at hl
      by_cases hp : p.1 = i
      · rw [if_pos hp] at hl
        have h2 : p.2 = nd := Option.some_inj.mp hl
        rw [← hp, ← h2]
        exact List.mem_cons_self _ _
      · rw [if_neg hp] at hl
        exact List.mem_cons_of_mem p (ih hl)

theorem succsG_subset_univ (m : GModule) (i : Nat) :
    ∀ x ∈ succsG m i, x ∈ univG m := by
  intro x hx
  unfold succsG at hx
  cases hl : lookupN m.heap i with
  | none => rw [hl] at hx; exact absurd hx (by simp)
  | some nd =>
      rw [hl] at hx
      refine Finset.mem_union.mpr (Or.inr (List.mem_toFinset.mpr ?_))
      exact List.mem_flatMap.mpr ⟨(i, nd), mem_heap_of_lookup hl, hx⟩

theorem reachNG_subset_univ (m : GModule) :
    ∀ n, reachNG m n ⊆ univG m := by
  intro n
  induction n with
  | zero =>
      exact fun i hi => Finset.mem_union.mpr
        (Or.inl (Finset.mem_union.mpr (Or.inl hi)))
  | succ n ih =>
      refine Finset.union_subset ih (Finset.biUnion_subset.mpr ?_)
      intro j hj x hx
      exact succsG_subset_univ m j x (List.mem_toFinset.mp hx)

theorem reachNG_stab (m : GModule) {n : Nat}
    (h : reachNG m (n + 1) = reachNG m n) :
    ∀ k, n ≤ k → reachNG m k = reachNG m n := by
  intro k hk
  induction k with
  | zero => rw [Nat.le_zero.mp hk]
  | succ k ih =>
      rcases Nat.lt_or_ge n (k + 1) with h2 | h2
      · have hkn := ih (Nat.lt_succ_iff.mp h2)
        calc reachNG m (k + 1) = stepG m (reachNG m k) := rfl
          _ = stepG m (reachNG m n) := by rw [hkn]
          _ = reachNG m (n + 1) := rfl
          _ = reachNG m n := h
      · rw [Nat.le_antisymm hk h2]

theorem reachNG_growth (m : GModule) :
    ∀ n, (∀ k, k < n → reachNG m (k + 1) ≠ reachNG m k) →
      n ≤ (reachNG m n).card := by
  intro n
  induction n with
  | zero => exact fun _ => Nat.zero_le _
  | succ n ih =>
      intro hall
      have h1 : n ≤ (reachNG m n).card :=
        ih (fun k hk => hall k (hk.trans (Nat.lt_succ_self n)))
      have hss : reachNG m n ⊂ reachNG m (n + 1) :=
        Finset.ssubset_iff_subset_ne.mpr
          ⟨subset_stepG m _, fun he => hall n (Nat.lt_succ_self n) he.symm⟩
      exact Nat.le_trans (Nat.succ_le_succ h1)
        (Finset.card_lt_card hss)

theorem reachedG_fixed (m : GModule) :
    stepG m (reachedG m) = reachedG m := by
  by_cases hfix : ∃ k, k ≤ (univG m).card ∧ reachNG m (k + 1) = reachNG m k
  · obtain ⟨k, hk, hfx⟩ := hfix
    have h1 := reachNG_stab m hfx ((univG m).card) hk
    have h2 := reachNG_stab m hfx ((univG m).card + 1) (Nat.le_succ_of_le hk)
    show reachNG m ((univG m).card + 1) = reachNG m (univG m).card
    rw [h1, h2]
  · exfalso
    push_neg at hfix
    have hgrow := reachNG_growth m ((univG m).card + 1)
      (fun k hk => hfix k (Nat.lt_succ_iff.mp hk))
    have hcard : (reachNG m ((univG m).card + 1)).card ≤ (univG m).card :=
      Finset.card_le_card (reachNG_subset_univ m _)
    omega

theorem reachNG_complete (m : GModule) (i : Nat) (h : ReachableG m i) :
    i ∈ reachedG m := by
  induction h with
  | root j hj =>
      exact reachNG_mono m (Nat.zero_le _) (List.mem_toFinset.mpr hj)
  | step j x hj hx ih =>
      rw [← reachedG_fixed m]
      exact Finset.mem_union.mpr (Or.inr
        (Finset.mem_biUnion.mpr ⟨j, ih, List.mem_toFinset.mpr hx⟩))

theorem reachedG_iff (m : GModule) (i : Nat) :
    i ∈ reachedG m ↔ ReachableG m i :=
  ⟨reachNG_sound m _ i, reachNG_complete m i⟩

theorem mem_filter_reached (l : List Nat) (m : GModule) (i : Nat) :
    i ∈ l.filter (fun j => decide (j ∈ reachedG m))
      ↔ (i ∈ l ∧ ReachableG m i) := by
  rw [List.mem_filter, decide_eq_true_iff, reachedG_iff]

/-- C3 (amended): after `Module::gc`, each of the swept containers —
`_regs`, `_memories`, `_unknowns` and the `Op`/`Constant` hash-cons caches
— keeps exactly its nodes that are reachable from some output along the
traced edges (same address, so "same pointer"), while every unreachable
node is removed from (destroyed out of) its container; `_inputs` and
`_outputs` are untouched, so unreachable `Input` nodes survive. -/
theorem gc_reachability (m : GModule) (i : Nat) :
    ((i ∈ (gcG m).regs ↔ (i ∈ m.regs ∧ ReachableG m i))
        ∧ (i ∈ (gcG m).memories ↔ (i ∈ m.memories ∧ ReachableG m i))
        ∧ (i ∈ (gcG m).unknowns ↔ (i ∈ m.unknowns ∧ ReachableG m i))
        ∧ (i ∈ (gcG m).ops ↔ (i ∈ m.ops ∧ ReachableG m i))
        ∧ (i ∈ (gcG m).constants ↔ (i ∈ m.constants ∧ ReachableG m i)))
      ∧ (gcG m).inputs = m.inputs ∧ (gcG m).outputs = m.outputs :=
  ⟨⟨mem_filter_reached m.regs m i, mem_filter_reached m.memories m i,
    mem_filter_reached m.unknowns m i, mem_filter_reached m.ops m i,
    mem_filter_reached m.constants m i⟩, rfl, rfl⟩

/-- C3 (counterexample to the claim as stated): in a module owning an
unused 1-bit `Input` (address 0) and outputting a constant (address 1),
the input is not reachable from any output, yet after `gc()` it is still
owned (`_inputs` is never swept) — it is not destroyed. -/
theorem gc_unreachable_input_survives :
    ((gcG ⟨[(0, .inputN 1), (1, .constN [true])],
        [], [], [], [], [1], [0], [1]⟩).inputs = [0])
      ∧ ¬ ReachableG ⟨[(0, .inputN 1), (1, .constN [true])],
        [], [], [], [], [1], [0], [1]⟩ 0 := by
  constructor
  · rfl
  · intro h
    have hm := (reachedG_iff _ 0).mpr h
    revert hm
    decide

/-!
### The flattener

Preliminaries: all width arithmetic in the C++ is on `size_t`; the node
widths the claims range over stay below `2^64` (`widthsB`), and an
environment is well formed for a tree when every leaf's value has the
leaf's declared width (`envWFB`).
-/

mutual

/-- Every node width in the tree is below `2^64`. -/
def widthsB : Expr → Bool
  | .leaf _ w => decide (w < 2 ^ 64)
  | .constE v => decide (v.length < 2 ^ 64)
  | .unknownE _ w => decide (w < 2 ^ 64)
  | .opE k args => decide ((Expr.opE k args).width < 2 ^ 64) && widthsL args

/-- `widthsB` over an argument list. -/
def widthsL : List Expr → Bool
  | [] => true
  | e :: es => widthsB e && widthsL es

end

mutual

/-- Every leaf's environment value has the leaf's declared width. -/
def envWFB (env : Nat → BitStr) : Expr → Bool
  | .leaf i w => decide ((env i).length = w)
  | .constE _ => true
  | .unknownE _ _ => true
  | .opE _ args => envWFL env args

/-- `envWFB` over an argument list. -/
def envWFL (env : Nat → BitStr) : List Expr → Bool
  | [] => true
  | e :: es => envWFB env e && envWFL env es

end

theorem widthsL_mem {args : List Expr} (h : widthsL args = true) :
    ∀ e ∈ args, widthsB e = true := by
  induction args with
  | nil => intro e he; exact absurd he (List.not_mem_nil e)
  | cons a rest ih =>
      rw [widthsL, Bool.and_eq_true] at h
      intro e he
      rcases List.mem_cons.mp he with he | he
      · rw [he]; exact h.1
      · exact ih h.2 e he

theorem envWFL_mem {env : Nat → BitStr} {args : List Expr}
    (h : envWFL env args = true) : ∀ e ∈ args, envWFB env e = true := by
  induction args with
  | nil => intro e he; exact absurd he (List.not_mem_nil e)
  | cons a rest ih =>
      rw [envWFL, Bool.and_eq_true] at h
      intro e he
      rcases List.mem_cons.mp he with he | he
      · rw [he]; exact h.1
      · exact ih h.2 e he

/-- Every `sim::Simulation::eval` result of an `Op` node passes the
simulator's final width check, so it has the node's width. -/
theorem eval_op_width (env : Nat → BitStr) (k : Kind) (args : List Expr)
    (bv : BitStr) (hv : evalE env (.opE k args) = some bv) :
    bv.length = (Expr.opE k args).width := by
  cases k <;>
    first
    | (simp [evalE] at hv
       simp only [Option.bind_eq_some] at hv
       obtain ⟨vs, hvs, r, hr, hfin⟩ := hv
       split at hfin
       · cases Option.some_inj.mp hfin
         assumption
       · exact absurd hfin (by simp))
    | (rcases args with _ | ⟨a0, _ | ⟨a1, _ | ⟨a2, _ | ⟨a3, rest⟩⟩⟩⟩ <;>
        first
        | (simp [evalE] at hv
           simp only [Option.bind_eq_some] at hv
           obtain ⟨vs, hvs, r, hr, hfin⟩ := hv
           split at hfin
           · cases Option.some_inj.mp hfin
             assumption
           · exact absurd hfin (by simp))
        | (rcases hcv : evalE env a0 with _ | cv
           · simp [evalE, hcv] at hv
           · simp [evalE, hcv] at hv
             obtain ⟨hne, hv⟩ := hv
             split at hv <;>
               (simp only [Option.bind_eq_some] at hv
                obtain ⟨r, hr, hfin⟩ := hv
                split at hfin
                · cases Option.some_inj.mp hfin
                  assumption
                · exact absurd hfin (by simp))))

/-- Any successful evaluation under a well-formed environment produces a
value of the node's static width. -/
theorem eval_length (env : Nat → BitStr) (e : Expr) (bv : BitStr)
    (hE : envWFB env e = true) (hv : evalE env e = some bv) :
    bv.length = e.width := by
  cases e with
  | leaf i w =>
      rw [evalE] at hv
      cases Option.some_inj.mp hv
      rw [envWFB, decide_eq_true_iff] at hE
      exact hE
  | constE v =>
      rw [evalE] at hv
      cases Option.some_inj.mp hv
      rfl
  | unknownE i w => exact absurd hv (by rw [evalE]; simp)
  | opE k args => exact eval_op_width env k args bv hv

namespace BitStr

theorem all_false_eq_replicate {a : BitStr} (h : isZero a = true) :
    a = List.replicate a.length false := by
  rw [isZero, List.all_eq_true] at h
  induction a with
  | nil => rfl
  | cons x xs ih =>
      have hx : x = false := by
        have := h x (List.mem_cons_self x xs)
        revert this
        cases x <;> simp
      rw [List.length_cons, List.replicate_succ, hx]
      rw [ih (fun y hy => h y (List.mem_cons_of_mem x hy))]
      simp

theorem all_true_eq_replicate {a : BitStr} (h : isAllOnes a = true) :
    a = List.replicate a.length true := by
  rw [isAllOnes, List.all_eq_true] at h
  induction a with
  | nil => rfl
  | cons x xs ih =>
      have hx : x = true := h x (List.mem_cons_self x xs)
      rw [List.length_cons, List.replicate_succ, hx]
      rw [ih (fun y hy => h y (List.mem_cons_of_mem x hy))]
      simp

theorem zipWith_self (f : Bool → Bool → Bool) (hf : ∀ x, f x x = x)
    (a : BitStr) : List.zipWith f a a = a := by
  induction a with
  | nil => rfl
  | cons x xs ih => rw [List.zipWith_cons_cons, hf, ih]

theorem band_self (a : BitStr) : band a a = a :=
  zipWith_self and (fun x => by cases x <;> rfl) a

theorem bor_self (a : BitStr) : bor a a = a :=
  zipWith_self or (fun x => by cases x <;> rfl) a

theorem bxor_self (a : BitStr) : bxor a a = List.replicate a.length false := by
  induction a with
  | nil => rfl
  | cons x xs ih =>
      rw [bxor, List.zipWith_cons_cons]
      rw [bxor] at ih
      rw [ih, List.length_cons, List.replicate_succ]
      cases x <;> rfl

theorem zipWith_comm_bits (f : Bool → Bool → Bool)
    (hf : ∀ x y, f x y = f y x) :
    (a b : BitStr) → List.zipWith f a b = List.zipWith f b a
  | [], [] => rfl
  | [], _ :: _ => rfl
  | _ :: _, [] => rfl
  | x :: xs, y :: ys => by
      rw [List.zipWith_cons_cons, List.zipWith_cons_cons, hf,
        zipWith_comm_bits f hf xs ys]

theorem band_comm (a b : BitStr) : band a b = band b a :=
  zipWith_comm_bits and (fun x y => Bool.and_comm x y) a b

theorem bor_comm (a b : BitStr) : bor a b = bor b a :=
  zipWith_comm_bits or (fun x y => Bool.or_comm x y) a b

theorem bxor_comm (a b : BitStr) : bxor a b = bxor b a :=
  zipWith_comm_bits xor (fun x y => Bool.xor_comm x y) a b

theorem zipWith_rep_left (f : Bool → Bool → Bool) (c : Bool)
    (hl : ∀ x, f c x = x) :
    (b : BitStr) → (n : Nat) → n = b.length →
      List.zipWith f (List.replicate n c) b = b
  | [], _, h => by rw [h]; rfl
  | x :: xs, n, h => by
      rw [h, List.length_cons, List.replicate_succ,
        List.zipWith_cons_cons, hl,
        zipWith_rep_left f c hl xs xs.length rfl]

theorem zipWith_rep_left_const (f : Bool → Bool → Bool) (c : Bool)
    (hl : ∀ x, f c x = c) :
    (b : BitStr) → (n : Nat) → n = b.length →
      List.zipWith f (List.replicate n c) b = List.replicate n c
  | [], _, h => by rw [h]; rfl
  | x :: xs, n, h => by
      rw [h, List.length_cons, List.replicate_succ,
        List.zipWith_cons_cons, hl,
        zipWith_rep_left_const f c hl xs xs.length rfl]

theorem band_zero_left {c b : BitStr} (hz : isZero c = true)
    (hl : c.length = b.length) : band c b = c := by
  rw [band]
  have hc := all_false_eq_replicate hz
  calc List.zipWith and c b
      = List.zipWith and (List.replicate c.length false) b := by rw [← hc]
    _ = List.replicate c.length false :=
        zipWith_rep_left_const and false (fun x => by cases x <;> rfl) b
          c.length hl
    _ = c := hc.symm

theorem band_ones_left {c b : BitStr} (ho : isAllOnes c = true)
    (hl : c.length = b.length) : band c b = b := by
  rw [band]
  have hc := all_true_eq_replicate ho
  calc List.zipWith and c b
      = List.zipWith and (List.replicate c.length true) b := by rw [← hc]
    _ = b := zipWith_rep_left and true (fun x => by cases x <;> rfl) b
        c.length hl

theorem bor_zero_left {c b : BitStr} (hz : isZero c = true)
    (hl : c.length = b.length) : bor c b = b := by
  rw [bor]
  have hc := all_false_eq_replicate hz
  calc List.zipWith or c b
      = List.zipWith or (List.replicate c.length false) b := by rw [← hc]
    _ = b := zipWith_rep_left or false (fun x => by cases x <;> rfl) b
        c.length hl

theorem bor_ones_left {c b : BitStr} (ho : isAllOnes c = true)
    (hl : c.length = b.length) : bor c b = c := by
  rw [bor]
  have hc := all_true_eq_replicate ho
  calc List.zipWith or c b
      = List.zipWith or (List.replicate c.length true) b := by rw [← hc]
    _ = List.replicate c.length true :=
        zipWith_rep_left_const or true (fun x => by cases x <;> rfl) b
          c.length hl
    _ = c := hc.symm

theorem bxor_zero_left {c b : BitStr} (hz : isZero c = true)
    (hl : c.length = b.length) : bxor c b = b := by
  rw [bxor]
  have hc := all_false_eq_replicate hz
  calc List.zipWith xor c b
      = List.zipWith xor (List.replicate c.length false) b := by rw [← hc]
    _ = b := zipWith_rep_left xor false (fun x => by cases x <;> rfl) b
        c.length hl

theorem bxor_ones_left {c b : BitStr} (ho : isAllOnes c = true)
    (hl : c.length = b.length) : bxor c b = bnot b := by
  have hc := all_true_eq_replicate ho
  rw [bxor, hc, hl]
  clear hc hl ho
  induction b with
  | nil => rfl
  | cons x xs ih =>
      rw [List.length_cons, List.replicate_succ, List.zipWith_cons_cons]
      rw [bnot, List.map_cons]
      rw [show List.zipWith xor (List.replicate xs.length true) xs
          = bnot xs from ih]
      cases x <;> rfl

theorem beq_self (a : BitStr) : beq a a = true := by
  rw [beq]
  simp

theorem beq_comm (a b : BitStr) : beq a b = beq b a := by
  rw [beq, beq]
  by_cases h : a.length = b.length
  · simp only [h, ne_eq, not_true_eq_false, if_false]
    by_cases he : a = b
    · rw [he]
    · have h1 : (a == b) = false := by
        rw [beq_eq_false_iff_ne]
        exact he
      have h2 : (b == a) = false := by
        rw [beq_eq_false_iff_ne]
        exact fun hba => he hba.symm
      simp [h, h1, h2]
  · have h2 : ¬ (List.length b = List.length a) := fun hba => h hba.symm
    simp [h, h2]

theorem add_comm_b (a b : BitStr) (hl : a.length = b.length) :
    add a b = add b a := by
  apply toNat_inj
  · rw [length_add a b hl, length_add b a hl.symm, hl]
  · rw [toNat_add a b hl, toNat_add b a hl.symm, hl, Nat.add_comm]

theorem add_zero_left {c b : BitStr} (hz : isZero c = true)
    (hl : c.length = b.length) : add c b = b := by
  apply toNat_inj
  · rw [length_add c b hl, hl]
  · rw [toNat_add c b hl, (isZero_iff c).mp hz, Nat.zero_add, hl,
      Nat.mod_eq_of_lt (toNat_lt b)]

theorem sub_self_zero (a : BitStr) :
    sub a a = List.replicate a.length false := by
  apply toNat_inj
  · rw [length_sub a a rfl, List.length_replicate]
  · rw [toNat_sub a a rfl, toNat_replicate_false,
      Nat.add_sub_cancel' (Nat.le_of_lt (toNat_lt a)), Nat.mod_self]

theorem sub_zero_right {a c : BitStr} (hz : isZero c = true)
    (hl : a.length = c.length) : sub a c = a := by
  apply toNat_inj
  · rw [length_sub a c hl]
  · rw [toNat_sub a c hl, (isZero_iff c).mp hz]
    have := toNat_lt a
    rw [Nat.sub_zero, Nat.add_mod_right, Nat.mod_eq_of_lt this]

theorem ltU_self (a : BitStr) : ltU a a = false := by
  rw [ltU]
  simp

theorem ltU_zero_right {a c : BitStr} (hz : isZero c = true) :
    ltU a c = false := by
  rw [ltU, (isZero_iff c).mp hz]
  simp

theorem ltS_self (a : BitStr) : ltS a a = false := by
  rw [ltS, if_pos rfl, ltU_self]

theorem leU_self (a : BitStr) : leU a a = true := by
  rw [leU, beq_self, Bool.or_true]

theorem leS_self (a : BitStr) : leS a a = true := by
  rw [leS, beq_self, Bool.or_true]

theorem shlN_zero (a : BitStr) : shlN a 0 = a := by
  rw [shlN, List.replicate_zero, List.nil_append, List.take_length]

theorem shrUN_zero (a : BitStr) : shrUN a 0 = a := by
  rw [shrUN, List.drop_zero, Nat.sub_self, List.replicate_zero,
    List.append_nil]

theorem shrSN_zero (a : BitStr) : shrSN a 0 = a := by
  rw [shrSN, List.drop_zero, Nat.sub_self, List.replicate_zero,
    List.append_nil]

theorem asUint64_zero {c : BitStr} (hz : isZero c = true) :
    asUint64 c = 0 := by
  rw [asUint64]
  rw [all_false_eq_replicate hz, List.take_replicate, toNat_replicate_false]

theorem shlN_of_zero {a : BitStr} (hz : isZero a = true) (n : Nat) :
    shlN a n = a := by
  rw [shlN, all_false_eq_replicate hz]
  rw [List.length_replicate, ← List.replicate_add, List.take_replicate]
  congr 1
  omega

theorem shrUN_of_zero {a : BitStr} (hz : isZero a = true) (n : Nat) :
    shrUN a n = a := by
  rw [shrUN, all_false_eq_replicate hz]
  rw [List.length_replicate, List.drop_replicate, ← List.replicate_add,
    List.length_replicate]
  congr 1
  omega

theorem getLastD_replicate (n : Nat) (x d : Bool) (h : 0 < n) :
    (List.replicate n x).getLastD d = x := by
  cases n with
  | zero => omega
  | succ m =>
      rw [List.getLastD_eq_getLast?, List.getLast?_replicate]
      simp

theorem sign_of_zero {a : BitStr} (hz : isZero a = true) : sign a = false := by
  rw [sign, all_false_eq_replicate hz]
  cases hl : a.length with
  | zero => rfl
  | succ n =>
      exact getLastD_replicate (n + 1) false false (Nat.succ_pos n)

theorem shrSN_of_zero {a : BitStr} (hz : isZero a = true) (n : Nat) :
    shrSN a n = a := by
  rw [shrSN, sign_of_zero hz, all_false_eq_replicate hz]
  rw [List.length_replicate, List.drop_replicate, ← List.replicate_add,
    List.length_replicate]
  congr 1
  omega

theorem shrSN_of_ones {a : BitStr} (ho : isAllOnes a = true) (n : Nat) :
    shrSN a n = a := by
  rw [shrSN]
  have hc := all_true_eq_replicate ho
  cases hlen : a.length with
  | zero =>
      have : a = [] := List.length_eq_zero.mp hlen
      rw [this]
      simp
  | succ m =>
      have hs : sign a = true := by
        rw [sign, hc, hlen]
        exact getLastD_replicate (m + 1) true false (Nat.succ_pos m)
      rw [hs, hc, hlen, List.drop_replicate, ← List.replicate_add,
        List.length_replicate]
      congr 1
      omega

theorem sliceW_concat_low (lv hv : BitStr) (o w : Nat)
    (h : o + w ≤ lv.length) :
    sliceW (lv ++ hv) o w = sliceW lv o w := by
  rw [sliceW, sliceW, List.length_append,
    if_pos (Nat.le_trans h (Nat.le_add_right _ _)), if_pos h]
  congr 1
  rw [List.drop_append_of_le_length (by omega)]
  rw [List.take_append_of_le_length (by rw [List.length_drop]; omega)]

theorem drop_append_add (lv hv : List Bool) (n : Nat) :
    List.drop (lv.length + n) (lv ++ hv) = List.drop n hv := by
  induction lv with
  | nil => simp
  | cons x xs ih =>
      rw [List.length_cons, List.cons_append]
      simpa [Nat.succ_add] using ih

theorem sliceW_concat_high (lv hv : BitStr) (o w : Nat)
    (ho : lv.length ≤ o) :
    sliceW (lv ++ hv) o w = sliceW hv (o - lv.length) w := by
  rw [sliceW, sliceW, List.length_append]
  by_cases h : o - lv.length + w ≤ hv.length
  · rw [if_pos (by omega), if_pos h]
    have hd : List.drop o (lv ++ hv) = List.drop (o - lv.length) hv := by
      rw [show o = lv.length + (o - lv.length) from by omega,
        drop_append_add]
      congr 1
      omega
    rw [hd]
  · rw [if_neg (by omega), if_neg h]

theorem sliceW_slice (sv : BitStr) (i iw o w : Nat) (inner r : BitStr)
    (h1 : sliceW sv i iw = some inner) (h2 : sliceW inner o w = some r) :
    sliceW sv (o + i) w = some r := by
  rw [sliceW] at h1 h2
  split at h1
  case isFalse => exact absurd h1 (by simp)
  case isTrue hb1 =>
    cases Option.some_inj.mp h1
    split at h2
    case isFalse => exact absurd h2 (by simp)
    case isTrue hb2 =>
      cases Option.some_inj.mp h2
      have hlen : (((sv.drop i).take iw)).length = iw := by
        rw [List.length_take, List.length_drop]
        omega
      rw [hlen] at hb2
      rw [sliceW, if_pos (by omega)]
      congr 1
      rw [List.drop_take, List.take_take, List.drop_drop,
        Nat.min_eq_left (by omega), Nat.add_comm o i]

theorem sliceW_full (a : BitStr) : sliceW a 0 a.length = some a := by
  rw [sliceW, if_pos (by omega), List.drop_zero, List.take_length]

theorem concat_slices (sv : BitStr) (l lw hw : Nat) (x y : BitStr)
    (hx : sliceW sv l lw = some x) (hy : sliceW sv (l + lw) hw = some y) :
    sliceW sv l (lw + hw) = some (x ++ y) := by
  rw [sliceW] at hx hy
  split at hx
  case isFalse => exact absurd hx (by simp)
  case isTrue hb1 =>
    cases Option.some_inj.mp hx
    split at hy
    case isFalse => exact absurd hy (by simp)
    case isTrue hb2 =>
      cases Option.some_inj.mp hy
      rw [sliceW, if_pos (by omega)]
      congr 1
      rw [List.take_add]
      congr 1
      rw [List.drop_drop]

end BitStr

theorem evalE_args1 (env : Nat → BitStr) (k : Kind) (a : Expr) :
    evalE env (.opE k [a])
      = (evalE env a).bind (fun av =>
          (opEval k [av]).bind (fun r =>
            if r.length = (Expr.opE k [a]).width then some r else none)) := by
  cases hav : evalE env a with
  | none => simp [evalE, evalL, hav]
  | some av => simp [evalE, evalL, hav]

theorem evalE_args2 (env : Nat → BitStr) (k : Kind) (a b : Expr) :
    evalE env (.opE k [a, b])
      = (evalE env a).bind (fun av => (evalE env b).bind (fun bv =>
          (opEval k [av, bv]).bind (fun r =>
            if r.length = (Expr.opE k [a, b]).width then some r
            else none))) := by
  cases hav : evalE env a with
  | none => simp [evalE, evalL, hav]
  | some av =>
      cases hbv : evalE env b with
      | none => simp [evalE, evalL, hav, hbv]
      | some bv => simp [evalE, evalL, hav, hbv]

theorem evalE_slice3 (env : Nat → BitStr) (a b c : Expr) :
    evalE env (.opE .Slice [a, b, c])
      = (evalE env a).bind (fun av => (evalE env b).bind (fun bv =>
          (evalE env c).bind (fun cv =>
            (opEval .Slice [av, bv, cv]).bind (fun r =>
              if r.length = (Expr.opE .Slice [a, b, c]).width then some r
              else none)))) := by
  cases hav : evalE env a with
  | none => simp [evalE, evalL, hav]
  | some av =>
      cases hbv : evalE env b with
      | none => simp [evalE, evalL, hav, hbv]
      | some bv =>
          cases hcv : evalE env c with
          | none => simp [evalE, evalL, hav, hbv, hcv]
          | some cv => simp [evalE, evalL, hav, hbv, hcv]

theorem evalE_select3 (env : Nat → BitStr) (c t e2 : Expr) :
    evalE env (.opE .Select [c, t, e2])
      = (evalE env c).bind (fun cv =>
          if cv.length = 0 then none
          else (if cv.headD false then evalE env t else evalE env e2).bind
            (fun r =>
              if r.length = (Expr.opE .Select [c, t, e2]).width then some r
              else none)) := by
  cases hcv : evalE env c with
  | none => simp [evalE, hcv]
  | some cv =>
      rcases cv with _ | ⟨b, cvt⟩
      · simp [evalE, hcv]
      · cases b
        · cases hev : evalE env e2 with
          | none => simp [evalE, hcv, hev]
          | some ev => simp [evalE, hcv, hev]
        · cases htv : evalE env t with
          | none => simp [evalE, hcv, htv]
          | some tv => simp [evalE, hcv, htv]

theorem widthsB_op {k : Kind} {args : List Expr}
    (h : widthsB (.opE k args) = true) :
    (Expr.opE k args).width < 2 ^ 64 ∧ widthsL args = true := by
  rw [widthsB, Bool.and_eq_true, decide_eq_true_iff] at h
  exact h

theorem widthsB_op_intro {k : Kind} {args : List Expr}
    (h1 : (Expr.opE k args).width < 2 ^ 64) (h2 : widthsL args = true) :
    widthsB (.opE k args) = true := by
  rw [widthsB, Bool.and_eq_true, decide_eq_true_iff]
  exact ⟨h1, h2⟩

theorem envWFB_op {env : Nat → BitStr} {k : Kind} {args : List Expr}
    (h : envWFB env (.opE k args) = true) : envWFL env args = true := h

theorem widthsL2 {a b : Expr} (h : widthsL [a, b] = true) :
    widthsB a = true ∧ widthsB b = true := by
  rw [widthsL, widthsL, widthsL, Bool.and_true, Bool.and_eq_true] at h
  exact h

theorem widthsL2_intro {a b : Expr} (ha : widthsB a = true)
    (hb : widthsB b = true) : widthsL [a, b] = true := by
  rw [widthsL, widthsL, widthsL, Bool.and_true, ha, hb]
  rfl

theorem widthsL3 {a b c : Expr} (h : widthsL [a, b, c] = true) :
    widthsB a = true ∧ widthsB b = true ∧ widthsB c = true := by
  rw [widthsL, widthsL, widthsL, widthsL, Bool.and_true, Bool.and_eq_true,
    Bool.and_eq_true] at h
  exact h

theorem widthsL3_intro {a b c : Expr} (ha : widthsB a = true)
    (hb : widthsB b = true) (hc : widthsB c = true) :
    widthsL [a, b, c] = true := by
  rw [widthsL, widthsL, widthsL, widthsL, Bool.and_true, ha, hb, hc]
  rfl

theorem widthsL1 {a : Expr} (h : widthsL [a] = true) : widthsB a = true := by
  rw [widthsL, widthsL, Bool.and_true] at h
  exact h

theorem envWFL2 {env : Nat → BitStr} {a b : Expr}
    (h : envWFL env [a, b] = true) :
    envWFB env a = true ∧ envWFB env b = true := by
  rw [envWFL, envWFL, envWFL, Bool.and_true, Bool.and_eq_true] at h
  exact h

theorem envWFL2_intro {env : Nat → BitStr} {a b : Expr}
    (ha : envWFB env a = true) (hb : envWFB env b = true) :
    envWFL env [a, b] = true := by
  rw [envWFL, envWFL, envWFL, Bool.and_true, ha, hb]
  rfl

theorem envWFL3 {env : Nat → BitStr} {a b c : Expr}
    (h : envWFL env [a, b, c] = true) :
    envWFB env a = true ∧ envWFB env b = true ∧ envWFB env c = true := by
  rw [envWFL, envWFL, envWFL, envWFL, Bool.and_true, Bool.and_eq_true,
    Bool.and_eq_true] at h
  exact h

theorem envWFL3_intro {env : Nat → BitStr} {a b c : Expr}
    (ha : envWFB env a = true) (hb : envWFB env b = true)
    (hc : envWFB env c = true) : envWFL env [a, b, c] = true := by
  rw [envWFL, envWFL, envWFL, envWFL, Bool.and_true, ha, hb, hc]
  rfl

theorem envWFL1 {env : Nat → BitStr} {a : Expr}
    (h : envWFL env [a] = true) : envWFB env a = true := by
  rw [envWFL, envWFL, Bool.and_true] at h
  exact h

theorem eval2_dissect {env : Nat → BitStr} {k : Kind} {a b : Expr}
    {r : BitStr} (hv : evalE env (.opE k [a, b]) = some r) :
    ∃ av bv, evalE env a = some av ∧ evalE env b = some bv
      ∧ opEval k [av, bv] = some r
      ∧ r.length = (Expr.opE k [a, b]).width := by
  rw [evalE_args2] at hv
  simp only [Option.bind_eq_some] at hv
  obtain ⟨av, hav, bv, hbv, r2, hr2, hfin⟩ := hv
  split at hfin
  · cases Option.some_inj.mp hfin
    exact ⟨av, bv, hav, hbv, hr2, by assumption⟩
  · exact absurd hfin (by simp)

theorem eval2_intro {env : Nat → BitStr} {k : Kind} {a b : Expr}
    {av bv r : BitStr} (hav : evalE env a = some av)
    (hbv : evalE env b = some bv) (hop : opEval k [av, bv] = some r)
    (hlen : r.length = (Expr.opE k [a, b]).width) :
    evalE env (.opE k [a, b]) = some r := by
  rw [evalE_args2, hav, hbv]
  simp [hop, hlen]

theorem eval1_dissect {env : Nat → BitStr} {k : Kind} {a : Expr}
    {r : BitStr} (hv : evalE env (.opE k [a]) = some r) :
    ∃ av, evalE env a = some av ∧ opEval k [av] = some r
      ∧ r.length = (Expr.opE k [a]).width := by
  rw [evalE_args1] at hv
  simp only [Option.bind_eq_some] at hv
  obtain ⟨av, hav, r2, hr2, hfin⟩ := hv
  split at hfin
  · cases Option.some_inj.mp hfin
    exact ⟨av, hav, hr2, by assumption⟩
  · exact absurd hfin (by simp)

theorem eval1_intro {env : Nat → BitStr} {k : Kind} {a : Expr}
    {av r : BitStr} (hav : evalE env a = some av)
    (hop : opEval k [av] = some r)
    (hlen : r.length = (Expr.opE k [a]).width) :
    evalE env (.opE k [a]) = some r := by
  rw [evalE_args1, hav]
  simp [hop, hlen]

theorem eval_slice_dissect {env : Nat → BitStr} {a b c : Expr}
    {r : BitStr} (hv : evalE env (.opE .Slice [a, b, c]) = some r) :
    ∃ av bv cv, evalE env a = some av ∧ evalE env b = some bv
      ∧ evalE env c = some cv
      ∧ BitStr.sliceW av (BitStr.asUint64 bv) (BitStr.asUint64 cv) = some r
      ∧ r.length = (Expr.opE .Slice [a, b, c]).width := by
  rw [evalE_slice3] at hv
  simp only [Option.bind_eq_some] at hv
  obtain ⟨av, hav, bv, hbv, cv, hcv, r2, hr2, hfin⟩ := hv
  split at hfin
  · cases Option.some_inj.mp hfin
    rw [opEval] at hr2
    exact ⟨av, bv, cv, hav, hbv, hcv, hr2, by assumption⟩
  · exact absurd hfin (by simp)

theorem eval_slice_intro {env : Nat → BitStr} {a b c : Expr}
    {av bv cv r : BitStr} (hav : evalE env a = some av)
    (hbv : evalE env b = some bv) (hcv : evalE env c = some cv)
    (hop : BitStr.sliceW av (BitStr.asUint64 bv) (BitStr.asUint64 cv)
      = some r)
    (hlen : r.length = (Expr.opE .Slice [a, b, c]).width) :
    evalE env (.opE .Slice [a, b, c]) = some r := by
  rw [evalE_slice3, hav, hbv, hcv]
  simp only [Option.some_bind, opEval]
  rw [hop]
  simp [hlen]

theorem widthsB_self {e : Expr} (h : widthsB e = true) :
    e.width < 2 ^ 64 := by
  cases e with
  | leaf i w => rw [widthsB, decide_eq_true_iff] at h; exact h
  | constE v => rw [widthsB, decide_eq_true_iff] at h; exact h
  | unknownE i w => rw [widthsB, decide_eq_true_iff] at h; exact h
  | opE k args => exact (widthsB_op h).1

theorem evalE_const (env : Nat → BitStr) (v : BitStr) :
    evalE env (.constE v) = some v := rfl

theorem evalL_const (env : Nat → BitStr) :
    ∀ args : List Expr, args.all isConstE = true →
      evalL env args = some (args.map constValD)
  | [], _ => rfl
  | e :: es, h => by
      rw [List.all_cons, Bool.and_eq_true] at h
      have he : ∃ v, e = .constE v := by
        cases e with
        | constE v => exact ⟨v, rfl⟩
        | leaf i w => exact absurd h.1 (by simp [isConstE])
        | unknownE i w => exact absurd h.1 (by simp [isConstE])
        | opE k args => exact absurd h.1 (by simp [isConstE])
      obtain ⟨v, hv⟩ := he
      subst hv
      rw [evalL, evalE_const]
      rw [evalL_const env es h.2]
      rfl

namespace BitStr

theorem bnot_bnot (a : BitStr) : bnot (bnot a) = a := by
  rw [bnot, bnot, List.map_map]
  have : ((fun x => !x) ∘ fun x => !x) = id := by
    funext x
    cases x <;> rfl
  rw [this, List.map_id]

theorem bandChecked_some {a b r : BitStr} (h : bandChecked a b = some r) :
    a.length = b.length ∧ r = band a b := by
  rw [bandChecked] at h
  split at h
  · exact ⟨by assumption, (Option.some_inj.mp h).symm⟩
  · exact absurd h (by simp)

theorem borChecked_some {a b r : BitStr} (h : borChecked a b = some r) :
    a.length = b.length ∧ r = bor a b := by
  rw [borChecked] at h
  split at h
  · exact ⟨by assumption, (Option.some_inj.mp h).symm⟩
  · exact absurd h (by simp)

theorem bxorChecked_some {a b r : BitStr} (h : bxorChecked a b = some r) :
    a.length = b.length ∧ r = bxor a b := by
  rw [bxorChecked] at h
  split at h
  · exact ⟨by assumption, (Option.some_inj.mp h).symm⟩
  · exact absurd h (by simp)

theorem addChecked_some {a b r : BitStr} (h : addChecked a b = some r) :
    a.length = b.length ∧ r = add a b := by
  rw [addChecked] at h
  split at h
  · exact ⟨by assumption, (Option.some_inj.mp h).symm⟩
  · exact absurd h (by simp)

theorem subChecked_some {a b r : BitStr} (h : subChecked a b = some r) :
    a.length = b.length ∧ r = sub a b := by
  rw [subChecked] at h
  split at h
  · exact ⟨by assumption, (Option.some_inj.mp h).symm⟩
  · exact absurd h (by simp)

theorem ltUChecked_some {a b : BitStr} {x : Bool}
    (h : ltUChecked a b = some x) : a.length = b.length ∧ x = ltU a b := by
  rw [ltUChecked] at h
  split at h
  · exact ⟨by assumption, (Option.some_inj.mp h).symm⟩
  · exact absurd h (by simp)

theorem ltSChecked_some {a b : BitStr} {x : Bool}
    (h : ltSChecked a b = some x) : a.length = b.length ∧ x = ltS a b := by
  rw [ltSChecked] at h
  split at h
  · exact ⟨by assumption, (Option.some_inj.mp h).symm⟩
  · exact absurd h (by simp)

theorem leUChecked_some {a b : BitStr} {x : Bool}
    (h : leUChecked a b = some x) : a.length = b.length ∧ x = leU a b := by
  rw [leUChecked] at h
  split at h
  · exact ⟨by assumption, (Option.some_inj.mp h).symm⟩
  · exact absurd h (by simp)

theorem leSChecked_some {a b : BitStr} {x : Bool}
    (h : leSChecked a b = some x) : a.length = b.length ∧ x = leS a b := by
  rw [leSChecked] at h
  split at h
  · exact ⟨by assumption, (Option.some_inj.mp h).symm⟩
  · exact absurd h (by simp)

theorem mapFromBool_some {o : Option Bool} {r : BitStr}
    (h : o.map fromBool = some r) : ∃ x, o = some x ∧ r = [x] := by
  cases o with
  | none => exact absurd h (by simp)
  | some x =>
      refine ⟨x, rfl, ?_⟩
      have := Option.some_inj.mp h
      rw [← this]
      rfl

theorem leU_zero_left {c b : BitStr} (hz : isZero c = true)
    (hl : c.length = b.length) : leU c b = true := by
  rw [leU]
  by_cases hb : toNat b = 0
  · have hbc : b = c := by
      rw [all_false_eq_replicate hz, all_false_eq_replicate
        ((isZero_iff b).mpr hb), hl]
    rw [hbc, beq_self, Bool.or_true]
  · have hlt : ltU c b = true := by
      rw [ltU, (isZero_iff c).mp hz]
      simpa using Nat.pos_of_ne_zero hb
    rw [hlt, Bool.true_or]

theorem beq_singleton_zero (x : Bool) : beq [false] [x] = !x := by
  cases x <;> rfl

theorem beq_singleton_one (x : Bool) : beq [true] [x] = x := by
  cases x <;> rfl

theorem asUint64_lt (a : BitStr) : asUint64 a < 2 ^ 64 := by
  rw [asUint64]
  have h := toNat_lt (a.take 64)
  have hle : (a.take 64).length ≤ 64 := by
    rw [List.length_take]
    omega
  exact Nat.lt_of_lt_of_le h (Nat.pow_le_pow_right (by omega) hle)

theorem asUint64_ofNat64 (n : Nat) : asUint64 (ofNat 64 n) = n % 2 ^ 64 := by
  rw [asUint64]
  rw [List.take_of_length_le (by rw [length_ofNat])]
  exact toNat_ofNat 64 n

theorem single_of_length_one {c : BitStr} (h : c.length = 1) :
    ∃ x, c = [x] := by
  cases c with
  | nil => exact absurd h (by simp)
  | cons x rest =>
      refine ⟨x, ?_⟩
      rw [List.length_cons] at h
      rw [List.length_eq_zero.mp (by omega : rest.length = 0)]

theorem isZero_singleton (x : Bool) : isZero [x] = !x := by
  cases x <;> rfl

end BitStr

/-- `asUint64` of `from_uint<uint64_t>` round trip. -/
theorem asUint64_fromUint64 (n : Nat) :
    BitStr.asUint64 (fromUint64 n) = n % 2 ^ 64 :=
  BitStr.asUint64_ofNat64 n

theorem const_args_shape {args : List Expr} (hall : args.all isConstE = true) :
    ∀ e ∈ args, ∃ v, e = .constE v := by
  intro e he
  have h1 : isConstE e = true := by
    rw [List.all_eq_true] at hall
    exact hall e he
  cases e with
  | constE v => exact ⟨v, rfl⟩
  | leaf i w => exact absurd h1 (by simp [isConstE])
  | unknownE i w => exact absurd h1 (by simp [isConstE])
  | opE k args2 => exact absurd h1 (by simp [isConstE])

/-- Constant folding agrees with the simulator: when every argument is a
`Constant` and `Op::eval` folds to `v`, any successful simulation of the
node yields `v`. -/
theorem const_fold_correct (env : Nat → BitStr) (k : Kind)
    (args : List Expr) (v r : BitStr)
    (hall : args.all isConstE = true)
    (hop : opEval k (args.map constValD) = some v)
    (hv : evalE env (.opE k args) = some r) : r = v := by
  cases k <;>
    first
    | (simp [evalE] at hv
       simp only [Option.bind_eq_some] at hv
       obtain ⟨vs, hvs, r2, hr2, hfin⟩ := hv
       rw [evalL_const env args hall] at hvs
       cases Option.some_inj.mp hvs
       rw [hop] at hr2
       cases Option.some_inj.mp hr2
       split at hfin
       · exact (Option.some_inj.mp hfin).symm
       · exact absurd hfin (by simp))
    | (rcases args with _ | ⟨a0, _ | ⟨a1, _ | ⟨a2, _ | ⟨a3, rest⟩⟩⟩⟩ <;>
        first
        | (simp [evalE] at hv
           simp only [Option.bind_eq_some] at hv
           obtain ⟨vs, hvs, r2, hr2, hfin⟩ := hv
           rw [evalL_const env _ hall] at hvs
           cases Option.some_inj.mp hvs
           rw [hop] at hr2
           cases Option.some_inj.mp hr2
           split at hfin
           · exact (Option.some_inj.mp hfin).symm
           · exact absurd hfin (by simp))
        | (obtain ⟨c0, h0⟩ := const_args_shape hall a0 (by simp)
           obtain ⟨c1, h1⟩ := const_args_shape hall a1 (by simp)
           obtain ⟨c2, h2⟩ := const_args_shape hall a2 (by simp)
           subst h0
           subst h1
           subst h2
           rw [evalE_select3, evalE_const, Option.some_bind] at hv
           rw [show (([Expr.constE c0, Expr.constE c1,
               Expr.constE c2].map constValD)) = [c0, c1, c2] from rfl,
             opEval] at hop
           split at hv
           · exact absurd hv (by simp)
           · split at hop
             · exact absurd hop (by simp)
             · cases Option.some_inj.mp hop
               split at hv
               · rw [evalE_const, Option.some_bind] at hv
                 split at hv
                 · rename_i hhd hchk
                   cases Option.some_inj.mp hv
                   rw [if_pos hhd]
                 · exact absurd hv (by simp)
               · rw [evalE_const, Option.some_bind] at hv
                 split at hv
                 · rename_i hhd hchk
                   cases Option.some_inj.mp hv
                   rw [if_neg hhd]
                 · exact absurd hv (by simp)))

theorem BitStr.sliceW_some {a : BitStr} {o w : Nat} {r : BitStr}
    (h : BitStr.sliceW a o w = some r) :
    o + w ≤ a.length ∧ r = (a.drop o).take w := by
  rw [BitStr.sliceW] at h
  split at h
  · exact ⟨by assumption, (Option.some_inj.mp h).symm⟩
  · exact absurd h (by simp)

theorem BitStr.concatB_eq (a b : BitStr) : BitStr.concatB a b = b ++ a := rfl

theorem eval_select_dissect {env : Nat → BitStr} {c t e2 : Expr}
    {r : BitStr} (hv : evalE env (.opE .Select [c, t, e2]) = some r) :
    ∃ cv, evalE env c = some cv ∧ cv.length ≠ 0
      ∧ r.length = (Expr.opE .Select [c, t, e2]).width
      ∧ ((cv.headD false = true ∧ evalE env t = some r)
        ∨ (cv.headD false = false ∧ evalE env e2 = some r)) := by
  rw [evalE_select3] at hv
  simp only [Option.bind_eq_some] at hv
  obtain ⟨cv, hcv, rest⟩ := hv
  split at rest
  · exact absurd rest (by simp)
  · simp only [Option.bind_eq_some] at rest
    obtain ⟨r2, hr2, hfin⟩ := rest
    split at hfin
    · cases Option.some_inj.mp hfin
      split at hr2
      · exact ⟨cv, hcv, by assumption, by assumption,
          Or.inl ⟨by assumption, hr2⟩⟩
      · refine ⟨cv, hcv, by assumption, by assumption,
          Or.inr ⟨?_, hr2⟩⟩
        rename_i hhd
        rw [Bool.not_eq_true] at hhd
        exact hhd
    · exact absurd hfin (by simp)

theorem eval_select_intro {env : Nat → BitStr} {c t e2 : Expr}
    {cv r : BitStr} (hcv : evalE env c = some cv) (hne : cv.length ≠ 0)
    (hlen : r.length = (Expr.opE .Select [c, t, e2]).width)
    (hbr : (cv.headD false = true ∧ evalE env t = some r)
      ∨ (cv.headD false = false ∧ evalE env e2 = some r)) :
    evalE env (.opE .Select [c, t, e2]) = some r := by
  rw [evalE_select3, hcv, Option.some_bind, if_neg hne]
  rcases hbr with ⟨hhd, hval⟩ | ⟨hhd, hval⟩
  · rw [if_pos hhd, hval, Option.some_bind, if_pos hlen]
  · rw [if_neg (by rw [hhd]; exact Bool.false_ne_true), hval,
      Option.some_bind, if_pos hlen]


set_option maxHeartbeats 2000000 in
theorem buildStep_preserve (env : Nat → BitStr)
    (rec : Kind → List Expr → OpResult)
    (hrec : ∀ k args e r, rec k args = .ok e →
      widthsB (.opE k args) = true → envWFB env (.opE k args) = true →
      evalE env (.opE k args) = some r →
      evalE env e = some r ∧ widthsB e = true ∧ envWFB env e = true) :
    ∀ k args e r, buildStep rec k args = .ok e →
      widthsB (.opE k args) = true →
      envWFB env (.opE k args) = true →
      evalE env (.opE k args) = some r →
      evalE env e = some r ∧ widthsB e = true ∧ envWFB env e = true := by
  intro k args e r hb hW hE hv
  rw [buildStep.eq_def] at hb
  split at hb
  · cases hb
  · rename_i w0 hinf
    split at hb
    · rename_i hall
      split at hb
      · rename_i v hopv
        injection hb with he
        subst he
        have hr : r = v := const_fold_correct env k args v r hall hopv hv
        subst hr
        refine ⟨evalE_const env r, ?_, rfl⟩
        rw [widthsB, decide_eq_true_iff]
        rw [eval_op_width env k args r hv]
        exact (widthsB_op hW).1
      · cases hb
    · rename_i hnall
      split at hb
      · -- And
        rename_i a b
        split at hb
        · rename_i hab
          injection hb with he
          subst he
          have heq := (exprEq_iff a b).mp hab
          subst heq
          obtain ⟨av, av2, hav, hav2, hop, hlen⟩ := eval2_dissect hv
          rw [hav] at hav2
          cases Option.some_inj.mp hav2
          rw [opEval] at hop
          obtain ⟨hl, hr⟩ := BitStr.bandChecked_some hop
          rw [BitStr.band_self] at hr
          subst hr
          exact ⟨hav, (widthsL2 (widthsB_op hW).2).1,
            (envWFL2 (envWFB_op hE)).1⟩
        · rename_i hne
          split at hb
          · rename_i c
            split at hb
            · rename_i hz
              injection hb with he
              subst he
              obtain ⟨av, bv, hav, hbv, hop, hlen⟩ := eval2_dissect hv
              rw [evalE_const] at hav
              cases Option.some_inj.mp hav
              rw [opEval] at hop
              obtain ⟨hl, hr⟩ := BitStr.bandChecked_some hop
              rw [BitStr.band_zero_left hz hl] at hr
              subst hr
              exact ⟨evalE_const env _, (widthsL2 (widthsB_op hW).2).1, rfl⟩
            · split at hb
              · rename_i hnz ho
                injection hb with he
                subst he
                obtain ⟨av, bv, hav, hbv, hop, hlen⟩ := eval2_dissect hv
                rw [evalE_const] at hav
                cases Option.some_inj.mp hav
                rw [opEval] at hop
                obtain ⟨hl, hr⟩ := BitStr.bandChecked_some hop
                rw [BitStr.band_ones_left ho hl] at hr
                subst hr
                exact ⟨hbv, (widthsL2 (widthsB_op hW).2).2,
                  (envWFL2 (envWFB_op hE)).2⟩
              · injection hb with he
                subst he
                exact ⟨hv, hW, hE⟩
          · injection hb with he
            subst he
            exact ⟨hv, hW, hE⟩
      · -- Or
        rename_i a b
        split at hb
        · rename_i hab
          injection hb with he
          subst he
          have heq := (exprEq_iff a b).mp hab
          subst heq
          obtain ⟨av, av2, hav, hav2, hop, hlen⟩ := eval2_dissect hv
          rw [hav] at hav2
          cases Option.some_inj.mp hav2
          rw [opEval] at hop
          obtain ⟨hl, hr⟩ := BitStr.borChecked_some hop
          rw [BitStr.bor_self] at hr
          subst hr
          exact ⟨hav, (widthsL2 (widthsB_op hW).2).1,
            (envWFL2 (envWFB_op hE)).1⟩
        · rename_i hne
          split at hb
          · rename_i c
            split at hb
            · rename_i hz
              injection hb with he
              subst he
              obtain ⟨av, bv, hav, hbv, hop, hlen⟩ := eval2_dissect hv
              rw [evalE_const] at hav
              cases Option.some_inj.mp hav
              rw [opEval] at hop
              obtain ⟨hl, hr⟩ := BitStr.borChecked_some hop
              rw [BitStr.bor_zero_left hz hl] at hr
              subst hr
              exact ⟨hbv, (widthsL2 (widthsB_op hW).2).2,
                (envWFL2 (envWFB_op hE)).2⟩
            · split at hb
              · rename_i hnz ho
                injection hb with he
                subst he
                obtain ⟨av, bv, hav, hbv, hop, hlen⟩ := eval2_dissect hv
                rw [evalE_const] at hav
                cases Option.some_inj.mp hav
                rw [opEval] at hop
                obtain ⟨hl, hr⟩ := BitStr.borChecked_some hop
                rw [BitStr.bor_ones_left ho hl] at hr
                subst hr
                exact ⟨evalE_const env _, (widthsL2 (widthsB_op hW).2).1, rfl⟩
              · injection hb with he
                subst he
                exact ⟨hv, hW, hE⟩
          · injection hb with he
            subst he
            exact ⟨hv, hW, hE⟩
      · -- Xor
        rename_i a b
        split at hb
        · rename_i hab
          injection hb with he
          subst he
          have heq := (exprEq_iff a b).mp hab
          subst heq
          obtain ⟨av, av2, hav, hav2, hop, hlen⟩ := eval2_dissect hv
          rw [hav] at hav2
          cases Option.some_inj.mp hav2
          rw [opEval] at hop
          obtain ⟨hl, hr⟩ := BitStr.bxorChecked_some hop
          rw [BitStr.bxor_self] at hr
          have hlav : av.length = a.width :=
            eval_length env a av (envWFL2 (envWFB_op hE)).1 hav
          rw [hlav] at hr
          subst hr
          refine ⟨evalE_const env _, ?_, rfl⟩
          rw [widthsB, decide_eq_true_iff, List.length_replicate]
          exact widthsB_self (widthsL2 (widthsB_op hW).2).1
        · rename_i hne
          split at hb
          · rename_i c
            split at hb
            · rename_i hz
              injection hb with he
              subst he
              obtain ⟨av, bv, hav, hbv, hop, hlen⟩ := eval2_dissect hv
              rw [evalE_const] at hav
              cases Option.some_inj.mp hav
              rw [opEval] at hop
              obtain ⟨hl, hr⟩ := BitStr.bxorChecked_some hop
              rw [BitStr.bxor_zero_left hz hl] at hr
              subst hr
              exact ⟨hbv, (widthsL2 (widthsB_op hW).2).2,
                (envWFL2 (envWFB_op hE)).2⟩
            · split at hb
              · rename_i hnz ho
                obtain ⟨av, bv, hav, hbv, hop, hlen⟩ := eval2_dissect hv
                rw [evalE_const] at hav
                cases Option.some_inj.mp hav
                rw [opEval] at hop
                obtain ⟨hl, hr⟩ := BitStr.bxorChecked_some hop
                rw [BitStr.bxor_ones_left ho hl] at hr
                have hbl : bv.length = b.width :=
                  eval_length env b bv (envWFL2 (envWFB_op hE)).2 hbv
                have hrb : r.length = b.width := by
                  rw [hr, BitStr.bnot, List.length_map, hbl]
                have hvnot : evalE env (.opE .Not [b]) = some r := by
                  refine eval1_intro hbv ?_ ?_
                  · rw [opEval, hr]
                  · rw [hrb]
                    rfl
                have hWn : widthsB (.opE .Not [b]) = true := by
                  refine widthsB_op_intro ?_ ?_
                  · show b.width < 2 ^ 64
                    exact widthsB_self (widthsL2 (widthsB_op hW).2).2
                  · rw [widthsL, widthsL, Bool.and_true]
                    exact (widthsL2 (widthsB_op hW).2).2
                have hEn : envWFB env (.opE .Not [b]) = true := by
                  show envWFL env [b] = true
                  rw [envWFL, envWFL, Bool.and_true]
                  exact (envWFL2 (envWFB_op hE)).2
                exact hrec .Not [b] e r hb hWn hEn hvnot
              · injection hb with he
                subst he
                exact ⟨hv, hW, hE⟩
          · injection hb with he
            subst he
            exact ⟨hv, hW, hE⟩
      · -- Not
        rename_i a
        split at hb
        · rename_i x
          injection hb with he
          subst he
          obtain ⟨av, hav, hop, hlen⟩ := eval1_dissect hv
          rw [opEval] at hop
          cases Option.some_inj.mp hop
          obtain ⟨xv, hxv, hop2, hlen2⟩ := eval1_dissect hav
          rw [opEval] at hop2
          cases Option.some_inj.mp hop2
          rw [BitStr.bnot_bnot]
          have hwx : widthsB x = true :=
            widthsL1 (widthsB_op (widthsL1 (widthsB_op hW).2)).2
          have hex : envWFB env x = true :=
            envWFL1 (envWFB_op (envWFL1 (envWFB_op hE)))
          exact ⟨hxv, hwx, hex⟩
        · injection hb with he
          subst he
          exact ⟨hv, hW, hE⟩
      · -- Add
        rename_i a b
        split at hb
        · rename_i c
          split at hb
          · rename_i hz
            cases hb
            obtain ⟨av, bv, hav, hbv, hop, hlen⟩ := eval2_dissect hv
            rw [evalE_const] at hav
            cases Option.some_inj.mp hav
            rw [opEval] at hop
            obtain ⟨hl, hr⟩ := BitStr.addChecked_some hop
            rw [BitStr.add_zero_left hz hl] at hr
            subst hr
            exact ⟨hbv, (widthsL2 (widthsB_op hW).2).2,
              (envWFL2 (envWFB_op hE)).2⟩
          · injection hb with he
            subst he
            exact ⟨hv, hW, hE⟩
        · injection hb with he
          subst he
          exact ⟨hv, hW, hE⟩
      · -- Sub
        rename_i a b
        split at hb
        · rename_i hab
          injection hb with he
          subst he
          have heq := (exprEq_iff a b).mp hab
          subst heq
          obtain ⟨av, av2, hav, hav2, hop, hlen⟩ := eval2_dissect hv
          rw [hav] at hav2
          cases Option.some_inj.mp hav2
          rw [opEval] at hop
          obtain ⟨hl, hr⟩ := BitStr.subChecked_some hop
          rw [BitStr.sub_self_zero] at hr
          have hlav : av.length = a.width :=
            eval_length env a av (envWFL2 (envWFB_op hE)).1 hav
          rw [hlav] at hr
          subst hr
          refine ⟨evalE_const env _, ?_, rfl⟩
          rw [widthsB, decide_eq_true_iff, List.length_replicate]
          exact widthsB_self (widthsL2 (widthsB_op hW).2).1
        · rename_i hne
          split at hb
          · rename_i c
            split at hb
            · rename_i hz
              injection hb with he
              subst he
              obtain ⟨av, bv, hav, hbv, hop, hlen⟩ := eval2_dissect hv
              rw [evalE_const] at hbv
              cases Option.some_inj.mp hbv
              rw [opEval] at hop
              obtain ⟨hl, hr⟩ := BitStr.subChecked_some hop
              rw [BitStr.sub_zero_right hz hl] at hr
              subst hr
              exact ⟨hav, (widthsL2 (widthsB_op hW).2).1,
                (envWFL2 (envWFB_op hE)).1⟩
            · injection hb with he
              subst he
              exact ⟨hv, hW, hE⟩
          · injection hb with he
            subst he
            exact ⟨hv, hW, hE⟩
      · -- Mul
        injection hb with he
        subst he
        exact ⟨hv, hW, hE⟩
      · -- Eq
        rename_i a b
        split at hb
        · rename_i hab
          injection hb with he
          subst he
          have heq := (exprEq_iff a b).mp hab
          subst heq
          obtain ⟨av, av2, hav, hav2, hop, hlen⟩ := eval2_dissect hv
          rw [hav] at hav2
          cases Option.some_inj.mp hav2
          rw [opEval] at hop
          cases Option.some_inj.mp hop
          rw [BitStr.beq_self]
          exact ⟨evalE_const env _, by rw [widthsB]; norm_num, rfl⟩
        · rename_i hne
          split at hb
          · rename_i hb1
            split at hb
            · rename_i c
              split at hb
              · rename_i hz
                have hab : (Expr.constE c).width = b.width := by
                  by_contra hne2
                  simp [inferWidthE, hne2] at hinf
                obtain ⟨av, bv, hav, hbv, hop, hlen⟩ := eval2_dissect hv
                rw [evalE_const] at hav
                cases Option.some_inj.mp hav
                rw [opEval] at hop
                cases Option.some_inj.mp hop
                have hbl : bv.length = b.width :=
                  eval_length env b bv (envWFL2 (envWFB_op hE)).2 hbv
                obtain ⟨x, hx⟩ := BitStr.single_of_length_one
                  (by rw [hbl, hb1] : bv.length = 1)
                have hcl : c.length = 1 := by
                  have : (Expr.constE c).width = c.length := rfl
                  rw [← this, hab, hb1]
                obtain ⟨y, hy⟩ := BitStr.single_of_length_one hcl
                subst hx
                subst hy
                have hyf : y = false := by
                  have := BitStr.isZero_singleton y
                  rw [hz] at this
                  cases y
                  · rfl
                  · exact absurd this.symm (by simp)
                subst hyf
                have hvnot : evalE env (.opE .Not [b]) = some [BitStr.beq [false] [x]] := by
                  refine eval1_intro hbv ?_ ?_
                  · rw [opEval, BitStr.beq_singleton_zero]
                    rfl
                  · show 1 = b.width
                    rw [← hb1]
                have hWn : widthsB (.opE .Not [b]) = true := by
                  refine widthsB_op_intro ?_ ?_
                  · show b.width < 2 ^ 64
                    exact widthsB_self (widthsL2 (widthsB_op hW).2).2
                  · rw [widthsL, widthsL, Bool.and_true]
                    exact (widthsL2 (widthsB_op hW).2).2
                have hEn : envWFB env (.opE .Not [b]) = true := by
                  show envWFL env [b] = true
                  rw [envWFL, envWFL, Bool.and_true]
                  exact (envWFL2 (envWFB_op hE)).2
                exact hrec .Not [b] e _ hb hWn hEn hvnot
              · rename_i hnz
                injection hb with he
                subst he
                obtain ⟨av, bv, hav, hbv, hop, hlen⟩ := eval2_dissect hv
                rw [evalE_const] at hav
                cases Option.some_inj.mp hav
                rw [opEval] at hop
                cases Option.some_inj.mp hop
                have hab : (Expr.constE c).width = b.width := by
                  by_contra hne2
                  simp [inferWidthE, hne2] at hinf
                have hbl : bv.length = b.width :=
                  eval_length env b bv (envWFL2 (envWFB_op hE)).2 hbv
                obtain ⟨x, hx⟩ := BitStr.single_of_length_one
                  (by rw [hbl, hb1] : bv.length = 1)
                have hcl : c.length = 1 := by
                  have h2 : (Expr.constE c).width = c.length := rfl
                  rw [← h2, hab, hb1]
                obtain ⟨y, hy⟩ := BitStr.single_of_length_one hcl
                subst hx
                subst hy
                have hyt : y = true := by
                  have h3 := BitStr.isZero_singleton y
                  cases y
                  · rw [h3] at hnz
                    exact absurd rfl hnz
                  · rfl
                subst hyt
                rw [BitStr.beq_singleton_one]
                exact ⟨hbv, (widthsL2 (widthsB_op hW).2).2,
                  (envWFL2 (envWFB_op hE)).2⟩
            · injection hb with he
              subst he
              exact ⟨hv, hW, hE⟩
          · injection hb with he
            subst he
            exact ⟨hv, hW, hE⟩
      · -- LtU
        rename_i a b
        split at hb
        · rename_i hab
          injection hb with he
          subst he
          have heq := (exprEq_iff a b).mp hab
          subst heq
          obtain ⟨av, av2, hav, hav2, hop, hlen⟩ := eval2_dissect hv
          rw [hav] at hav2
          cases Option.some_inj.mp hav2
          rw [opEval] at hop
          obtain ⟨x, hx1, hx2⟩ := BitStr.mapFromBool_some hop
          obtain ⟨hl, hxv⟩ := BitStr.ltUChecked_some hx1
          rw [BitStr.ltU_self] at hxv
          subst hxv
          subst hx2
          exact ⟨evalE_const env _, by rw [widthsB]; norm_num, rfl⟩
        · rename_i hne
          split at hb
          · rename_i cb
            split at hb
            · rename_i hz
              injection hb with he
              subst he
              obtain ⟨av, bv, hav, hbv, hop, hlen⟩ := eval2_dissect hv
              rw [evalE_const] at hbv
              cases Option.some_inj.mp hbv
              rw [opEval] at hop
              obtain ⟨x, hx1, hx2⟩ := BitStr.mapFromBool_some hop
              obtain ⟨hl, hxv⟩ := BitStr.ltUChecked_some hx1
              rw [BitStr.ltU_zero_right hz] at hxv
              subst hxv
              subst hx2
              exact ⟨evalE_const env _, by rw [widthsB]; norm_num, rfl⟩
            · injection hb with he
              subst he
              exact ⟨hv, hW, hE⟩
          · injection hb with he
            subst he
            exact ⟨hv, hW, hE⟩
      · -- LtS
        rename_i a b
        split at hb
        · rename_i hab
          injection hb with he
          subst he
          have heq := (exprEq_iff a b).mp hab
          subst heq
          obtain ⟨av, av2, hav, hav2, hop, hlen⟩ := eval2_dissect hv
          rw [hav] at hav2
          cases Option.some_inj.mp hav2
          rw [opEval] at hop
          obtain ⟨x, hx1, hx2⟩ := BitStr.mapFromBool_some hop
          obtain ⟨hl, hxv⟩ := BitStr.ltSChecked_some hx1
          rw [BitStr.ltS_self] at hxv
          subst hxv
          subst hx2
          exact ⟨evalE_const env _, by rw [widthsB]; norm_num, rfl⟩
        · injection hb with he
          subst he
          exact ⟨hv, hW, hE⟩
      · -- LeU
        rename_i a b
        split at hb
        · rename_i hab
          injection hb with he
          subst he
          have heq := (exprEq_iff a b).mp hab
          subst heq
          obtain ⟨av, av2, hav, hav2, hop, hlen⟩ := eval2_dissect hv
          rw [hav] at hav2
          cases Option.some_inj.mp hav2
          rw [opEval] at hop
          obtain ⟨x, hx1, hx2⟩ := BitStr.mapFromBool_some hop
          obtain ⟨hl, hxv⟩ := BitStr.leUChecked_some hx1
          rw [BitStr.leU_self] at hxv
          subst hxv
          subst hx2
          exact ⟨evalE_const env _, by rw [widthsB]; norm_num, rfl⟩
        · rename_i hne
          split at hb
          · rename_i c
            split at hb
            · rename_i hz
              injection hb with he
              subst he
              obtain ⟨av, bv, hav, hbv, hop, hlen⟩ := eval2_dissect hv
              rw [evalE_const] at hav
              cases Option.some_inj.mp hav
              rw [opEval] at hop
              obtain ⟨x, hx1, hx2⟩ := BitStr.mapFromBool_some hop
              obtain ⟨hl, hxv⟩ := BitStr.leUChecked_some hx1
              rw [BitStr.leU_zero_left hz hl] at hxv
              subst hxv
              subst hx2
              exact ⟨evalE_const env _, by rw [widthsB]; norm_num, rfl⟩
            · injection hb with he
              subst he
              exact ⟨hv, hW, hE⟩
          · injection hb with he
            subst he
            exact ⟨hv, hW, hE⟩
      · -- LeS
        rename_i a b
        split at hb
        · rename_i hab
          injection hb with he
          subst he
          have heq := (exprEq_iff a b).mp hab
          subst heq
          obtain ⟨av, av2, hav, hav2, hop, hlen⟩ := eval2_dissect hv
          rw [hav] at hav2
          cases Option.some_inj.mp hav2
          rw [opEval] at hop
          obtain ⟨x, hx1, hx2⟩ := BitStr.mapFromBool_some hop
          obtain ⟨hl, hxv⟩ := BitStr.leSChecked_some hx1
          rw [BitStr.leS_self] at hxv
          subst hxv
          subst hx2
          exact ⟨evalE_const env _, by rw [widthsB]; norm_num, rfl⟩
        · injection hb with he
          subst he
          exact ⟨hv, hW, hE⟩
      · -- Concat
        rename_i hi lo
        split at hb
        · rename_i hs hOff hW2 ls lOff lW
          split at hb
          · rename_i heqs
            split at hb
            · rename_i lwv hwv
              split at hb
              · rename_i lov hov
                split at hb
                · rename_i hcont
                  have heq := (exprEq_iff hs ls).mp heqs
                  subst heq
                  obtain ⟨av, bv, hav, hbv, hop, hlen⟩ := eval2_dissect hv
                  rw [opEval] at hop
                  cases Option.some_inj.mp hop
                  obtain ⟨sv1, ovv1, wvv1, hs1, ho1, hw1, hslice1, hlen1⟩ :=
                    eval_slice_dissect hav
                  rw [evalE_const] at ho1
                  cases Option.some_inj.mp ho1
                  rw [evalE_const] at hw1
                  cases Option.some_inj.mp hw1
                  obtain ⟨sv2, ovv2, wvv2, hs2, ho2, hw2, hslice2, hlen2⟩ :=
                    eval_slice_dissect hbv
                  rw [evalE_const] at ho2
                  cases Option.some_inj.mp ho2
                  rw [evalE_const] at hw2
                  cases Option.some_inj.mp hw2
                  rw [hs1] at hs2
                  cases Option.some_inj.mp hs2
                  have hsw : widthsB hs = true :=
                    (widthsL3 (widthsB_op
                      ((widthsL2 (widthsB_op hW).2).2)).2).1
                  have hse : envWFB env hs = true :=
                    (envWFL3 (envWFB_op
                      ((envWFL2 (envWFB_op hE)).2))).1
                  have hsl : sv1.length = hs.width :=
                    eval_length env hs sv1 hse hs1
                  have hsub : sv1.length < 2 ^ 64 := by
                    rw [hsl]
                    exact widthsB_self hsw
                  have hbnd2 := (BitStr.sliceW_some hslice2).1
                  have hmod : BitStr.asUint64 lov + BitStr.asUint64 lwv
                      < 2 ^ 64 := by omega
                  have hcont2 : BitStr.asUint64 lov + BitStr.asUint64 lwv
                      = BitStr.asUint64 hov := by
                    rw [← hcont, Nat.mod_eq_of_lt hmod]
                  have hcs : BitStr.sliceW sv1 (BitStr.asUint64 lov)
                      (BitStr.asUint64 lwv + BitStr.asUint64 hwv)
                      = some (bv ++ av) := by
                    refine BitStr.concat_slices sv1 _ _ _ bv av hslice2 ?_
                    rw [hcont2]
                    exact hslice1
                  have hsum : BitStr.asUint64 hwv + BitStr.asUint64 lwv
                      < 2 ^ 64 := by
                    have h2 := (widthsB_op hW).1
                    rw [show (Expr.opE .Concat
                      [Expr.opE .Slice [hs, .constE hov, .constE hwv],
                       Expr.opE .Slice [hs, .constE lov, .constE lwv]]).width
                      = BitStr.asUint64 hwv + BitStr.asUint64 lwv
                      from rfl] at h2
                    exact h2
                  have hvnew : evalE env (.opE .Slice [hs, .constE lov,
                      .constE (fromUint64
                        (BitStr.asUint64 hwv + BitStr.asUint64 lwv))])
                      = some (BitStr.concatB av bv) := by
                    refine eval_slice_intro hs1 (evalE_const env lov)
                      (evalE_const env _) ?_ ?_
                    · rw [asUint64_fromUint64, Nat.mod_eq_of_lt hsum,
                        BitStr.concatB_eq, Nat.add_comm]
                      exact hcs
                    · rw [show (Expr.opE .Slice [hs, .constE lov,
                        .constE (fromUint64 (BitStr.asUint64 hwv
                          + BitStr.asUint64 lwv))]).width
                        = BitStr.asUint64 (fromUint64 (BitStr.asUint64 hwv
                          + BitStr.asUint64 lwv)) from rfl]
                      rw [asUint64_fromUint64, Nat.mod_eq_of_lt hsum]
                      rw [show (BitStr.concatB av bv).length
                        = bv.length + av.length from by
                          rw [BitStr.concatB_eq, List.length_append]]
                      rw [PBitStr.length_sliceW _ _ _ _ hslice1,
                        PBitStr.length_sliceW _ _ _ _ hslice2]
                      omega
                  have hWnew : widthsB (.opE .Slice [hs, .constE lov,
                      .constE (fromUint64
                        (BitStr.asUint64 hwv + BitStr.asUint64 lwv))])
                      = true := by
                    refine widthsB_op_intro ?_ ?_
                    · rw [show (Expr.opE .Slice [hs, .constE lov,
                        .constE (fromUint64 (BitStr.asUint64 hwv
                          + BitStr.asUint64 lwv))]).width
                        = BitStr.asUint64 (fromUint64 (BitStr.asUint64 hwv
                          + BitStr.asUint64 lwv)) from rfl]
                      exact BitStr.asUint64_lt _
                    · refine widthsL3_intro hsw ?_ ?_
                      · exact (widthsL3 (widthsB_op
                          ((widthsL2 (widthsB_op hW).2).2)).2).2.1
                      · rw [widthsB, decide_eq_true_iff, fromUint64,
                          BitStr.length_ofNat]
                        norm_num
                  have hEnew : envWFB env (.opE .Slice [hs, .constE lov,
                      .constE (fromUint64
                        (BitStr.asUint64 hwv + BitStr.asUint64 lwv))])
                      = true := by
                    show envWFL env _ = true
                    exact envWFL3_intro hse rfl rfl
                  exact hrec _ _ e _ hb hWnew hEnew hvnew
                · injection hb with he
                  subst he
                  exact ⟨hv, hW, hE⟩
              · injection hb with he
                subst he
                exact ⟨hv, hW, hE⟩
            · cases hb
          · injection hb with he
            subst he
            exact ⟨hv, hW, hE⟩
        · injection hb with he
          subst he
          exact ⟨hv, hW, hE⟩
      · -- Slice
        rename_i v o wE
        split at hb
        · rename_i wv
          split at hb
          · rename_i hg
            cases o with
            | leaf i w => simp at hg
            | unknownE i w => simp at hg
            | opE k2 args2 => simp at hg
            | constE ov =>
              rw [Bool.and_eq_true] at hg
              obtain ⟨hz2, hwid⟩ := hg
              injection hb with he
              subst he
              obtain ⟨av, ovv, wvv, hva, hvo, hvw, hslice, hlen⟩ :=
                eval_slice_dissect hv
              rw [evalE_const] at hvo
              cases Option.some_inj.mp hvo
              rw [evalE_const] at hvw
              cases Option.some_inj.mp hvw
              have hwid2 : BitStr.asUint64 wv = v.width := by
                simpa using hwid
              have hal : av.length = v.width :=
                eval_length env v av (envWFL3 (envWFB_op hE)).1 hva
              rw [BitStr.asUint64_zero hz2, hwid2,
                ← hal, BitStr.sliceW_full] at hslice
              cases Option.some_inj.mp hslice
              exact ⟨hva, (widthsL3 (widthsB_op hW).2).1,
                (envWFL3 (envWFB_op hE)).1⟩
          · rename_i hng
            split at hb
            · -- v = Concat [chi, clo]
              rename_i chi clo
              split at hb
              · rename_i ov
                split at hb
                · rename_i hlow
                  obtain ⟨av, ovv, wvv, hva, hvo, hvw, hslice, hlen⟩ :=
                    eval_slice_dissect hv
                  rw [evalE_const] at hvo
                  cases Option.some_inj.mp hvo
                  rw [evalE_const] at hvw
                  cases Option.some_inj.mp hvw
                  obtain ⟨chv, clv, hchv, hclv, hopc, hlenc⟩ :=
                    eval2_dissect hva
                  rw [opEval] at hopc
                  cases Option.some_inj.mp hopc
                  have hbnd := (BitStr.sliceW_some hslice).1
                  have hal : (BitStr.concatB chv clv).length
                      = (Expr.opE .Concat [chi, clo]).width :=
                    eval_length env _ _ (envWFL3 (envWFB_op hE)).1 hva
                  have hcw : (Expr.opE .Concat [chi, clo]).width < 2 ^ 64 :=
                    widthsB_self (widthsL3 (widthsB_op hW).2).1
                  have hmod : BitStr.asUint64 ov + BitStr.asUint64 wv
                      < 2 ^ 64 := by omega
                  rw [Nat.mod_eq_of_lt hmod] at hlow
                  have hclw : widthsB clo = true :=
                    (widthsL2 (widthsB_op
                      (widthsL3 (widthsB_op hW).2).1).2).2
                  have hcle : envWFB env clo = true :=
                    (envWFL2 (envWFB_op (envWFL3 (envWFB_op hE)).1)).2
                  have hcll : clv.length = clo.width :=
                    eval_length env clo clv hcle hclv
                  rw [BitStr.concatB_eq] at hslice
                  rw [BitStr.sliceW_concat_low clv chv _ _
                    (by rw [hcll]; exact hlow)] at hslice
                  have hvnew : evalE env (.opE .Slice
                      [clo, .constE ov, .constE wv]) = some r :=
                    eval_slice_intro hclv (evalE_const env ov)
                      (evalE_const env wv) hslice hlen
                  have hWnew : widthsB (.opE .Slice
                      [clo, .constE ov, .constE wv]) = true := by
                    refine widthsB_op_intro ?_ ?_
                    · show BitStr.asUint64 wv < 2 ^ 64
                      exact BitStr.asUint64_lt wv
                    · exact widthsL3_intro hclw
                        ((widthsL3 (widthsB_op hW).2).2.1)
                        ((widthsL3 (widthsB_op hW).2).2.2)
                  have hEnew : envWFB env (.opE .Slice
                      [clo, .constE ov, .constE wv]) = true := by
                    show envWFL env _ = true
                    exact envWFL3_intro hcle rfl rfl
                  exact hrec _ _ e _ hb hWnew hEnew hvnew
                · split at hb
                  · rename_i hnlow hhigh
                    obtain ⟨av, ovv, wvv, hva, hvo, hvw, hslice, hlen⟩ :=
                      eval_slice_dissect hv
                    rw [evalE_const] at hvo
                    cases Option.some_inj.mp hvo
                    rw [evalE_const] at hvw
                    cases Option.some_inj.mp hvw
                    obtain ⟨chv, clv, hchv, hclv, hopc, hlenc⟩ :=
                      eval2_dissect hva
                    rw [opEval] at hopc
                    cases Option.some_inj.mp hopc
                    have hclw : widthsB clo = true :=
                      (widthsL2 (widthsB_op
                        (widthsL3 (widthsB_op hW).2).1).2).2
                    have hchw : widthsB chi = true :=
                      (widthsL2 (widthsB_op
                        (widthsL3 (widthsB_op hW).2).1).2).1
                    have hcle : envWFB env clo = true :=
                      (envWFL2 (envWFB_op (envWFL3 (envWFB_op hE)).1)).2
                    have hche : envWFB env chi = true :=
                      (envWFL2 (envWFB_op (envWFL3 (envWFB_op hE)).1)).1
                    have hcll : clv.length = clo.width :=
                      eval_length env clo clv hcle hclv
                    rw [BitStr.concatB_eq] at hslice
                    rw [BitStr.sliceW_concat_high clv chv _ _
                      (by rw [hcll]; exact hhigh)] at hslice
                    rw [hcll] at hslice
                    have hmod2 : BitStr.asUint64 ov - clo.width < 2 ^ 64 :=
                      Nat.lt_of_le_of_lt (Nat.sub_le _ _)
                        (BitStr.asUint64_lt ov)
                    have hvnew : evalE env (.opE .Slice [chi,
                        .constE (fromUint64 (BitStr.asUint64 ov - clo.width)),
                        .constE wv]) = some r := by
                      refine eval_slice_intro hchv (evalE_const env _)
                        (evalE_const env wv) ?_ hlen
                      rw [asUint64_fromUint64, Nat.mod_eq_of_lt hmod2]
                      exact hslice
                    have hWnew : widthsB (.opE .Slice [chi,
                        .constE (fromUint64 (BitStr.asUint64 ov - clo.width)),
                        .constE wv]) = true := by
                      refine widthsB_op_intro ?_ ?_
                      · show BitStr.asUint64 wv < 2 ^ 64
                        exact BitStr.asUint64_lt wv
                      · refine widthsL3_intro hchw ?_
                          ((widthsL3 (widthsB_op hW).2).2.2)
                        rw [widthsB, decide_eq_true_iff, fromUint64,
                          BitStr.length_ofNat]
                        norm_num
                    have hEnew : envWFB env (.opE .Slice [chi,
                        .constE (fromUint64 (BitStr.asUint64 ov - clo.width)),
                        .constE wv]) = true := by
                      show envWFL env _ = true
                      exact envWFL3_intro hche rfl rfl
                    exact hrec _ _ e _ hb hWnew hEnew hvnew
                  · injection hb with he
                    subst he
                    exact ⟨hv, hW, hE⟩
              · injection hb with he
                subst he
                exact ⟨hv, hW, hE⟩
            · -- v = Slice [s, iOff, iW]
              rename_i s iOff iW
              split at hb
              · rename_i iov
                split at hb
                · rename_i ov
                  obtain ⟨av, ovv, wvv, hva, hvo, hvw, hslice, hlen⟩ :=
                    eval_slice_dissect hv
                  rw [evalE_const] at hvo
                  cases Option.some_inj.mp hvo
                  rw [evalE_const] at hvw
                  cases Option.some_inj.mp hvw
                  obtain ⟨sv, iovv, iwvv, hsv, hio, hiw, hslin, hlenin⟩ :=
                    eval_slice_dissect hva
                  rw [evalE_const] at hio
                  cases Option.some_inj.mp hio
                  have hcomp := BitStr.sliceW_slice sv (BitStr.asUint64 iov)
                    (BitStr.asUint64 iwvv) (BitStr.asUint64 ov)
                    (BitStr.asUint64 wv) av r hslin hslice
                  have hbin := (BitStr.sliceW_some hslin).1
                  have hbout := (BitStr.sliceW_some hslice).1
                  have havl : av.length = BitStr.asUint64 iwvv :=
                    PBitStr.length_sliceW _ _ _ _ hslin
                  have hsw : widthsB s = true :=
                    (widthsL3 (widthsB_op
                      (widthsL3 (widthsB_op hW).2).1).2).1
                  have hse : envWFB env s = true :=
                    (envWFL3 (envWFB_op (envWFL3 (envWFB_op hE)).1)).1
                  have hsl : sv.length = s.width :=
                    eval_length env s sv hse hsv
                  have hsub : sv.length < 2 ^ 64 := by
                    rw [hsl]
                    exact widthsB_self hsw
                  have hmod : BitStr.asUint64 ov + BitStr.asUint64 iov
                      < 2 ^ 64 := by omega
                  have hvnew : evalE env (.opE .Slice [s,
                      .constE (fromUint64 (BitStr.asUint64 ov
                        + BitStr.asUint64 iov)), .constE wv]) = some r := by
                    refine eval_slice_intro hsv (evalE_const env _)
                      (evalE_const env wv) ?_ hlen
                    rw [asUint64_fromUint64, Nat.mod_eq_of_lt hmod]
                    exact hcomp
                  have hWnew : widthsB (.opE .Slice [s,
                      .constE (fromUint64 (BitStr.asUint64 ov
                        + BitStr.asUint64 iov)), .constE wv]) = true := by
                    refine widthsB_op_intro ?_ ?_
                    · show BitStr.asUint64 wv < 2 ^ 64
                      exact BitStr.asUint64_lt wv
                    · refine widthsL3_intro hsw ?_
                        ((widthsL3 (widthsB_op hW).2).2.2)
                      rw [widthsB, decide_eq_true_iff, fromUint64,
                        BitStr.length_ofNat]
                      norm_num
                  have hEnew : envWFB env (.opE .Slice [s,
                      .constE (fromUint64 (BitStr.asUint64 ov
                        + BitStr.asUint64 iov)), .constE wv]) = true := by
                    show envWFL env _ = true
                    exact envWFL3_intro hse rfl rfl
                  exact hrec _ _ e _ hb hWnew hEnew hvnew
                · cases hb
              · injection hb with he
                subst he
                exact ⟨hv, hW, hE⟩
            · injection hb with he
              subst he
              exact ⟨hv, hW, hE⟩
        · cases hb
      · -- Shl
        rename_i a b
        split at hb
        · rename_i c
          split at hb
          · rename_i hz
            injection hb with he
            subst he
            obtain ⟨av, bv, hav, hbv, hop, hlen⟩ := eval2_dissect hv
            rw [evalE_const] at hav
            cases Option.some_inj.mp hav
            rw [opEval] at hop
            cases Option.some_inj.mp hop
            rw [BitStr.shlN_of_zero hz]
            exact ⟨evalE_const env c, (widthsL2 (widthsB_op hW).2).1, rfl⟩
          · split at hb
            · rename_i cb
              split at hb
              · rename_i hz
                injection hb with he
                subst he
                obtain ⟨av, bv, hav, hbv, hop, hlen⟩ := eval2_dissect hv
                rw [evalE_const] at hbv
                cases Option.some_inj.mp hbv
                rw [opEval] at hop
                cases Option.some_inj.mp hop
                rw [BitStr.asUint64_zero hz, BitStr.shlN_zero]
                exact ⟨hav, (widthsL2 (widthsB_op hW).2).1,
                  (envWFL2 (envWFB_op hE)).1⟩
              · injection hb with he
                subst he
                exact ⟨hv, hW, hE⟩
            · injection hb with he
              subst he
              exact ⟨hv, hW, hE⟩
        · split at hb
          · rename_i cb
            split at hb
            · rename_i hz
              injection hb with he
              subst he
              obtain ⟨av, bv, hav, hbv, hop, hlen⟩ := eval2_dissect hv
              rw [evalE_const] at hbv
              cases Option.some_inj.mp hbv
              rw [opEval] at hop
              cases Option.some_inj.mp hop
              rw [BitStr.asUint64_zero hz, BitStr.shlN_zero]
              exact ⟨hav, (widthsL2 (widthsB_op hW).2).1,
                (envWFL2 (envWFB_op hE)).1⟩
            · injection hb with he
              subst he
              exact ⟨hv, hW, hE⟩
          · injection hb with he
            subst he
            exact ⟨hv, hW, hE⟩
      · -- ShrU
        rename_i a b
        split at hb
        · rename_i c
          split at hb
          · rename_i hz
            injection hb with he
            subst he
            obtain ⟨av, bv, hav, hbv, hop, hlen⟩ := eval2_dissect hv
            rw [evalE_const] at hav
            cases Option.some_inj.mp hav
            rw [opEval] at hop
            cases Option.some_inj.mp hop
            rw [BitStr.shrUN_of_zero hz]
            exact ⟨evalE_const env c, (widthsL2 (widthsB_op hW).2).1, rfl⟩
          · split at hb
            · rename_i cb
              split at hb
              · rename_i hz
                injection hb with he
                subst he
                obtain ⟨av, bv, hav, hbv, hop, hlen⟩ := eval2_dissect hv
                rw [evalE_const] at hbv
                cases Option.some_inj.mp hbv
                rw [opEval] at hop
                cases Option.some_inj.mp hop
                rw [BitStr.asUint64_zero hz, BitStr.shrUN_zero]
                exact ⟨hav, (widthsL2 (widthsB_op hW).2).1,
                  (envWFL2 (envWFB_op hE)).1⟩
              · injection hb with he
                subst he
                exact ⟨hv, hW, hE⟩
            · injection hb with he
              subst he
              exact ⟨hv, hW, hE⟩
        · split at hb
          · rename_i cb
            split at hb
            · rename_i hz
              injection hb with he
              subst he
              obtain ⟨av, bv, hav, hbv, hop, hlen⟩ := eval2_dissect hv
              rw [evalE_const] at hbv
              cases Option.some_inj.mp hbv
              rw [opEval] at hop
              cases Option.some_inj.mp hop
              rw [BitStr.asUint64_zero hz, BitStr.shrUN_zero]
              exact ⟨hav, (widthsL2 (widthsB_op hW).2).1,
                (envWFL2 (envWFB_op hE)).1⟩
            · injection hb with he
              subst he
              exact ⟨hv, hW, hE⟩
          · injection hb with he
            subst he
            exact ⟨hv, hW, hE⟩
      · -- ShrS
        rename_i a b
        split at hb
        · rename_i c
          split at hb
          · rename_i hz
            injection hb with he
            subst he
            obtain ⟨av, bv, hav, hbv, hop, hlen⟩ := eval2_dissect hv
            rw [evalE_const] at hav
            cases Option.some_inj.mp hav
            rw [opEval] at hop
            split at hop
            · exact absurd hop (by simp)
            · cases Option.some_inj.mp hop
              rw [BitStr.shrSN_of_zero hz]
              exact ⟨evalE_const env c, (widthsL2 (widthsB_op hW).2).1, rfl⟩
          · split at hb
            · rename_i ho
              injection hb with he
              subst he
              obtain ⟨av, bv, hav, hbv, hop, hlen⟩ := eval2_dissect hv
              rw [evalE_const] at hav
              cases Option.some_inj.mp hav
              rw [opEval] at hop
              split at hop
              · exact absurd hop (by simp)
              · cases Option.some_inj.mp hop
                rw [BitStr.shrSN_of_ones ho]
                exact ⟨evalE_const env c, (widthsL2 (widthsB_op hW).2).1,
                  rfl⟩
            · split at hb
              · rename_i cb
                split at hb
                · rename_i hz
                  injection hb with he
                  subst he
                  obtain ⟨av, bv, hav, hbv, hop, hlen⟩ := eval2_dissect hv
                  rw [evalE_const] at hbv
                  cases Option.some_inj.mp hbv
                  rw [opEval] at hop
                  split at hop
                  · exact absurd hop (by simp)
                  · cases Option.some_inj.mp hop
                    rw [BitStr.asUint64_zero hz, BitStr.shrSN_zero]
                    exact ⟨hav, (widthsL2 (widthsB_op hW).2).1,
                      (envWFL2 (envWFB_op hE)).1⟩
                · injection hb with he
                  subst he
                  exact ⟨hv, hW, hE⟩
              · injection hb with he
                subst he
                exact ⟨hv, hW, hE⟩
        · split at hb
          · rename_i cb
            split at hb
            · rename_i hz
              injection hb with he
              subst he
              obtain ⟨av, bv, hav, hbv, hop, hlen⟩ := eval2_dissect hv
              rw [evalE_const] at hbv
              cases Option.some_inj.mp hbv
              rw [opEval] at hop
              split at hop
              · exact absurd hop (by simp)
              · cases Option.some_inj.mp hop
                rw [BitStr.asUint64_zero hz, BitStr.shrSN_zero]
                exact ⟨hav, (widthsL2 (widthsB_op hW).2).1,
                  (envWFL2 (envWFB_op hE)).1⟩
            · injection hb with he
              subst he
              exact ⟨hv, hW, hE⟩
          · injection hb with he
            subst he
            exact ⟨hv, hW, hE⟩
      · -- Select
        rename_i c t e2
        split at hb
        · rename_i hte
          injection hb with he
          subst he
          have heq := (exprEq_iff t e2).mp hte
          subst heq
          obtain ⟨cv, hcv, hne0, hlen, hbr⟩ := eval_select_dissect hv
          rcases hbr with ⟨_, ht⟩ | ⟨_, ht⟩ <;>
            exact ⟨ht, (widthsL3 (widthsB_op hW).2).2.1,
              (envWFL3 (envWFB_op hE)).2.1⟩
        · rename_i hnte
          split at hb
          · rename_i cval
            split at hb
            · cases hb
            · split at hb
              · rename_i hlen0 hhd
                injection hb with he
                subst he
                obtain ⟨cv, hcv, hne0, hlen, hbr⟩ := eval_select_dissect hv
                rw [evalE_const] at hcv
                cases Option.some_inj.mp hcv
                rcases hbr with ⟨_, ht⟩ | ⟨hf, _⟩
                · exact ⟨ht, (widthsL3 (widthsB_op hW).2).2.1,
                    (envWFL3 (envWFB_op hE)).2.1⟩
                · rw [hhd] at hf
                  exact absurd hf (by simp)
              · rename_i hlen0 hhd
                injection hb with he
                subst he
                obtain ⟨cv, hcv, hne0, hlen, hbr⟩ := eval_select_dissect hv
                rw [evalE_const] at hcv
                cases Option.some_inj.mp hcv
                rcases hbr with ⟨htr, _⟩ | ⟨_, ht⟩
                · exact absurd htr hhd
                · exact ⟨ht, (widthsL3 (widthsB_op hW).2).2.2,
                    (envWFL3 (envWFB_op hE)).2.2⟩
          · injection hb with he
            subst he
            exact ⟨hv, hW, hE⟩
      · -- catch-all
        injection hb with he
        subst he
        exact ⟨hv, hW, hE⟩

theorem opEval_swap {k : Kind} (hk : k.isCommutative = true) (x y : BitStr) :
    opEval k [y, x] = opEval k [x, y] := by
  cases k <;> simp [Kind.isCommutative] at hk
  case And =>
      rw [opEval, opEval, BitStr.bandChecked, BitStr.bandChecked]
      by_cases h : x.length = y.length
      · rw [if_pos h.symm, if_pos h, BitStr.band_comm]
      · rw [if_neg (fun hh => h hh.symm), if_neg h]
  case Or =>
      rw [opEval, opEval, BitStr.borChecked, BitStr.borChecked]
      by_cases h : x.length = y.length
      · rw [if_pos h.symm, if_pos h, BitStr.bor_comm]
      · rw [if_neg (fun hh => h hh.symm), if_neg h]
  case Xor =>
      rw [opEval, opEval, BitStr.bxorChecked, BitStr.bxorChecked]
      by_cases h : x.length = y.length
      · rw [if_pos h.symm, if_pos h, BitStr.bxor_comm]
      · rw [if_neg (fun hh => h hh.symm), if_neg h]
  case Add =>
      rw [opEval, opEval, BitStr.addChecked, BitStr.addChecked]
      by_cases h : x.length = y.length
      · rw [if_pos h.symm, if_pos h, BitStr.add_comm_b y x h.symm]
      · rw [if_neg (fun hh => h hh.symm), if_neg h]
  case Eq =>
      rw [opEval, opEval, BitStr.beq_comm]

theorem op_swap_preserve (env : Nat → BitStr) {k : Kind} {a b : Expr}
    {r : BitStr} (hk : k.isCommutative = true)
    (hW : widthsB (.opE k [a, b]) = true)
    (hE : envWFB env (.opE k [a, b]) = true)
    (hv : evalE env (.opE k [a, b]) = some r) :
    evalE env (.opE k [b, a]) = some r ∧ widthsB (.opE k [b, a]) = true
      ∧ envWFB env (.opE k [b, a]) = true := by
  obtain ⟨av, bv, hav, hbv, hop, hlen⟩ := eval2_dissect hv
  have hWa := (widthsL2 (widthsB_op hW).2).1
  have hWb := (widthsL2 (widthsB_op hW).2).2
  have hEa := (envWFL2 (envWFB_op hE)).1
  have hEb := (envWFL2 (envWFB_op hE)).2
  have hla := eval_length env a av hEa hav
  have hlb := eval_length env b bv hEb hbv
  have hwsw : (Expr.opE k [b, a]).width = (Expr.opE k [a, b]).width := by
    cases k <;> simp [Kind.isCommutative] at hk
    all_goals
      first
      | rfl
      | (rw [opEval] at hop
         first
         | rw [BitStr.bandChecked] at hop
         | rw [BitStr.borChecked] at hop
         | rw [BitStr.bxorChecked] at hop
         | rw [BitStr.addChecked] at hop
         split at hop
         · rename_i hll
           simp only [Expr.width]
           omega
         · exact absurd hop (by simp))
  refine ⟨?_, ?_, ?_⟩
  · exact eval2_intro hbv hav ((opEval_swap hk av bv).trans hop)
      (by rw [hwsw]; exact hlen)
  · refine widthsB_op_intro ?_ (widthsL2_intro hWb hWa)
    rw [hwsw]
    exact (widthsB_op hW).1
  · rw [envWFB]
    exact envWFL2_intro hEb hEa

theorem canonArgs_swap_eq {k : Kind} {a b : Expr}
    (hk : k.isCommutative = true) :
    canonArgs k [a, b] = [a, b] ∨ canonArgs k [a, b] = [b, a] := by
  have h0 : canonArgs k [a, b]
      = if isConstE a = isConstE b then
          (if cmpE a b = Ordering.gt then [b, a] else [a, b])
        else if isConstE b then [b, a] else [a, b] := by
    rw [canonArgs, if_pos hk]
  rw [h0]
  by_cases h1 : isConstE a = isConstE b
  · rw [if_pos h1]
    by_cases h2 : cmpE a b = Ordering.gt
    · right
      rw [if_pos h2]
    · left
      rw [if_neg h2]
  · rw [if_neg h1]
    by_cases h3 : isConstE b = true
    · right
      rw [if_pos h3]
    · left
      rw [if_neg h3]

theorem canonArgs_or (k : Kind) (args : List Expr) :
    canonArgs k args = args ∨
      ∃ a b, k.isCommutative = true ∧ args = [a, b] ∧
        canonArgs k [a, b] = [b, a] := by
  by_cases hk : k.isCommutative = true
  · match args with
    | [] =>
        refine Or.inl ?_
        rw [canonArgs, if_pos hk]
        intro x y hxy
        simp at hxy
    | [a] =>
        refine Or.inl ?_
        rw [canonArgs, if_pos hk]
        intro x y hxy
        simp at hxy
    | [a, b] =>
        rcases canonArgs_swap_eq (a := a) (b := b) hk with h | h
        · exact Or.inl h
        · exact Or.inr ⟨a, b, hk, rfl, h⟩
    | a :: b :: c :: rest =>
        refine Or.inl ?_
        rw [canonArgs, if_pos hk]
        intro x y hxy
        simp at hxy
  · refine Or.inl ?_
    have hkf : k.isCommutative = false := by simpa using hk
    rw [canonArgs.eq_def, hkf]
    rfl

theorem buildOpF_preserve (env : Nat → BitStr) :
    ∀ fuel k args e r, buildOpF fuel k args = .ok e →
      widthsB (.opE k args) = true → envWFB env (.opE k args) = true →
      evalE env (.opE k args) = some r →
      evalE env e = some r ∧ widthsB e = true ∧ envWFB env e = true := by
  intro fuel
  induction fuel with
  | zero =>
      intro k args e r hb
      rw [buildOpF] at hb
      cases hb
  | succ n ih =>
      intro k args e r hb hW hE hv
      rw [buildOpF] at hb
      exact buildStep_preserve env (buildOpF n) ih k args e r hb hW hE hv

theorem modOp_preserve (env : Nat → BitStr) {k : Kind} {args : List Expr}
    {e : Expr} {r : BitStr} (hb : modOp k args = .ok e)
    (hW : widthsB (.opE k args) = true)
    (hE : envWFB env (.opE k args) = true)
    (hv : evalE env (.opE k args) = some r) :
    evalE env e = some r ∧ widthsB e = true ∧ envWFB env e = true := by
  rw [modOp] at hb
  rcases canonArgs_or k args with h | ⟨a, b, hk, ha, h⟩
  · rw [h] at hb
    exact buildOpF_preserve env _ k args e r hb hW hE hv
  · subst ha
    rw [h] at hb
    obtain ⟨hv2, hW2, hE2⟩ := op_swap_preserve env hk hW hE hv
    exact buildOpF_preserve env _ k [b, a] e r hb hW2 hE2 hv2

theorem opG_preserve (env : Nat → BitStr) {k : Kind} {args : List Expr}
    {r : BitStr} (hW : widthsB (.opE k args) = true)
    (hE : envWFB env (.opE k args) = true)
    (hv : evalE env (.opE k args) = some r) :
    evalE env (opG k args) = some r ∧ widthsB (opG k args) = true
      ∧ envWFB env (opG k args) = true := by
  rw [opG]
  split
  · rename_i e hb
    exact modOp_preserve env hb hW hE hv
  all_goals exact ⟨hv, hW, hE⟩

/-!
### The flattener (`hdl_flatten.hpp`)

`Flattening` rewrites a value graph into per-bit networks of width-1 nodes.
`Bits` vectors are LSB-first lists of width-1 values; every node is built
through `Module::op` (`opG`). The `Input`/`Reg`/`Memory::Read` leaves are
pre-defined via `define(value, split(value))` per the intended use, so the
embedding maps a `leaf` to its `split`. `flatten` has no case for `LeU` and
`LeS`: their bit vector stays empty and `join` (which reads `bits[0]`)
fails on it. The `shr`/`shl` helpers compute `1 << it` in a signed `int`
(`shr` before its own range guard), which overflows once the amount operand
has 32 or more bits; those inputs are modelled as `none`.
-/

abbrev BitsE := List Expr

/-- `_module.constant(BitString::from_bool(false))`. -/
def zeroE : Expr := Expr.constE [false]

/-- `Flattening::select` on single bits: `Or(And(cond, a), And(Not(cond), b))`. -/
def selectE (c a b : Expr) : Expr :=
  opG .Or [opG .And [c, a], opG .And [opG .Not [c], b]]

/-- `Flattening::select` on bit vectors (element-wise over equal lengths). -/
def selVec (c : Expr) (a b : BitsE) : BitsE := List.zipWith (selectE c) a b

/-- The loop of `Flattening::add_sub`: ripple full adders threading `carry`;
under `is_sub` each `b` bit is inverted. -/
def addSubGo (isSub : Bool) : BitsE → BitsE → Expr → BitsE
  | aBit :: as_, bBit0 :: bs, carry =>
      let bBit := if isSub then opG .Not [bBit0] else bBit0
      opG .Xor [opG .Xor [aBit, bBit], carry] ::
        addSubGo isSub as_ bs
          (opG .Or [opG .Or [opG .And [carry, aBit], opG .And [carry, bBit]],
            opG .And [aBit, bBit]])
  | _, _, _ => []

/-- `Flattening::add_sub` (the carry is seeded with `is_sub`). -/
def addSub (a b : BitsE) (isSub : Bool) : BitsE :=
  addSubGo isSub a b (Expr.constE [isSub])

/-- One pass of `Flattening::shr` for amount bit `it` (`sh = 1 << it`): bit
`it2` selects between the bit `sh` positions up — the fill when out of
range — and the old bit. -/
def shrPass (bIt fillE : Expr) (sh : Nat) (old : BitsE) : BitsE :=
  selVec bIt
    (old.drop sh ++ List.replicate (old.length - (old.drop sh).length) fillE)
    old

/-- The amount loop of `Flattening::shr`. -/
def shrGo (fillE : Expr) : BitsE → Nat → BitsE → BitsE
  | [], _, old => old
  | bIt :: rest, it, old =>
      shrGo fillE rest (it + 1) (shrPass bIt fillE (2 ^ it) old)

/-- `Flattening::shr`: `none` when the amount operand has more than 31 bits
(the source computes `1 << it` in a signed `int` before its range guard). -/
def shrFlat (a b : BitsE) (fillE : Expr) : Option BitsE :=
  if b.length ≤ 31 then some (shrGo fillE b 0 a) else none

/-- One pass of `Flattening::shl` for amount bit `it`. -/
def shlPass (bIt : Expr) (sh : Nat) (old : BitsE) : BitsE :=
  selVec bIt ((List.replicate sh zeroE ++ old).take old.length) old

/-- The amount loop of `Flattening::shl`. -/
def shlGo : BitsE → Nat → BitsE → BitsE
  | [], _, old => old
  | bIt :: rest, it, old => shlGo rest (it + 1) (shlPass bIt (2 ^ it) old)

/-- `Flattening::shl` (same amount-width bound as `shr`). -/
def shlFlat (a b : BitsE) : Option BitsE :=
  if b.length ≤ 31 then some (shlGo b 0 a) else none

/-- The shift loop of `Flattening::mul`: conditionally accumulate
`a << shift` (zero-padded to `w = a.size() + b.size()` bits). -/
def mulGo (aE : BitsE) (w : Nat) : BitsE → Nat → BitsE → BitsE
  | [], _, result => result
  | bIt :: rest, shift, result =>
      mulGo aE w rest (shift + 1)
        (selVec bIt
          (addSub result
            (List.replicate shift zeroE ++ aE
              ++ List.replicate (w - (shift + aE.length)) zeroE) false)
          result)

/-- `Flattening::mul`. -/
def mulFlat (aE bE : BitsE) : BitsE :=
  mulGo aE (aE.length + bE.length) bE 0
    (List.replicate (aE.length + bE.length) zeroE)

/-- `Flattening::lt_u`: the source loops from the MSB down threading
`(result, inactive)`, i.e. a right fold over the LSB-first zip. -/
def ltUChain : List (Expr × Expr) → Expr × Expr
  | [] => (zeroE, zeroE)
  | (x, y) :: rest =>
      let p := ltUChain rest
      (opG .Or [p.1,
         opG .And [opG .Not [p.2], opG .And [opG .Not [x], y]]],
       opG .Or [p.2, opG .Xor [x, y]])

/-- `Flattening::lt_u`. -/
def ltUFlat (a b : BitsE) : Expr := (ltUChain (a.zip b)).1

/-- `Flattening::lt_s` (`a.back()` is the sign bit; callers keep widths
positive). -/
def ltSFlat (a b : BitsE) : Expr :=
  selectE (opG .Xor [a.getLastD zeroE, b.getLastD zeroE])
    (opG .And [a.getLastD zeroE, opG .Not [b.getLastD zeroE]])
    (ltUFlat a b)

/-- The `Eq` loop of `Flattening::flatten`: `is_not_eq` accumulates the OR
of the per-bit XORs from the LSB up. -/
def eqGo : List (Expr × Expr) → Expr → Expr
  | [], acc => acc
  | (x, y) :: rest, acc => eqGo rest (opG .Or [acc, opG .Xor [x, y]])

/-- `Flattening::split`: one `Slice(value, from_uint(it), from_uint(1))`
node per bit. -/
def splitBits (v : Expr) : BitsE :=
  (List.range v.width).map (fun it =>
    opG .Slice [v, Expr.constE (fromUint64 it), Expr.constE (fromUint64 1)])

/-- `Flattening::join`: fold the bits into `Concat` nodes; `bits[0]` on an
empty vector (as produced for `LeU`/`LeS`) is out-of-bounds, modelled as
`none`. -/
def joinB : BitsE → Option Expr
  | [] => none
  | b0 :: rest => some (rest.foldl (fun acc bIt => opG .Concat [bIt, acc]) b0)

/-- `Flattening::flatten` as a function from a value tree to its bit vector
(`_values` memoization only caches results, so the recursion is pure).
`none` models the paths without defined behaviour: an un-predefined
non-leaf (`throw Error`), `join` on the empty `LeU`/`LeS` vectors is kept
as `some []` (the crash is `joinB`'s), over-31-bit shift amounts, a `Slice`
width beyond the argument width (`bits.insert` past `shifted.end()`), and
a width-0 `Select` condition (`arg(0)[0]`). `Unknown` values create fresh
unknown bits; no claim covers them, so they are `none` here. -/
def flattenB : Expr → Option BitsE
  | .leaf i w => some (splitBits (.leaf i w))
  | .constE v => some (v.map (fun bit => Expr.constE [bit]))
  | .unknownE _ _ => none
  | .opE k args =>
      match k, args with
      | .And, [a, b] => do
          let x ← flattenB a
          let y ← flattenB b
          some (List.zipWith (fun xb yb => opG .And [xb, yb]) x y)
      | .Or, [a, b] => do
          let x ← flattenB a
          let y ← flattenB b
          some (List.zipWith (fun xb yb => opG .Or [xb, yb]) x y)
      | .Xor, [a, b] => do
          let x ← flattenB a
          let y ← flattenB b
          some (List.zipWith (fun xb yb => opG .Xor [xb, yb]) x y)
      | .Not, [a] => do
          let x ← flattenB a
          some (x.map (fun xb => opG .Not [xb]))
      | .Add, [a, b] => do
          let x ← flattenB a
          let y ← flattenB b
          some (addSub x y false)
      | .Sub, [a, b] => do
          let x ← flattenB a
          let y ← flattenB b
          some (addSub x y true)
      | .Mul, [a, b] => do
          let x ← flattenB a
          let y ← flattenB b
          some (mulFlat x y)
      | .Eq, [a, b] => do
          let x ← flattenB a
          let y ← flattenB b
          some [opG .Not [eqGo (x.zip y) zeroE]]
      | .LtU, [a, b] => do
          let x ← flattenB a
          let y ← flattenB b
          some [ltUFlat x y]
      | .LtS, [a, b] => do
          let x ← flattenB a
          let y ← flattenB b
          some [ltSFlat x y]
      | .LeU, [a, b] => do
          let _ ← flattenB a
          let _ ← flattenB b
          some []
      | .LeS, [a, b] => do
          let _ ← flattenB a
          let _ ← flattenB b
          some []
      | .Concat, [a, b] => do
          let x ← flattenB a
          let y ← flattenB b
          some (y ++ x)
      | .Slice, [a, o, w] => do
          let x ← flattenB a
          let off ← flattenB o
          let _ ← flattenB w
          let shifted ← shrFlat x off zeroE
          if (Expr.opE .Slice [a, o, w]).width ≤ x.length then
            some (shifted.take (Expr.opE .Slice [a, o, w]).width)
          else none
      | .Shl, [a, b] => do
          let x ← flattenB a
          let y ← flattenB b
          shlFlat x y
      | .ShrU, [a, b] => do
          let x ← flattenB a
          let y ← flattenB b
          shrFlat x y zeroE
      | .ShrS, [a, b] => do
          let x ← flattenB a
          let y ← flattenB b
          shrFlat x y (x.getLastD zeroE)
      | .Select, [c, t, e] => do
          let xc ← flattenB c
          let xt ← flattenB t
          let xe ← flattenB e
          match xc with
          | c0 :: _ => some (selVec c0 xt xe)
          | [] => none
      | _, _ => none
termination_by e => Expr.sizeE e
decreasing_by all_goals (simp [Expr.sizeE, Expr.sizeE.sizeL]; try omega)

/-- A width-1 node carrying bit `b`: it evaluates to `[b]` and satisfies
the width and environment invariants. -/
def IsBit (env : Nat → BitStr) (e : Expr) (b : Bool) : Prop :=
  evalE env e = some [b] ∧ widthsB e = true ∧ envWFB env e = true

/-- A bit vector represents a BitString elementwise (LSB first). -/
def BitsVal (env : Nat → BitStr) (bs : BitsE) (v : BitStr) : Prop :=
  List.Forall₂ (IsBit env) bs v

theorem bit_constE (env : Nat → BitStr) (b : Bool) :
    IsBit env (Expr.constE [b]) b := by
  refine ⟨rfl, ?_, rfl⟩
  rw [widthsB]
  simp

theorem bit_zeroE (env : Nat → BitStr) : IsBit env zeroE false :=
  bit_constE env false

theorem IsBit.width_one {env : Nat → BitStr} {x : Expr} {a : Bool}
    (h : IsBit env x a) : x.width = 1 := by
  have := eval_length env x [a] h.2.2 h.1
  simpa using this.symm

theorem bit_and {env : Nat → BitStr} {x y : Expr} {a b : Bool}
    (hx : IsBit env x a) (hy : IsBit env y b) :
    IsBit env (opG .And [x, y]) (a && b) := by
  obtain ⟨hxe, hxw, hxf⟩ := hx
  obtain ⟨hye, hyw, hyf⟩ := hy
  have hx1 : x.width = 1 := IsBit.width_one ⟨hxe, hxw, hxf⟩
  have hv : evalE env (.opE .And [x, y]) = some [a && b] := by
    apply eval2_intro hxe hye
    · rw [opEval, BitStr.bandChecked]
      simp [BitStr.band]
    · simp [Expr.width, hx1]
  have hW : widthsB (.opE .And [x, y]) = true := by
    refine widthsB_op_intro ?_ (widthsL2_intro hxw hyw)
    simp [Expr.width, hx1]
  have hE : envWFB env (.opE .And [x, y]) = true := by
    rw [envWFB]
    exact envWFL2_intro hxf hyf
  exact opG_preserve env hW hE hv

theorem bit_or {env : Nat → BitStr} {x y : Expr} {a b : Bool}
    (hx : IsBit env x a) (hy : IsBit env y b) :
    IsBit env (opG .Or [x, y]) (a || b) := by
  obtain ⟨hxe, hxw, hxf⟩ := hx
  obtain ⟨hye, hyw, hyf⟩ := hy
  have hx1 : x.width = 1 := IsBit.width_one ⟨hxe, hxw, hxf⟩
  have hv : evalE env (.opE .Or [x, y]) = some [a || b] := by
    apply eval2_intro hxe hye
    · rw [opEval, BitStr.borChecked]
      simp [BitStr.bor]
    · simp [Expr.width, hx1]
  have hW : widthsB (.opE .Or [x, y]) = true := by
    refine widthsB_op_intro ?_ (widthsL2_intro hxw hyw)
    simp [Expr.width, hx1]
  have hE : envWFB env (.opE .Or [x, y]) = true := by
    rw [envWFB]
    exact envWFL2_intro hxf hyf
  exact opG_preserve env hW hE hv

theorem bit_xor {env : Nat → BitStr} {x y : Expr} {a b : Bool}
    (hx : IsBit env x a) (hy : IsBit env y b) :
    IsBit env (opG .Xor [x, y]) (xor a b) := by
  obtain ⟨hxe, hxw, hxf⟩ := hx
  obtain ⟨hye, hyw, hyf⟩ := hy
  have hx1 : x.width = 1 := IsBit.width_one ⟨hxe, hxw, hxf⟩
  have hv : evalE env (.opE .Xor [x, y]) = some [xor a b] := by
    apply eval2_intro hxe hye
    · rw [opEval, BitStr.bxorChecked]
      simp [BitStr.bxor]
    · simp [Expr.width, hx1]
  have hW : widthsB (.opE .Xor [x, y]) = true := by
    refine widthsB_op_intro ?_ (widthsL2_intro hxw hyw)
    simp [Expr.width, hx1]
  have hE : envWFB env (.opE .Xor [x, y]) = true := by
    rw [envWFB]
    exact envWFL2_intro hxf hyf
  exact opG_preserve env hW hE hv

theorem bit_not {env : Nat → BitStr} {x : Expr} {a : Bool}
    (hx : IsBit env x a) : IsBit env (opG .Not [x]) (!a) := by
  obtain ⟨hxe, hxw, hxf⟩ := hx
  have hx1 : x.width = 1 := IsBit.width_one ⟨hxe, hxw, hxf⟩
  have hv : evalE env (.opE .Not [x]) = some [!a] := by
    apply eval1_intro hxe
    · rw [opEval]
      simp [BitStr.bnot]
    · simp [Expr.width, hx1]
  have hW : widthsB (.opE .Not [x]) = true := by
    refine widthsB_op_intro ?_ ?_
    · simp [Expr.width, hx1]
    · rw [widthsL, widthsL, Bool.and_true]
      exact hxw
  have hE : envWFB env (.opE .Not [x]) = true := by
    rw [envWFB, envWFL, envWFL, Bool.and_true]
    exact hxf
  exact opG_preserve env hW hE hv

theorem bit_select {env : Nat → BitStr} {c t e : Expr} {cb tb eb : Bool}
    (hc : IsBit env c cb) (ht : IsBit env t tb) (he : IsBit env e eb) :
    IsBit env (selectE c t e) (if cb then tb else eb) := by
  have h4 := bit_or (bit_and hc ht) (bit_and (bit_not hc) he)
  have hval : ((cb && tb) || (!cb && eb)) = (if cb then tb else eb) := by
    cases cb <;> simp
  rw [selectE, ← hval]
  exact h4

theorem bitsVal_zipWith {env : Nat → BitStr} {f : Expr → Expr → Expr}
    {g : Bool → Bool → Bool}
    (hfg : ∀ x y a b, IsBit env x a → IsBit env y b → IsBit env (f x y) (g a b)) :
    ∀ {as_ bs : BitsE} {av bv : BitStr}, BitsVal env as_ av →
      BitsVal env bs bv →
      BitsVal env (List.zipWith f as_ bs) (List.zipWith g av bv) := by
  intro as_ bs av bv ha hb
  induction ha generalizing bs bv with
  | nil => exact List.Forall₂.nil
  | cons hx hrest ih =>
      cases hb with
      | nil => exact List.Forall₂.nil
      | cons hy hrest2 =>
          exact List.Forall₂.cons (hfg _ _ _ _ hx hy) (ih hrest2)

theorem bitsVal_map {env : Nat → BitStr} {f : Expr → Expr} {g : Bool → Bool}
    (hfg : ∀ x a, IsBit env x a → IsBit env (f x) (g a)) :
    ∀ {as_ : BitsE} {av : BitStr}, BitsVal env as_ av →
      BitsVal env (as_.map f) (av.map g) := by
  intro as_ av ha
  induction ha with
  | nil => exact List.Forall₂.nil
  | cons hx hrest ih => exact List.Forall₂.cons (hfg _ _ hx) ih

theorem zipWith_const_left {α : Type} :
    ∀ (av bv : List α), av.length = bv.length →
      List.zipWith (fun x _ => x) av bv = av
  | [], [], _ => rfl
  | x :: xs, y :: ys, h => by
      rw [List.zipWith_cons_cons, zipWith_const_left xs ys (by simpa using h)]
  | [], _ :: _, h => by simp at h
  | _ :: _, [], h => by simp at h

theorem zipWith_const_right {α : Type} :
    ∀ (av bv : List α), av.length = bv.length →
      List.zipWith (fun _ y => y) av bv = bv
  | [], [], _ => rfl
  | x :: xs, y :: ys, h => by
      rw [List.zipWith_cons_cons, zipWith_const_right xs ys (by simpa using h)]
  | [], _ :: _, h => by simp at h
  | _ :: _, [], h => by simp at h

theorem bitsVal_selVec {env : Nat → BitStr} {c : Expr} {cb : Bool}
    {a b : BitsE} {av bv : BitStr} (hc : IsBit env c cb)
    (ha : BitsVal env a av) (hb : BitsVal env b bv)
    (hl : av.length = bv.length) :
    BitsVal env (selVec c a b) (if cb then av else bv) := by
  have h := bitsVal_zipWith
    (f := fun x y => selectE c x y) (g := fun x y => if cb then x else y)
    (fun x y p q hx hy => bit_select hc hx hy) ha hb
  rw [selVec]
  cases cb with
  | true =>
      rw [if_pos rfl]
      have hg : (fun (x y : Bool) => if true = true then x else y)
          = fun x _ => x := by
        funext x y
        simp
      rw [hg, zipWith_const_left av bv hl] at h
      exact h
  | false =>
      have hg : (fun (x y : Bool) => if false = true then x else y)
          = fun _ y => y := by
        funext x y
        simp
      rw [if_neg (by simp), ← zipWith_const_right av bv hl]
      rw [hg] at h
      exact h

namespace BitStr

/-- Common shape of the scalar shifts right: drop `n` and fill with `s`. -/
def shrF (a : BitStr) (n : Nat) (s : Bool) : BitStr :=
  a.drop n ++ List.replicate (a.length - (a.drop n).length) s

theorem shrUN_eq_shrF (a : BitStr) (n : Nat) : shrUN a n = shrF a n false := rfl

theorem shrSN_eq_shrF (a : BitStr) (n : Nat) : shrSN a n = shrF a n (sign a) :=
  rfl

theorem length_shrF (a : BitStr) (n : Nat) (s : Bool) :
    (shrF a n s).length = a.length := by
  simp [shrF]

theorem getElem_shrF {a : BitStr} {n : Nat} {s : Bool} {i : Nat}
    (h : i < (shrF a n s).length) :
    (shrF a n s)[i] = if n + i < a.length then a.getD (n + i) s else s := by
  by_cases h2 : n + i < a.length
  · rw [if_pos h2]
    have hi : i < (a.drop n).length := by
      simp
      omega
    simp only [shrF]
    rw [List.getElem_append_left hi, List.getElem_drop,
      List.getD_eq_getElem _ _ h2]
  · rw [if_neg h2]
    have hi : (a.drop n).length ≤ i := by
      simp
      rw [length_shrF] at h
      omega
    simp only [shrF]
    rw [List.getElem_append_right hi, List.getElem_replicate]

theorem getD_shrF (a : BitStr) (n : Nat) (s : Bool) (i : Nat) :
    (shrF a n s).getD i s = a.getD (n + i) s := by
  by_cases h : i < (shrF a n s).length
  · rw [List.getD_eq_getElem _ _ h, getElem_shrF h]
    by_cases h2 : n + i < a.length
    · rw [if_pos h2]
    · rw [if_neg h2, List.getD_eq_default _ _ (by omega)]
  · rw [length_shrF] at h
    rw [List.getD_eq_default _ _ (by rw [length_shrF]; omega),
      List.getD_eq_default _ _ (by omega)]

theorem shrF_shrF (a : BitStr) (p q : Nat) (s : Bool) :
    shrF (shrF a p s) q s = shrF a (p + q) s := by
  apply List.ext_getElem
  · simp [length_shrF]
  · intro i h1 h2
    rw [← List.getD_eq_getElem _ s h1, ← List.getD_eq_getElem _ s h2,
      getD_shrF, getD_shrF, getD_shrF]
    congr 1
    omega

theorem shrUN_shrUN (a : BitStr) (p q : Nat) :
    shrUN (shrUN a p) q = shrUN a (p + q) := by
  rw [shrUN_eq_shrF, shrUN_eq_shrF, shrUN_eq_shrF, shrF_shrF]

theorem sign_shrSN (a : BitStr) (n : Nat) : sign (shrSN a n) = sign a := by
  cases n with
  | zero => simp [shrSN, sign]
  | succ m =>
      cases a with
      | nil => rfl
      | cons x xs =>
          rw [shrSN, sign, sign]
          have hk : (x :: xs).length - ((x :: xs).drop (m + 1)).length
              = ((x :: xs).length - ((x :: xs).drop (m + 1)).length - 1) + 1 := by
            simp
            omega
          rw [hk]
          simp only [List.getLastD_eq_getLast?, List.getLast?_append]
          rw [Option.or_of_isSome (by simp [List.replicate_succ])]
          rw [← List.getLastD_eq_getLast?]
          exact getLastD_replicate _ _ _ (Nat.succ_pos _)

theorem shrSN_shrSN (a : BitStr) (p q : Nat) :
    shrSN (shrSN a p) q = shrSN a (p + q) := by
  rw [shrSN_eq_shrF a p, shrSN_eq_shrF a (p + q)]
  rw [shrSN_eq_shrF (shrF a p (sign a)) q]
  rw [show sign (shrF a p (sign a)) = sign a from by
    rw [← shrSN_eq_shrF]; exact sign_shrSN a p]
  exact shrF_shrF a p q (sign a)

theorem getD_shlN (a : BitStr) (n : Nat) (i : Nat) :
    (shlN a n).getD i false
      = if i < a.length ∧ n ≤ i then a.getD (i - n) false else false := by
  by_cases h : i < a.length
  · have hl : i < (shlN a n).length := by rw [length_shlN]; exact h
    rw [List.getD_eq_getElem _ _ hl]
    by_cases h2 : n ≤ i
    · rw [if_pos ⟨h, h2⟩]
      have hi : i < n + a.length := by omega
      have hsk : i < (List.replicate n false ++ a).length := by
        simp
        omega
      have hrl : (List.replicate n (false : Bool)).length ≤ i := by
        simp
        omega
      simp only [shlN]
      rw [List.getElem_take, List.getElem_append_right hrl]
      rw [List.getD_eq_getElem _ _ (by simp at hsk ⊢; omega)]
      congr 1
      simp
    · rw [if_neg (by intro hc; exact h2 hc.2)]
      have hi : i < (List.replicate n (false : Bool)).length := by
        simp
        omega
      simp only [shlN]
      rw [List.getElem_take, List.getElem_append_left hi,
        List.getElem_replicate]
  · rw [if_neg (by intro hc; exact h hc.1)]
    rw [List.getD_eq_default _ _ (by rw [length_shlN]; omega)]

theorem shlN_shlN (a : BitStr) (p q : Nat) :
    shlN (shlN a p) q = shlN a (p + q) := by
  apply List.ext_getElem
  · simp [length_shlN]
  · intro i h1 h2
    rw [← List.getD_eq_getElem _ false h1, ← List.getD_eq_getElem _ false h2,
      getD_shlN, getD_shlN, getD_shlN, length_shlN]
    by_cases hq : i < a.length ∧ q ≤ i
    · rw [if_pos hq]
      by_cases hp : i - q < a.length ∧ p ≤ i - q
      · rw [if_pos hp, if_pos (by omega)]
        congr 1
        omega
      · rw [if_neg hp, if_neg (by omega)]
    · rw [if_neg hq, if_neg (by omega)]

end BitStr

theorem BitsVal.len {env : Nat → BitStr} {bs : BitsE} {v : BitStr}
    (h : BitsVal env bs v) : bs.length = v.length :=
  List.Forall₂.length_eq h

theorem bitsVal_append {env : Nat → BitStr} {l1 l2 : BitsE} {v1 v2 : BitStr}
    (h1 : BitsVal env l1 v1) (h2 : BitsVal env l2 v2) :
    BitsVal env (l1 ++ l2) (v1 ++ v2) :=
  List.rel_append h1 h2

theorem bitsVal_replicate {env : Nat → BitStr} {e : Expr} {b : Bool}
    (h : IsBit env e b) (n : Nat) :
    BitsVal env (List.replicate n e) (List.replicate n b) := by
  induction n with
  | zero => exact List.Forall₂.nil
  | succ m ih =>
      rw [List.replicate_succ, List.replicate_succ]
      exact List.Forall₂.cons h ih

theorem bitsVal_drop {env : Nat → BitStr} {bs : BitsE} {v : BitStr}
    (h : BitsVal env bs v) (n : Nat) : BitsVal env (bs.drop n) (v.drop n) :=
  List.forall₂_drop n h

theorem bitsVal_take {env : Nat → BitStr} {bs : BitsE} {v : BitStr}
    (h : BitsVal env bs v) (n : Nat) : BitsVal env (bs.take n) (v.take n) :=
  List.forall₂_take n h

theorem bitsVal_addSubGo {env : Nat → BitStr} (isSub : Bool) :
    ∀ {as_ bs : BitsE} {av bv : BitStr} {carryE : Expr} {c : Bool},
      BitsVal env as_ av → BitsVal env bs bv → IsBit env carryE c →
      BitsVal env (addSubGo isSub as_ bs carryE)
        (BitStr.addc av (if isSub then BitStr.bnot bv else bv) c) := by
  intro as_ bs av bv carryE c ha hb hc
  induction ha generalizing bs bv carryE c with
  | nil =>
      cases isSub <;> exact List.Forall₂.nil
  | cons hx hrest ih =>
      rename_i x a l1 l2
      cases hb with
      | nil => cases isSub <;> exact List.Forall₂.nil
      | cons hy hrest2 =>
          rename_i y b bs2 bv2
          cases isSub with
          | false =>
              simp only [addSubGo, BitStr.addc, Bool.false_eq_true, if_false]
              refine List.Forall₂.cons ?_ ?_
              · exact Bool.xor_assoc a b c ▸ bit_xor (bit_xor hx hy) hc
              · exact ih hrest2
                  (bit_or (bit_or (bit_and hc hx) (bit_and hc hy))
                    (bit_and hx hy))
          | true =>
              simp only [addSubGo, BitStr.bnot, List.map_cons, BitStr.addc,
                if_true]
              refine List.Forall₂.cons ?_ ?_
              · exact Bool.xor_assoc a (!b) c ▸
                  bit_xor (bit_xor hx (bit_not hy)) hc
              · have h2 := ih hrest2
                  (bit_or (bit_or (bit_and hc hx) (bit_and hc (bit_not hy)))
                    (bit_and hx (bit_not hy)))
                simpa [BitStr.bnot] using h2

theorem bitsVal_addSub {env : Nat → BitStr} {a b : BitsE} {av bv : BitStr}
    (isSub : Bool) (ha : BitsVal env a av) (hb : BitsVal env b bv) :
    BitsVal env (addSub a b isSub)
      (if isSub then BitStr.sub av bv else BitStr.add av bv) := by
  have h := bitsVal_addSubGo isSub ha hb (bit_constE env isSub)
  cases isSub with
  | false => exact h
  | true => exact h

theorem bitsVal_shrPass {env : Nat → BitStr} {bIt fillE : Expr} {c f : Bool}
    {old : BitsE} {ov : BitStr} (hb : IsBit env bIt c)
    (hf : IsBit env fillE f) (ho : BitsVal env old ov) (sh : Nat) :
    BitsVal env (shrPass bIt fillE sh old)
      (if c then BitStr.shrF ov sh f else ov) := by
  rw [shrPass]
  have hlen := BitsVal.len ho
  have happ : BitsVal env
      (old.drop sh ++ List.replicate (old.length - (old.drop sh).length) fillE)
      (BitStr.shrF ov sh f) := by
    rw [BitStr.shrF]
    have hc : old.length - (old.drop sh).length
        = ov.length - (ov.drop sh).length := by
      simp [hlen]
    rw [hc]
    exact bitsVal_append (bitsVal_drop ho sh) (bitsVal_replicate hf _)
  refine bitsVal_selVec hb happ ho ?_
  rw [BitStr.length_shrF]

theorem bitsVal_shlPass {env : Nat → BitStr} {bIt : Expr} {c : Bool}
    {old : BitsE} {ov : BitStr} (hb : IsBit env bIt c)
    (ho : BitsVal env old ov) (sh : Nat) :
    BitsVal env (shlPass bIt sh old)
      (if c then BitStr.shlN ov sh else ov) := by
  rw [shlPass]
  have hlen := BitsVal.len ho
  have happ : BitsVal env ((List.replicate sh zeroE ++ old).take old.length)
      (BitStr.shlN ov sh) := by
    rw [BitStr.shlN, hlen]
    exact bitsVal_take (bitsVal_append (bitsVal_replicate (bit_zeroE env) sh) ho) _
  refine bitsVal_selVec hb happ ho ?_
  rw [BitStr.length_shlN]

theorem bitsVal_shrGo {env : Nat → BitStr} {fillE : Expr} {f : Bool}
    (hf : IsBit env fillE f) (av : BitStr) :
    ∀ {bs : BitsE} {bv : BitStr} (it : Nat) {old : BitsE} {n : Nat},
      BitsVal env bs bv → BitsVal env old (BitStr.shrF av n f) →
      BitsVal env (shrGo fillE bs it old)
        (BitStr.shrF av (n + 2 ^ it * BitStr.toNat bv) f) := by
  intro bs
  induction bs with
  | nil =>
      intro bv it old n hb ho
      cases hb
      simpa [BitStr.toNat] using ho
  | cons bIt rest ih =>
      intro bv it old n hb ho
      cases hb with
      | cons hc hrest =>
          rename_i c cv
          rw [shrGo]
          have hstep := bitsVal_shrPass hc hf ho (2 ^ it)
          have hstep2 : BitsVal env (shrPass bIt fillE (2 ^ it) old)
              (BitStr.shrF av (n + (cond c 1 0) * 2 ^ it) f) := by
            cases c with
            | true =>
                rw [if_pos rfl, BitStr.shrF_shrF] at hstep
                simpa using hstep
            | false => simpa using hstep
          have h2 := ih (it + 1) hrest hstep2
          have harith : n + (cond c 1 0) * 2 ^ it
              + 2 ^ (it + 1) * BitStr.toNat cv
              = n + 2 ^ it * BitStr.toNat (c :: cv) := by
            rw [BitStr.toNat]
            rw [Nat.pow_succ]
            cases c <;> simp <;> ring
          rw [harith] at h2
          exact h2

theorem bitsVal_shlGo {env : Nat → BitStr} (av : BitStr) :
    ∀ {bs : BitsE} {bv : BitStr} (it : Nat) {old : BitsE} {n : Nat},
      BitsVal env bs bv → BitsVal env old (BitStr.shlN av n) →
      BitsVal env (shlGo bs it old)
        (BitStr.shlN av (n + 2 ^ it * BitStr.toNat bv)) := by
  intro bs
  induction bs with
  | nil =>
      intro bv it old n hb ho
      cases hb
      simpa [BitStr.toNat] using ho
  | cons bIt rest ih =>
      intro bv it old n hb ho
      cases hb with
      | cons hc hrest =>
          rename_i c cv
          rw [shlGo]
          have hstep := bitsVal_shlPass hc ho (2 ^ it)
          have hstep2 : BitsVal env (shlPass bIt (2 ^ it) old)
              (BitStr.shlN av (n + (cond c 1 0) * 2 ^ it)) := by
            cases c with
            | true =>
                rw [if_pos rfl, BitStr.shlN_shlN] at hstep
                simpa using hstep
            | false => simpa using hstep
          have h2 := ih (it + 1) hrest hstep2
          have harith : n + (cond c 1 0) * 2 ^ it
              + 2 ^ (it + 1) * BitStr.toNat cv
              = n + 2 ^ it * BitStr.toNat (c :: cv) := by
            rw [BitStr.toNat]
            rw [Nat.pow_succ]
            cases c <;> simp <;> ring
          rw [harith] at h2
          exact h2

theorem beq_eq_decide {as bs : BitStr} (hl : as.length = bs.length) :
    BitStr.beq as bs = decide (as = bs) := by
  rw [BitStr.beq, if_neg (by omega)]
  by_cases h : as = bs
  · subst h
    simp
  · simp [h]

theorem ltU_cons (a b : Bool) (as bs : BitStr) (hl : as.length = bs.length) :
    BitStr.ltU (a :: as) (b :: bs)
      = (BitStr.ltU as bs || (!(BitStr.bne as bs) && (!a && b))) := by
  have hiff : (!(BitStr.bne as bs))
      = decide (BitStr.toNat as = BitStr.toNat bs) := by
    rw [BitStr.bne, Bool.not_not, beq_eq_decide hl]
    by_cases h : as = bs
    · subst h
      simp
    · have h2 : BitStr.toNat as ≠ BitStr.toNat bs :=
        fun hc => h (BitStr.toNat_inj hl hc)
      simp [h, h2]
  rw [hiff, BitStr.ltU, BitStr.ltU, BitStr.toNat, BitStr.toNat]
  cases a <;> cases b <;>
    simp only [cond_true, cond_false, Bool.not_true, Bool.not_false,
      Bool.true_and, Bool.false_and, Bool.and_true, Bool.and_false,
      Bool.or_false, ← Bool.decide_and, ← Bool.decide_or,
      decide_eq_decide] <;>
    omega

theorem bne_cons (a b : Bool) (as bs : BitStr) (hl : as.length = bs.length) :
    BitStr.bne (a :: as) (b :: bs) = (BitStr.bne as bs || xor a b) := by
  rw [BitStr.bne, BitStr.bne, BitStr.beq, BitStr.beq]
  rw [if_neg (by simp; omega), if_neg (by omega)]
  rw [List.cons_beq_cons]
  cases a <;> cases b <;> cases h : as == bs <;> simp [h]

theorem ltUChain_val {env : Nat → BitStr} :
    ∀ {a b : BitsE} {av bv : BitStr}, BitsVal env a av → BitsVal env b bv →
      av.length = bv.length →
      IsBit env (ltUChain (a.zip b)).1 (BitStr.ltU av bv) ∧
        IsBit env (ltUChain (a.zip b)).2 (BitStr.bne av bv) := by
  intro a b av bv ha hb hl
  induction ha generalizing b bv with
  | nil =>
      cases hb with
      | nil => exact ⟨bit_zeroE env, bit_zeroE env⟩
      | cons hy hrest => simp at hl
  | cons hx hrest ih =>
      rename_i x a1 l1 l2
      cases hb with
      | nil => simp at hl
      | cons hy hrest2 =>
          rename_i y b1 bs2 bv2
          have hl2 : l2.length = bv2.length := by simpa using hl
          obtain ⟨ihr, ihi⟩ := ih hrest2 hl2
          rw [List.zip_cons_cons]
          have hun : ltUChain ((x, y) :: List.zip l1 bs2)
              = (opG .Or [(ltUChain (List.zip l1 bs2)).1,
                   opG .And [opG .Not [(ltUChain (List.zip l1 bs2)).2],
                     opG .And [opG .Not [x], y]]],
                 opG .Or [(ltUChain (List.zip l1 bs2)).2,
                   opG .Xor [x, y]]) := rfl
          rw [hun]
          constructor
          · rw [ltU_cons a1 b1 l2 bv2 hl2]
            exact bit_or ihr
              (bit_and (bit_not ihi) (bit_and (bit_not hx) hy))
          · rw [bne_cons a1 b1 l2 bv2 hl2]
            exact bit_or ihi (bit_xor hx hy)

theorem eqGo_val {env : Nat → BitStr} :
    ∀ {a b : BitsE} {av bv : BitStr} {acc : Expr} {accv : Bool},
      BitsVal env a av → BitsVal env b bv → IsBit env acc accv →
      av.length = bv.length →
      IsBit env (eqGo (a.zip b) acc) (accv || BitStr.bne av bv) := by
  intro a b av bv acc accv ha hb hacc hl
  induction ha generalizing b bv acc accv with
  | nil =>
      cases hb with
      | nil =>
          have hv : BitStr.bne [] [] = false := by decide
          rw [List.zip_nil_left, eqGo, hv, Bool.or_false]
          exact hacc
      | cons hy hrest => simp at hl
  | cons hx hrest ih =>
      rename_i x a1 l1 l2
      cases hb with
      | nil => simp at hl
      | cons hy hrest2 =>
          rename_i y b1 bs2 bv2
          have hl2 : l2.length = bv2.length := by simpa using hl
          rw [List.zip_cons_cons, eqGo]
          have h := ih hrest2 (bit_or hacc (bit_xor hx hy)) hl2
          rw [bne_cons a1 b1 l2 bv2 hl2]
          have harr : ((accv || xor a1 b1) || BitStr.bne l2 bv2)
              = (accv || (BitStr.bne l2 bv2 || xor a1 b1)) := by
            cases accv <;> cases BitStr.bne l2 bv2 <;> cases xor a1 b1 <;>
              decide
          rw [harr] at h
          exact h

theorem bitsVal_getLast {env : Nat → BitStr} :
    ∀ {a : BitsE} {av : BitStr}, BitsVal env a av → av ≠ [] →
      IsBit env (a.getLastD zeroE) (BitStr.sign av) := by
  intro a av ha hne
  induction ha with
  | nil => exact absurd rfl hne
  | cons hx hrest ih =>
      rename_i x a1 l1 l2
      cases hrest with
      | nil =>
          have : BitStr.sign [a1] = a1 := rfl
          rw [this]
          exact hx
      | cons hy hrest2 =>
          rename_i y b1 bs2 bv2
          have h2 := ih (by simp)
          have hs : BitStr.sign (a1 :: b1 :: bv2) = BitStr.sign (b1 :: bv2) :=
            rfl
          rw [hs, List.getLastD_cons, List.getLastD_cons]
          rw [List.getLastD_cons] at h2
          exact h2

theorem ltSFlat_val {env : Nat → BitStr} {a b : BitsE} {av bv : BitStr}
    (ha : BitsVal env a av) (hb : BitsVal env b bv)
    (hl : av.length = bv.length) (hpos : av ≠ []) :
    IsBit env (ltSFlat a b) (BitStr.ltS av bv) := by
  have hbne : bv ≠ [] := by
    intro hc
    subst hc
    simp at hl
    exact hpos hl
  have hsa := bitsVal_getLast ha hpos
  have hsb := bitsVal_getLast hb hbne
  have hltu := (ltUChain_val ha hb hl).1
  have h := bit_select (bit_xor hsa hsb)
    (bit_and hsa (bit_not hsb)) hltu
  have hval : (if xor (BitStr.sign av) (BitStr.sign bv) = true
      then (BitStr.sign av && !BitStr.sign bv) else BitStr.ltU av bv)
      = BitStr.ltS av bv := by
    rw [BitStr.ltS]
    cases hs1 : BitStr.sign av <;> cases hs2 : BitStr.sign bv <;> simp
  rw [ltSFlat]
  rw [hval] at h
  exact h

theorem bitsVal_mulGo {env : Nat → BitStr} {aE : BitsE} {av : BitStr}
    (ha : BitsVal env aE av) (w : Nat) :
    ∀ {bs : BitsE} {bv : BitStr} (shift : Nat) {result : BitsE}
      {rv : BitStr},
      BitsVal env bs bv → BitsVal env result rv → rv.length = w →
      shift + bv.length + av.length ≤ w →
      BitStr.toNat rv + BitStr.toNat av * (2 ^ shift * BitStr.toNat bv)
        < 2 ^ w →
      ∃ fv, BitsVal env (mulGo aE w bs shift result) fv ∧ fv.length = w ∧
        BitStr.toNat fv
          = BitStr.toNat rv
            + BitStr.toNat av * (2 ^ shift * BitStr.toNat bv) := by
  intro bs
  induction bs with
  | nil =>
      intro bv shift result rv hb ho hlen hsum hbound
      cases hb
      refine ⟨rv, ho, hlen, ?_⟩
      simp [BitStr.toNat]
  | cons bIt rest ih =>
      intro bv shift result rv hb ho hlen hsum hbound
      cases hb with
      | cons hc hrest =>
          rename_i c cv
          rw [mulGo]
          have hlenA := BitsVal.len ha
          have hpadv : BitsVal env
              (List.replicate shift zeroE ++ aE
                ++ List.replicate (w - (shift + aE.length)) zeroE)
              (List.replicate shift false ++ av
                ++ List.replicate (w - (shift + av.length)) false) := by
            rw [hlenA]
            exact bitsVal_append
              (bitsVal_append (bitsVal_replicate (bit_zeroE env) shift) ha)
              (bitsVal_replicate (bit_zeroE env) _)
          have hsum2 : shift + av.length ≤ w := by
            simp at hsum
            omega
          have hsvlen : (List.replicate shift false ++ av
              ++ List.replicate (w - (shift + av.length)) false).length
              = w := by
            simp
            omega
          have hsvval : BitStr.toNat (List.replicate shift false ++ av
              ++ List.replicate (w - (shift + av.length)) false)
              = 2 ^ shift * BitStr.toNat av := by
            rw [List.append_assoc, BitStr.toNat_append,
              BitStr.toNat_replicate_false, BitStr.toNat_append,
              BitStr.toNat_replicate_false]
            simp
          have hleq2 : rv.length = (List.replicate shift false ++ av
              ++ List.replicate (w - (shift + av.length)) false).length := by
            rw [hlen, hsvlen]
          have haddv : BitsVal env
              (addSub result
                (List.replicate shift zeroE ++ aE
                  ++ List.replicate (w - (shift + aE.length)) zeroE) false)
              (BitStr.add rv
                (List.replicate shift false ++ av
                  ++ List.replicate (w - (shift + av.length)) false)) :=
            bitsVal_addSub false ho hpadv
          have haddlen := BitStr.length_add rv _ hleq2
          have hsel := bitsVal_selVec hc haddv ho (by rw [haddlen])
          cases c with
          | true =>
              rw [if_pos rfl] at hsel
              have htcv : 1 ≤ BitStr.toNat (true :: cv) := by
                rw [BitStr.toNat]
                simp only [cond_true]
                omega
              have hle : 2 ^ shift * BitStr.toNat av
                  ≤ BitStr.toNat av
                    * (2 ^ shift * BitStr.toNat (true :: cv)) := by
                have h1 : 2 ^ shift * 1
                    ≤ 2 ^ shift * BitStr.toNat (true :: cv) :=
                  Nat.mul_le_mul_left _ htcv
                calc 2 ^ shift * BitStr.toNat av
                    = BitStr.toNat av * (2 ^ shift * 1) := by ring
                  _ ≤ BitStr.toNat av
                      * (2 ^ shift * BitStr.toNat (true :: cv)) :=
                    Nat.mul_le_mul_left _ h1
              have hmod : BitStr.toNat (BitStr.add rv
                  (List.replicate shift false ++ av
                    ++ List.replicate (w - (shift + av.length)) false))
                  = BitStr.toNat rv + 2 ^ shift * BitStr.toNat av := by
                rw [BitStr.toNat_add rv _ hleq2, hsvval, hlen]
                apply Nat.mod_eq_of_lt
                omega
              have hbound2 : BitStr.toNat (BitStr.add rv
                  (List.replicate shift false ++ av
                    ++ List.replicate (w - (shift + av.length)) false))
                  + BitStr.toNat av * (2 ^ (shift + 1) * BitStr.toNat cv)
                  < 2 ^ w := by
                rw [hmod, Nat.pow_succ]
                have heq : BitStr.toNat rv + 2 ^ shift * BitStr.toNat av
                    + BitStr.toNat av
                      * (2 ^ shift * 2 * BitStr.toNat cv)
                    = BitStr.toNat rv
                      + BitStr.toNat av
                        * (2 ^ shift * BitStr.toNat (true :: cv)) := by
                  rw [BitStr.toNat]
                  simp only [cond_true]
                  ring
                rw [heq]
                exact hbound
              obtain ⟨fv, hfv, hfl, hft⟩ := ih (shift + 1) hrest hsel
                (by rw [haddlen, hlen])
                (by simp at hsum ⊢; omega) hbound2
              refine ⟨fv, hfv, hfl, ?_⟩
              rw [hft, hmod, Nat.pow_succ, BitStr.toNat]
              simp only [cond_true]
              ring
          | false =>
              have hsel2 : BitsVal env
                  (selVec bIt
                    (addSub result
                      (List.replicate shift zeroE ++ aE
                        ++ List.replicate (w - (shift + aE.length)) zeroE)
                      false)
                    result) rv := by
                simpa using hsel
              have heqv : BitStr.toNat av
                  * (2 ^ (shift + 1) * BitStr.toNat cv)
                  = BitStr.toNat av
                    * (2 ^ shift * BitStr.toNat (false :: cv)) := by
                rw [BitStr.toNat, Nat.pow_succ]
                simp only [cond_false]
                ring
              obtain ⟨fv, hfv, hfl, hft⟩ := ih (shift + 1) hrest hsel2 hlen
                (by simp at hsum ⊢; omega) (by rw [heqv]; exact hbound)
              refine ⟨fv, hfv, hfl, ?_⟩
              rw [hft, heqv]

theorem bitsVal_mulFlat {env : Nat → BitStr} {aE bE : BitsE} {av bv : BitStr}
    (ha : BitsVal env aE av) (hb : BitsVal env bE bv) :
    BitsVal env (mulFlat aE bE) (BitStr.mulU av bv) := by
  have hla := BitsVal.len ha
  have hlb := BitsVal.len hb
  rw [mulFlat, hla, hlb]
  have hinit : BitsVal env (List.replicate (av.length + bv.length) zeroE)
      (List.replicate (av.length + bv.length) false) :=
    bitsVal_replicate (bit_zeroE env) _
  have hbound : BitStr.toNat (List.replicate (av.length + bv.length) false)
      + BitStr.toNat av * (2 ^ 0 * BitStr.toNat bv)
      < 2 ^ (av.length + bv.length) := by
    rw [BitStr.toNat_replicate_false, Nat.pow_zero, Nat.one_mul,
      Nat.zero_add, Nat.pow_add]
    have h1 := BitStr.toNat_lt av
    have h2 := BitStr.toNat_lt bv
    have h3 : BitStr.toNat av * BitStr.toNat bv
        ≤ (2 ^ av.length - 1) * (2 ^ bv.length - 1) :=
      Nat.mul_le_mul (by omega) (by omega)
    have h4 : 1 ≤ 2 ^ av.length := Nat.one_le_two_pow
    have h5 : 1 ≤ 2 ^ bv.length := Nat.one_le_two_pow
    nlinarith
  obtain ⟨fv, hfv, hfl, hft⟩ := bitsVal_mulGo ha (av.length + bv.length) 0
    hb hinit (by simp) (by omega) hbound
  have hfveq : fv = BitStr.mulU av bv := by
    have h1 : BitStr.ofNat fv.length (BitStr.toNat fv) = fv :=
      BitStr.ofNat_toNat fv
    rw [hfl, hft, BitStr.toNat_replicate_false, Nat.pow_zero, Nat.one_mul,
      Nat.zero_add] at h1
    rw [BitStr.mulU, ← h1]
  rw [← hfveq]
  exact hfv

end HdlSpec
